import Mathlib

/-!
# MapTools (src/MapTools.cpp): grid layers, sector flood fill, distance-map cache

Shallow embedding of `MapTools`.  Conventions:

* C++ `int` values (coordinates, sector numbers, frame counter) are `Int`; every value the
  code computes is bounded by the map dimensions, the tile count or the number of frames
  (taken below `2^31`), so no arithmetic wraps.
* `std::vector<std::vector<T>>` is `List (List T)`, outer index `x`, inner index `y`.
  `vvAt` is the raw `v[x][y]`: it is `none` when the index is outside the stored vectors
  (undefined behaviour in the source).  Reads that the source guards with `isValidTile` use
  `vvGet`, which is `vvAt` with the value type's default; under `Shaped` the guard makes the
  read in range (`vvAt_isSome_of_shaped`), so the default is never taken.
* Engine collaborators (`canBuild`, `canWalk`, `terainHeight`, visibility, `DistanceMap`,
  `Util::GetTilePosition`) are parameters.
* The breadth-first loop of `computeConnectivity` takes fuel, `m_width * m_height` (the
  capacity the source reserves for the fringe); `none` means the fuel ran out, and
  `computeConnectivity_total` shows it never does.
-/

namespace MapTools

/-! ## Containers -/

/-- Raw `v[x][y]` on a `vector<vector<T>>`; `none` when an index is out of range
(a negative `int` index converts to a huge `size_t`). -/
def vvAt {α : Type} (v : List (List α)) (x y : Int) : Option α :=
  if 0 ≤ x ∧ 0 ≤ y then (v[x.toNat]?).bind (fun col => col[y.toNat]?) else none

/-- Read `v[x][y]` where the source has already checked `isValidTile`. -/
def vvGet {α : Type} [Inhabited α] (v : List (List α)) (x y : Int) : α :=
  (vvAt v x y).getD default

/-- Assignment `v[x][y] = a`. -/
def vvSet {α : Type} (v : List (List α)) (x y : Int) (a : α) : List (List α) :=
  if 0 ≤ x ∧ 0 ≤ y then v.modify (fun col => col.set y.toNat a) x.toNat else v

/-- Constructor `vv(w, std::vector<T>(h, a))`. -/
def vvNew {α : Type} (w h : Nat) (a : α) : List (List α) :=
  List.replicate w (List.replicate h a)

/-- The values `0, 1, .., n-1` of a loop `for (int i = 0; i < n; ++i)`. -/
def loopRange (n : Int) : List Int :=
  (List.range n.toNat).map Int.ofNat

/-- A `std::map<K, V>`: association list with pairwise distinct keys. -/
structure StdMap (K V : Type) where
  entries : List (K × V)
  nodup : (entries.map Prod.fst).Nodup

namespace StdMap

variable {K V : Type} [DecidableEq K]

/-- The empty map (also the result of `clear()`). -/
def empty : StdMap K V := ⟨[], List.nodup_nil⟩

/-- Member `size()`. -/
def size (c : StdMap K V) : Nat := c.entries.length

/-- Member `find(k)`: `none` stands for `end()`. -/
def find (c : StdMap K V) (k : K) : Option V :=
  (c.entries.find? (fun e => decide (e.1 = k))).map Prod.snd

/-- Assignment `c[k] = v`: replaces the mapped value of `k`, inserting the key if absent. -/
def set (c : StdMap K V) (k : K) (v : V) : StdMap K V :=
  ⟨(k, v) :: c.entries.filter (fun e => decide (e.1 ≠ k)), by
    rw [List.map_cons, List.nodup_cons]
    refine ⟨?_, (c.nodup.sublist (List.Sublist.map _ (List.filter_sublist _)))⟩
    intro hk
    rcases List.mem_map.1 hk with ⟨e, he, hek⟩
    have := (List.mem_filter.1 he).2
    simp [hek] at this⟩

end StdMap

/-! ## State -/

/-- Stored terrain height (a finite `float`). -/
abbrev Height := ℚ

/-- A tile position `(x, y)` (`CCTilePosition`, `std::array<int, 2>`, `std::pair<int,int>`). -/
abbrev Tile := Int × Int

/-- The data members of `MapTools`; `DM` is the `DistanceMap` class. -/
structure State (DM : Type) where
  m_width : Int
  m_height : Int
  m_frame : Int
  m_walkable : List (List Bool)
  m_buildable : List (List Bool)
  m_depotBuildable : List (List Bool)
  m_lastSeen : List (List Int)
  m_sectorNumber : List (List Int)
  m_terrainHeight : List (List Height)
  _allMaps : StdMap Tile DM

variable {DM : Type}

/-- Constructor `MapTools::MapTools`: width, height and frame are 0, containers are empty. -/
def new : State DM :=
  { m_width := 0, m_height := 0, m_frame := 0, m_walkable := [], m_buildable := [],
    m_depotBuildable := [], m_lastSeen := [], m_sectorNumber := [], m_terrainHeight := [],
    _allMaps := StdMap.empty }

/-! ## Queries -/

/-- Source `MapTools::isValidTile(int, int)`. -/
def isValidTile (m : State DM) (tileX tileY : Int) : Bool :=
  decide (tileX ≥ 0) && decide (tileY ≥ 0) && decide (tileX < m.m_width) &&
    decide (tileY < m.m_height)

/-- Source `MapTools::getSectorNumber`. -/
def getSectorNumber (m : State DM) (x y : Int) : Int :=
  if !isValidTile m x y then 0 else vvGet m.m_sectorNumber x y

/-- Source `MapTools::isWalkable(int, int)`. -/
def isWalkable (m : State DM) (tileX tileY : Int) : Bool :=
  if !isValidTile m tileX tileY then false else vvGet m.m_walkable tileX tileY

/-- Source `MapTools::isBuildable(int, int)`. -/
def isBuildable (m : State DM) (tileX tileY : Int) : Bool :=
  if !isValidTile m tileX tileY then false else vvGet m.m_buildable tileX tileY

/-- Source `MapTools::isDepotBuildableTile`. -/
def isDepotBuildableTile (m : State DM) (tileX tileY : Int) : Bool :=
  if !isValidTile m tileX tileY then false else vvGet m.m_depotBuildable tileX tileY

/-- Source `MapTools::isConnected(int, int, int, int)`. -/
def isConnected (m : State DM) (x1 y1 x2 y2 : Int) : Bool :=
  if !isValidTile m x1 y1 || !isValidTile m x2 y2 then false
  else
    let s1 := getSectorNumber m x1 y1
    let s2 := getSectorNumber m x2 y2
    s1 != 0 && (s1 == s2)

/-- Source `MapTools::isVisible`: `visible` is the engine's answer for the current frame. -/
def isVisible (m : State DM) (visible : Int → Int → Bool) (tileX tileY : Int) : Bool :=
  if !isValidTile m tileX tileY then false else visible tileX tileY

/-- The cast `(int)x` of a `float`: truncation toward zero. -/
def floatToInt (x : ℚ) : Int := Int.tdiv x.num x.den

/-- Source `MapTools::terrainHeight(float, float)`: an unguarded `m_terrainHeight[(int)x][(int)y]`. -/
def terrainHeight (m : State DM) (x y : ℚ) : Option Height :=
  vvAt m.m_terrainHeight (floatToInt x) (floatToInt y)

/-! ## Startup and per-frame update -/

/-- Body of the population loop of `onStart` for the tile `(x, y)`. -/
def onStartCell (canBuild canWalk : Int → Int → Bool) (terainHeight : ℚ → ℚ → Height)
    (m : State DM) (x y : Int) : State DM :=
  let m1 := { m with m_buildable := vvSet m.m_buildable x y (canBuild x y) }
  let m2 := { m1 with
    m_walkable := vvSet m1.m_walkable x y (vvGet m1.m_buildable x y || canWalk x y) }
  { m2 with m_terrainHeight := vvSet m2.m_terrainHeight x y (terainHeight (x : ℚ) (y : ℚ)) }

/-- First half of `onStart`: set the dimensions, allocate the six layers, run the population
loop.  The arguments `width`, `height` are the map dimensions reported by the engine. -/
def onStartLayers (canBuild canWalk : Int → Int → Bool) (terainHeight : ℚ → ℚ → Height)
    (m : State DM) (width height : Nat) : State DM :=
  let m1 : State DM := { m with
    m_width := (width : Int), m_height := (height : Int),
    m_walkable := vvNew width height true,
    m_buildable := vvNew width height false,
    m_depotBuildable := vvNew width height false,
    m_lastSeen := vvNew width height 0,
    m_sectorNumber := vvNew width height 0,
    m_terrainHeight := vvNew width height 0 }
  (loopRange m1.m_width).foldl (fun m2 x =>
    (loopRange m1.m_height).foldl (fun m3 y =>
      onStartCell canBuild canWalk terainHeight m3 x y) m2) m1

/-- The value a C++ `int` (32 bits, two's complement) holds for the mathematical result `x`:
`x` itself from `-2147483648` to `2147483647`, wrapped around outside that range. -/
def wrapInt (x : Int) : Int :=
  (x + 2147483648) % 4294967296 - 2147483648

/-- Source `MapTools::onFrame`; `visible` is the engine's visibility during this call
(`draw()` changes no member).  `m_frame` is an `int`: `m_frame++` wraps around at
`INT_MAX`. -/
def onFrame (visible : Int → Int → Bool) (m : State DM) : State DM :=
  let m1 := { m with m_frame := wrapInt (m.m_frame + 1) }
  (loopRange m1.m_width).foldl (fun m2 x =>
    (loopRange m1.m_height).foldl (fun m3 y =>
      if isVisible m3 visible x y then
        { m3 with m_lastSeen := vvSet m3.m_lastSeen x y m3.m_frame }
      else m3) m2) m1

/-- A run of `onFrame` calls, one per visibility set, oldest first. -/
def runFrames (vs : List (Int → Int → Bool)) (m : State DM) : State DM :=
  vs.foldl (fun m1 v => onFrame v m1) m

/-! ## Connectivity flood fill -/

/-- Constant `LegalActions`. -/
def LegalActions : Nat := 4

/-- Table `actionX`. -/
def actionX : List Int := [1, -1, 0, 0]

/-- Table `actionY`. -/
def actionY : List Int := [0, 0, 1, -1]

/-- Body of the loop over the legal actions in `computeConnectivity`, for the fringe tile
`tile` and the action index `a`; the state is the object and the fringe. -/
def expandAction (sectorNumber : Int) (tile : Tile) (st : State DM × List Tile) (a : Nat) :
    State DM × List Tile :=
  let nextX := tile.1 + actionX.getD a 0
  let nextY := tile.2 + actionY.getD a 0
  if isValidTile st.1 nextX nextY && isWalkable st.1 nextX nextY &&
      (getSectorNumber st.1 nextX nextY == 0) then
    ({ st.1 with m_sectorNumber := vvSet st.1.m_sectorNumber nextX nextY sectorNumber },
      st.2 ++ [(nextX, nextY)])
  else st

/-- The breadth-first loop `for (fringeIndex = 0; fringeIndex < fringe.size(); ++fringeIndex)`
of `computeConnectivity`, started at `fringeIndex`; one unit of fuel per iteration. -/
def bfsLoop (sectorNumber : Int) :
    Nat → State DM → List Tile → Nat → Option (State DM × List Tile)
  | 0, m, fringe, fringeIndex =>
    if fringeIndex < fringe.length then none else some (m, fringe)
  | fuel + 1, m, fringe, fringeIndex =>
    match fringe[fringeIndex]? with
    | none => some (m, fringe)
    | some tile =>
      let st := (List.range LegalActions).foldl (expandAction sectorNumber tile) (m, fringe)
      bfsLoop sectorNumber fuel st.1 st.2 (fringeIndex + 1)

/-- Body of the double loop of `computeConnectivity` for the tile `(x, y)`; the state is the
object and the local counter `sectorNumber`. -/
def visitTile (st : State DM × Int) (x y : Int) : Option (State DM × Int) :=
  if getSectorNumber st.1 x y != 0 || !isWalkable st.1 x y then some st
  else
    let sectorNumber := st.2 + 1
    let m1 := { st.1 with m_sectorNumber := vvSet st.1.m_sectorNumber x y sectorNumber }
    (bfsLoop sectorNumber (st.1.m_width * st.1.m_height).toNat m1 [(x, y)] 0).map
      (fun r => (r.1, sectorNumber))

/-- The double loop of `computeConnectivity`, returning the object and the final value of
the local counter `sectorNumber`. -/
def connectivityLoop (m : State DM) : Option (State DM × Int) :=
  (loopRange m.m_width).foldlM (fun st x =>
    (loopRange m.m_height).foldlM (fun st1 y => visitTile st1 x y) st) (m, 0)

/-- Source `MapTools::computeConnectivity`. -/
def computeConnectivity (m : State DM) : Option (State DM) :=
  (connectivityLoop m).map Prod.fst

/-- Source `MapTools::onStart`, called on the object `m` (`m_maxZ` is used by the debug
drawing only and is left out). -/
def onStart (canBuild canWalk : Int → Int → Bool) (terainHeight : ℚ → ℚ → Height)
    (m : State DM) (width height : Nat) : Option (State DM) :=
  computeConnectivity (onStartLayers canBuild canWalk terainHeight m width height)

/-! ## Distance-map cache -/

/-- The members of class `DistanceMap` that `MapTools` calls, and `Util::GetTilePosition`. -/
structure DistanceMapOps (DM Pos : Type) where
  /-- Default constructor `DistanceMap()`. -/
  ctor : DM
  /-- Method `computeDistanceMap(m_bot, tile)` on the receiver given first. -/
  computeDistanceMap : DM → State DM → Tile → DM
  /-- Method `getDistance(pos)`. -/
  getDistance : DM → Pos → Int
  /-- Method `getSortedTiles()`. -/
  getSortedTiles : DM → List Tile
  /-- Function `Util::GetTilePosition`. -/
  GetTilePosition : Pos → Tile

/-- Read of `c[k]` for a key that is present (`dflt` is what `operator[]` would insert for
an absent key). -/
def StdMap.index {K V : Type} [DecidableEq K] (c : StdMap K V) (k : K) (dflt : V) : V :=
  (c.find k).getD dflt

/-- Source `MapTools::getDistanceMap(const CCTilePosition &)`: the returned map and the
object after the call. -/
def getDistanceMap {Pos : Type} (D : DistanceMapOps DM Pos) (m : State DM) (tile : Tile) :
    DM × State DM :=
  let pairTile : Int × Int := (tile.1, tile.2)
  let m2 :=
    if (m._allMaps.find pairTile).isNone then
      let m1 := { m with _allMaps := m._allMaps.set pairTile D.ctor }
      let d := D.computeDistanceMap (m1._allMaps.index pairTile D.ctor) m1 tile
      { m1 with _allMaps := m1._allMaps.set pairTile d }
    else m
  (m2._allMaps.index pairTile D.ctor, m2)

/-- Source `MapTools::getDistanceMap(const CCPosition &)`. -/
def getDistanceMapPos {Pos : Type} (D : DistanceMapOps DM Pos) (m : State DM) (pos : Pos) :
    DM × State DM :=
  getDistanceMap D m (D.GetTilePosition pos)

/-- Source `MapTools::getGroundDistance`: the returned distance and the object after the
call. -/
def getGroundDistance {Pos : Type} (D : DistanceMapOps DM Pos) (m : State DM)
    (src dest : Pos) : Int × State DM :=
  let m1 := if m._allMaps.size > 50 then { m with _allMaps := StdMap.empty } else m
  let r := getDistanceMapPos D m1 dest
  (D.getDistance r.1 src, r.2)

/-- Source `MapTools::getClosestTilesTo`. -/
def getClosestTilesTo {Pos : Type} (D : DistanceMapOps DM Pos) (m : State DM) (pos : Tile) :
    List Tile × State DM :=
  let r := getDistanceMap D m pos
  (D.getSortedTiles r.1, r.2)

/-! ## Least recently seen tile -/

/-- Value `std::numeric_limits<int>::max()`. -/
def INT_MAX : Int := 2147483647

/-- Source `MapTools::getLeastRecentlySeenTile`: `closestTiles` is the tile list of the
player's starting base, `leastSeen0` the default-constructed `CCTilePosition`. -/
def getLeastRecentlySeenTile (m : State DM) (closestTiles : List Tile) (leastSeen0 : Tile) :
    Tile :=
  (closestTiles.foldl (fun (st : Int × Tile) tile =>
    let lastSeen := vvGet m.m_lastSeen tile.1 tile.2
    if lastSeen < st.1 then (lastSeen, tile) else st) (INT_MAX, leastSeen0)).2

/-! ## Specification vocabulary -/

/-- Every column list has the given height and there are `w` of them. -/
def LayerShaped {α : Type} (v : List (List α)) (w h : Int) : Prop :=
  (v.length : Int) = w ∧ ∀ col ∈ v, (col.length : Int) = h

/-- The layers have the dimensions `onStart` gives them. -/
structure Shaped (m : State DM) : Prop where
  walkable : LayerShaped m.m_walkable m.m_width m.m_height
  buildable : LayerShaped m.m_buildable m.m_width m.m_height
  depotBuildable : LayerShaped m.m_depotBuildable m.m_width m.m_height
  lastSeen : LayerShaped m.m_lastSeen m.m_width m.m_height
  sectorNumber : LayerShaped m.m_sectorNumber m.m_width m.m_height
  terrainHeight : LayerShaped m.m_terrainHeight m.m_width m.m_height

/-- The two tiles differ by one step in one of the four axis directions. -/
def Adj (a b : Tile) : Prop :=
  b = (a.1 + 1, a.2) ∨ b = (a.1 - 1, a.2) ∨ b = (a.1, a.2 + 1) ∨ b = (a.1, a.2 - 1)

/-- The list is a 4-directional path of in-bounds walkable tiles from `a` to `b`. -/
def IsWalkPath (m : State DM) (a b : Tile) (p : List Tile) : Prop :=
  p.head? = some a ∧ p.getLast? = some b ∧ List.Chain' Adj p ∧
    ∀ t ∈ p, isValidTile m t.1 t.2 = true ∧ isWalkable m t.1 t.2 = true

/-- The walkability of a tile, as `isWalkable` answers it. -/
def walkOf (m : State DM) (t : Tile) : Bool := isWalkable m t.1 t.2

/-- The sector number of a tile, as `getSectorNumber` answers it. -/
def secOf (m : State DM) (t : Tile) : Int := getSectorNumber m t.1 t.2

/-- One step between adjacent walkable tiles. -/
def Step (walk : Tile → Bool) (a b : Tile) : Prop :=
  Adj a b ∧ walk a = true ∧ walk b = true

/-- Reachability by steps between adjacent walkable tiles. -/
def Reach (walk : Tile → Bool) (a b : Tile) : Prop :=
  Relation.ReflTransGen (Step walk) a b

/-- The object `m1` is `m` with another sector layer of the same dimensions. -/
structure SameGrid (m m1 : State DM) : Prop where
  width : m1.m_width = m.m_width
  height : m1.m_height = m.m_height
  frame : m1.m_frame = m.m_frame
  walkable : m1.m_walkable = m.m_walkable
  buildable : m1.m_buildable = m.m_buildable
  depotBuildable : m1.m_depotBuildable = m.m_depotBuildable
  lastSeen : m1.m_lastSeen = m.m_lastSeen
  terrainHeight : m1.m_terrainHeight = m.m_terrainHeight
  allMaps : m1._allMaps = m._allMaps
  shaped : LayerShaped m1.m_sectorNumber m1.m_width m1.m_height

/-- The walkable tiles that carry no sector number yet. -/
def zeroTiles (m : State DM) : Finset Tile :=
  ((Finset.Ico 0 m.m_width) ×ˢ (Finset.Ico 0 m.m_height)).filter
    (fun t => walkOf m t = true ∧ secOf m t = 0)

/-- State of the labelling between two flood fills, `k` sectors handed out so far: labels are
in `1..k` and on walkable tiles only, a labelled tile's walkable neighbours carry its label,
equally labelled tiles are connected, every label is in use. -/
structure FillInv (walk : Tile → Bool) (sec : Tile → Int) (k : Int) : Prop where
  knonneg : 0 ≤ k
  label : ∀ t, sec t ≠ 0 → walk t = true ∧ 1 ≤ sec t ∧ sec t ≤ k
  closed : ∀ a b, sec a ≠ 0 → Adj a b → walk b = true → sec b = sec a
  conn : ∀ a b, sec a ≠ 0 → sec b = sec a → Reach walk a b
  used : ∀ j, 1 ≤ j → j ≤ k → ∃ t, sec t = j

/-- State of the labelling inside the flood fill of sector `k` from `seed`, with the fringe
processed up to index `i`: the tiles labelled `k` are those of the fringe, all reachable from
the seed, and the neighbours of the processed ones are labelled. -/
structure BfsInv (walk : Tile → Bool) (sec : Tile → Int) (k : Int) (seed : Tile)
    (fringe : List Tile) (i : Nat) : Prop where
  kpos : 1 ≤ k
  idx : i ≤ fringe.length
  label : ∀ t, sec t ≠ 0 → walk t = true ∧ 1 ≤ sec t ∧ sec t ≤ k
  fringe_iff : ∀ t, sec t = k ↔ t ∈ fringe
  closedOld : ∀ a b, sec a ≠ 0 → sec a ≠ k → Adj a b → walk b = true → sec b = sec a
  processed : ∀ j t, j < i → fringe[j]? = some t → ∀ b, Adj t b → walk b = true → sec b = k
  connOld : ∀ a b, sec a ≠ 0 → sec a ≠ k → sec b = sec a → Reach walk a b
  connNew : ∀ t, sec t = k → Reach walk seed t
  used : ∀ j, 1 ≤ j → j ≤ k → ∃ t, sec t = j

/-- The sector layer is all zero (as `onStart` allocates it). -/
def SectorsZero (m : State DM) : Prop :=
  ∀ x y, getSectorNumber m x y = 0

/-- The stored value `m_lastSeen[t.x][t.y]` of a tile. -/
def lastSeenAt (m : State DM) (t : Tile) : Int := vvGet m.m_lastSeen t.1 t.2

/-! ## Concrete instances -/

/-- A 2x1 map whose two tiles have stored terrain height 7. -/
def heightsExample : State Unit :=
  onStartLayers (fun _ _ => true) (fun _ _ => true) (fun _ _ => 7) new 2 1

/-- A 2x1 map on which tile `(1, 0)` was last seen at frame `INT_MAX`. -/
def lastSeenExample : State Unit :=
  { (onStartLayers (fun _ _ => true) (fun _ _ => true) (fun _ _ => 0) new 2 1) with
    m_frame := 2147483647, m_lastSeen := [[0], [2147483647]] }

/-- Distance maps as plain numbers: the map computed for a tile is `100 * x + y + 1`, the
default-constructed map is `0`, positions are tiles. -/
def numberOps : DistanceMapOps Nat Tile :=
  { ctor := 0
    computeDistanceMap := fun _ _ t => (100 * t.1 + t.2 + 1).toNat
    getDistance := fun d _ => (d : Int)
    getSortedTiles := fun _ => []
    GetTilePosition := fun p => p }

/-- A state whose cache holds the 51 maps of the origins `(0,0), (1,0), .., (50,0)`. -/
def cache51 : State Nat :=
  (List.range 51).foldl (fun m i => (getDistanceMap numberOps m ((i : Int), 0)).2) new

/-- A state whose cache holds the 3 maps of the origins `(0,0), (1,0), (2,0)`. -/
def cache3 : State Nat :=
  (List.range 3).foldl (fun m i => (getDistanceMap numberOps m ((i : Int), 0)).2) new

/-- The 4x4 grid that is walkable everywhere except at `(1, 1)`, before the flood fill. -/
def grid44 : State Unit :=
  onStartLayers (fun _ _ => false) (fun x y => !(x == 1 && y == 1)) (fun _ _ => 0) new 4 4

/-- A 3x2 grid whose middle column `x = 1` is a wall, before the flood fill. -/
def gridWall : State Unit :=
  onStartLayers (fun _ _ => false) (fun x _ => !(x == 1)) (fun _ _ => 0) new 3 2

/-- The maximal 4-connected sets of walkable tiles: the set of tiles that a walkable tile
reaches by paths. -/
def components (m : State DM) : Set (Set Tile) :=
  {S | ∃ t, walkOf m t = true ∧ S = {b | ∃ p, IsWalkPath m t b p}}

/-- Visibility for the frame example: only the tile `(0, 0)` is visible. -/
def seeOrigin : Int → Int → Bool := fun x y => x == 0 && y == 0

/-- Visibility for the frame example: nothing is visible. -/
def seeNothing : Int → Int → Bool := fun _ _ => false

/-- Visibility for the sentinel example: only the tile `(1, 0)` is visible. -/
def seeLast : Int → Int → Bool := fun x y => x == 1 && y == 0

/-- A run of 2147483648 frames, one more than `INT_MAX`, each of which sees the tile
`(0, 0)`. -/
def framesPastIntMax : List (Int → Int → Bool) :=
  List.replicate 2147483647 seeOrigin ++ [seeOrigin]

/-! ## Distance queries as a run -/

/-- One call of a public distance query of `MapTools`. -/
inductive Query (Pos : Type) where
  | groundDistance (src dest : Pos)
  | distanceMap (tile : Tile)
  | closestTilesTo (pos : Tile)

/-- The object after one distance query. -/
def runQuery {Pos : Type} (D : DistanceMapOps DM Pos) (m : State DM) : Query Pos → State DM
  | Query.groundDistance src dest => (getGroundDistance D m src dest).2
  | Query.distanceMap tile => (getDistanceMap D m tile).2
  | Query.closestTilesTo pos => (getClosestTilesTo D m pos).2

/-- The object after a sequence of distance queries, oldest first. -/
def runQueries {Pos : Type} (D : DistanceMapOps DM Pos) (qs : List (Query Pos))
    (m : State DM) : State DM :=
  qs.foldl (runQuery D) m

/-- The members that are set at startup and never written afterwards agree in the two
objects: dimensions, `walkable`, `buildable`, `depotBuildable`, `terrainHeight` and the sector
layer. -/
structure StaticEq (m m1 : State DM) : Prop where
  width : m1.m_width = m.m_width
  height : m1.m_height = m.m_height
  walkable : m1.m_walkable = m.m_walkable
  buildable : m1.m_buildable = m.m_buildable
  depotBuildable : m1.m_depotBuildable = m.m_depotBuildable
  terrainHeight : m1.m_terrainHeight = m.m_terrainHeight
  sectorNumber : m1.m_sectorNumber = m.m_sectorNumber

/-- The 52 calls `getDistanceMap((0,0)), .., getDistanceMap((51,0))`. -/
def fiftyTwoMaps : List (Query Tile) :=
  (List.range 52).map (fun i => Query.distanceMap ((i : Int), 0))

/-! ## The flood fill with its fringes recorded -/

/-- The body `visitTile` of the double loop of `computeConnectivity`, which also records the
fringe as it stands when the breadth-first loop ends, that is every tile appended to the
fringe since its `clear()`.  The state is the object, the counter `sectorNumber` and the
fringes recorded so far. -/
def visitTileTrace (st : State DM × Int × List (List Tile)) (x y : Int) :
    Option (State DM × Int × List (List Tile)) :=
  if getSectorNumber st.1 x y != 0 || !isWalkable st.1 x y then some st
  else
    let sectorNumber := st.2.1 + 1
    let m1 := { st.1 with m_sectorNumber := vvSet st.1.m_sectorNumber x y sectorNumber }
    (bfsLoop sectorNumber (st.1.m_width * st.1.m_height).toNat m1 [(x, y)] 0).map
      (fun r => (r.1, sectorNumber, st.2.2 ++ [r.2]))

/-- The double loop of `computeConnectivity` with the fringes recorded: the object, the final
counter, and one final fringe per flood fill, in order. -/
def connectivityTrace (m : State DM) : Option (State DM × Int × List (List Tile)) :=
  (loopRange m.m_width).foldlM (fun st x =>
    (loopRange m.m_height).foldlM (fun st1 y => visitTileTrace st1 x y) st) (m, 0, [])

/-- The in-bounds walkable tiles. -/
def walkableTiles (m : State DM) : Finset Tile :=
  ((Finset.Ico 0 m.m_width) ×ˢ (Finset.Ico 0 m.m_height)).filter (fun t => walkOf m t = true)

/-- Between the objects `m` and `m1` exactly the tiles of `ext` were labelled, each once: they
are pairwise distinct, were walkable and unlabelled in `m`, and are what `m1` no longer has
unlabelled. -/
def Appended (m m1 : State DM) (ext : List Tile) : Prop :=
  ext.Nodup ∧ (∀ t ∈ ext, t ∈ zeroTiles m) ∧ zeroTiles m1 = zeroTiles m \ ext.toFinset

/-! ## The raw lookups of the SC2 build -/

/-- The fields of `sc2::GameInfo` that `MapTools` reads: the map dimensions and the byte
arrays `placement_grid.data` and `pathing_grid.data`. -/
structure GameInfo where
  width : Int
  height : Int
  placement_grid : List Nat
  pathing_grid : List Nat

/-- Raw `data[i]` on a byte array with an `int` index; `none` when the index is out of range
(a negative index converts to a huge `size_t`). -/
def byteAt (data : List Nat) (i : Int) : Option Nat :=
  if 0 ≤ i then data[i.toNat]? else none

/-- Source `MapTools::canWalk`, SC2 build; `none` stands for a read outside the pathing
grid. -/
def canWalk (info : GameInfo) (tileX tileY : Int) : Option Bool :=
  if tileX < 0 || tileX ≥ info.width || tileY < 0 || tileY ≥ info.width then some false
  else
    (byteAt info.pathing_grid (tileX + ((info.height - 1) - tileY) * info.width)).map
      (fun encodedPlacement => if encodedPlacement == 255 then false else true)

/-- Source `MapTools::canBuild`, SC2 build; `none` stands for a read outside the placement
grid. -/
def canBuild (info : GameInfo) (tileX tileY : Int) : Option Bool :=
  if tileX < 0 || tileX ≥ info.width || tileY < 0 || tileY ≥ info.width then some false
  else
    (byteAt info.placement_grid (tileX + ((info.height - 1) - tileY) * info.width)).map
      (fun encodedPlacement => if encodedPlacement == 255 then true else false)

/-- Source `MapTools::onStart`, SC2 build: the dimensions and the raw lookups come from the
game info (a lookup that reads outside its grid counts as `false`; `onStart` makes none,
see `canBuild_isSome`). -/
def onStartSC2 (info : GameInfo) (terainHeight : ℚ → ℚ → Height) (m : State DM) :
    Option (State DM) :=
  onStart (fun x y => (canBuild info x y).getD false) (fun x y => (canWalk info x y).getD false)
    terainHeight m info.width.toNat info.height.toNat

/-- A map of width 1 and height 2 whose two tiles are buildable and pathable: every placement
byte is 255 and every pathing byte is 0. -/
def tallInfo : GameInfo :=
  { width := 1, height := 2, placement_grid := [255, 255], pathing_grid := [0, 0] }

/-! ## The distance map engine (spec section 4.3)

Class `DistanceMap` is not among the sources; it is modelled from the spec. -/

/-- Modelled from the spec: the "unreached" sentinel of a distance map.  The spec names no
value for it (sections 3 and 4.3); it is a value that is no distance. -/
def unreached : Int := -1

/-- Modelled from the spec: class `DistanceMap` (section 3), for every tile a distance or
the sentinel, and the tiles in the order the search visited them. -/
structure DistanceMap where
  dist : List (List Int)
  sortedTiles : List Tile

/-- Modelled from the spec: the stored distance of a tile of class `DistanceMap`; the
sentinel outside the map (section 7, safe default). -/
def distOf (dist : List (List Int)) (t : Tile) : Int :=
  (vvAt dist t.1 t.2).getD unreached

/-- Modelled from the spec: `distance(tile)` of class `DistanceMap`. -/
def DistanceMap.getDistance (d : DistanceMap) (t : Tile) : Int := distOf d.dist t

/-- Modelled from the spec: one neighbour of the dequeued tile `tile` in the expansion of
class `DistanceMap` (section 4.3 step 3): a neighbour that is walkable, in bounds and still
unreached gets the distance of `tile` plus one and is appended to the visitation order, which
is also the queue. -/
def distExpand (walkable inBounds : Tile → Bool) (tile : Tile)
    (st : List (List Int) × List Tile) (a : Nat) : List (List Int) × List Tile :=
  let next : Tile := (tile.1 + actionX.getD a 0, tile.2 + actionY.getD a 0)
  if walkable next && inBounds next && (distOf st.1 next == unreached) then
    (vvSet st.1 next.1 next.2 (distOf st.1 tile + 1), st.2 ++ [next])
  else st

/-- Modelled from the spec: the breadth-first expansion of class `DistanceMap` (section 4.3
step 3), dequeuing from position `i` of the visitation order; one unit of fuel per dequeued
tile, `none` when the fuel runs out. -/
def distLoop (walkable inBounds : Tile → Bool) :
    Nat → List (List Int) → List Tile → Nat → Option (List (List Int) × List Tile)
  | 0, dist, order, i => if i < order.length then none else some (dist, order)
  | fuel + 1, dist, order, i =>
    match order[i]? with
    | none => some (dist, order)
    | some tile =>
      let st := (List.range LegalActions).foldl (distExpand walkable inBounds tile) (dist, order)
      distLoop walkable inBounds fuel st.1 st.2 (i + 1)

/-- Modelled from the spec: `computeDistanceMap` of class `DistanceMap` (section 4.3 steps 2
to 5) on the map `m` from the origin `startTile`: all distances start unreached, the origin
gets 0 and is enqueued whether walkable or not, then the expansion runs; the fuel is the tile
count `m_width * m_height`. -/
def computeDistanceMap (m : State DM) (startTile : Tile) : Option DistanceMap :=
  let dist0 := vvNew m.m_width.toNat m.m_height.toNat unreached
  let dist1 := vvSet dist0 startTile.1 startTile.2 0
  (distLoop (walkOf m) (fun t => isValidTile m t.1 t.2) (m.m_width * m.m_height).toNat
    dist1 [startTile] 0).map (fun r => { dist := r.1, sortedTiles := r.2 })

/-- Modelled from the spec: the operations of class `DistanceMap` as `MapTools` calls them,
with tile positions (a computation that ran out of fuel would leave the receiver as it is;
`computeDistanceMap_total` shows that none does for a valid origin). -/
def specOps : DistanceMapOps DistanceMap Tile :=
  { ctor := { dist := [], sortedTiles := [] }
    computeDistanceMap := fun recv m t => (computeDistanceMap m t).getD recv
    getDistance := fun d p => d.getDistance p
    getSortedTiles := fun d => d.sortedTiles
    GetTilePosition := fun p => p }

/-- Every cached map is the one `computeDistanceMap` yields for its origin on this map. -/
def CacheOk (m : State DistanceMap) : Prop :=
  ∀ k d, m._allMaps.find k = some d → computeDistanceMap m k = some d

/-- The 4x4 grid that is walkable everywhere except at `(1, 1)`, with an empty cache of
distance maps. -/
def grid44D : State DistanceMap :=
  onStartLayers (fun _ _ => false) (fun x y => !(x == 1 && y == 1)) (fun _ _ => 0) new 4 4

/-- The in-bounds tiles of a `w` by `h` map that the distance layer has not reached. -/
def unreachedTiles (w h : Int) (dist : List (List Int)) : Finset Tile :=
  ((Finset.Ico 0 w) ×ˢ (Finset.Ico 0 h)).filter (fun t => distOf dist t = unreached)

/-- State of the distance search from the origin `o`, with the visitation order `F` dequeued
up to position `i`: the reached tiles are those of `F`, their distances are non-negative and
non-decreasing along `F` and at most one more than that of the tile being dequeued, every
reached tile but the origin is walkable and one step from a reached tile of distance one less,
and the walkable neighbours of the dequeued tiles are reached, at most one further away. -/
structure DistInv (walk : Tile → Bool) (d : Tile → Int) (o : Tile) (F : List Tile)
    (i : Nat) : Prop where
  idx : i ≤ F.length
  origin : d o = 0
  fringe_iff : ∀ t, d t ≠ unreached ↔ t ∈ F
  nonneg : ∀ t, t ∈ F → 0 ≤ d t
  sorted : ∀ (j k : Nat) (tj tk : Tile), j ≤ k → F[j]? = some tj → F[k]? = some tk →
    d tj ≤ d tk
  bound : ∀ (ti t : Tile), F[i]? = some ti → t ∈ F → d t ≤ d ti + 1
  parent : ∀ t, t ∈ F → t ≠ o → walk t = true ∧ ∃ p, p ∈ F ∧ Adj p t ∧ d t = d p + 1
  processed : ∀ (j : Nat) (t : Tile), j < i → F[j]? = some t →
    ∀ b, Adj t b → walk b = true → b ∈ F ∧ d b ≤ d t + 1

/-- Adjacency of two given tiles can be computed. -/
instance Adj.decidable (a b : Tile) : Decidable (Adj a b) :=
  inferInstanceAs (Decidable
    (b = (a.1 + 1, a.2) ∨ b = (a.1 - 1, a.2) ∨ b = (a.1, a.2 + 1) ∨ b = (a.1, a.2 - 1)))

/-! ## Lemmas -/

set_option maxRecDepth 100000

theorem vvAt_vvSet {α : Type} (v : List (List α)) (x y x1 y1 : Int) (a : α) :
    vvAt (vvSet v x y a) x1 y1 =
      if x1 = x ∧ y1 = y then (vvAt v x y).map (fun _ => a) else vvAt v x1 y1 := by
  unfold vvAt vvSet
  by_cases hxy : 0 ≤ x ∧ 0 ≤ y
  · by_cases h1 : 0 ≤ x1 ∧ 0 ≤ y1
    · rw [if_pos hxy, if_pos h1, if_pos hxy, List.getElem?_modify]
      by_cases hx : x.toNat = x1.toNat
      · have hxe : x1 = x := by
          have := congrArg Int.ofNat hx
          simp only [Int.ofNat_eq_coe, Int.toNat_of_nonneg hxy.1, Int.toNat_of_nonneg h1.1] at this
          exact this.symm
        subst hxe
        cases hc : v[x1.toNat]? with
        | none => simp
        | some col =>
          by_cases hy : y1 = y
          · subst hy
            simp [List.getElem?_set]
            cases hcy : col[y1.toNat]? with
            | none =>
              have := List.getElem?_eq_none_iff.1 hcy
              simp; omega
            | some b =>
              have := (List.getElem?_eq_some.1 hcy).1
              simp [this]
          · have hyn : y.toNat ≠ y1.toNat := by
              intro h
              apply hy
              have := congrArg Int.ofNat h
              simp only [Int.ofNat_eq_coe, Int.toNat_of_nonneg hxy.2, Int.toNat_of_nonneg h1.2] at this
              exact this.symm
            simp [hy, h1, List.getElem?_set_ne hyn]
      · have hxe : ¬ (x1 = x) := fun h => hx (by rw [h])
        simp [hx, hxe, h1]
    · have hne : ¬ (x1 = x ∧ y1 = y) := by
        rintro ⟨rfl, rfl⟩; exact h1 hxy
      rw [if_neg h1, if_neg hne, if_neg h1]
  · rw [if_neg hxy]
    by_cases h1 : 0 ≤ x1 ∧ 0 ≤ y1
    · have hne : ¬ (x1 = x ∧ y1 = y) := by
        rintro ⟨rfl, rfl⟩; exact hxy h1
      rw [if_neg hne]
    · split_ifs <;> simp_all

theorem vvSet_shaped {α : Type} {v : List (List α)} {w h : Int} (hs : LayerShaped v w h)
    (x y : Int) (a : α) : LayerShaped (vvSet v x y a) w h := by
  unfold vvSet
  split_ifs with hxy
  · refine ⟨by simpa using hs.1, ?_⟩
    intro col hcol
    rcases List.mem_iff_getElem?.1 hcol with ⟨n, hn⟩
    rw [List.getElem?_modify] at hn
    cases hc : v[n]? with
    | none => simp [hc] at hn
    | some c =>
      have hcm : c ∈ v := List.mem_iff_getElem?.2 ⟨n, hc⟩
      simp [hc] at hn
      rw [← hn]
      split_ifs
      · simpa using hs.2 c hcm
      · exact hs.2 c hcm
  · exact hs

theorem vvAt_isSome_iff {α : Type} {v : List (List α)} {w h : Int} (hs : LayerShaped v w h)
    (x y : Int) : (vvAt v x y).isSome = true ↔ (0 ≤ x ∧ x < w) ∧ (0 ≤ y ∧ y < h) := by
  unfold vvAt
  by_cases hxy : 0 ≤ x ∧ 0 ≤ y
  · rw [if_pos hxy]
    cases hc : v[x.toNat]? with
    | none =>
      have := List.getElem?_eq_none_iff.1 hc
      have h1 := hs.1
      simp; omega
    | some col =>
      have hlt := (List.getElem?_eq_some.1 hc).1
      have hcm : col ∈ v := List.mem_iff_getElem?.2 ⟨_, hc⟩
      have h2 := hs.2 col hcm
      have h1 := hs.1
      cases hcy : col[y.toNat]? with
      | none =>
        have := List.getElem?_eq_none_iff.1 hcy
        simp [hcy]; omega
      | some b =>
        have := (List.getElem?_eq_some.1 hcy).1
        simp [hcy]; omega
  · rw [if_neg hxy]
    simp
    intro h1 _ h2
    exact absurd ⟨h1, h2⟩ hxy


theorem vvGet_vvSet {α : Type} [Inhabited α] {v : List (List α)} {w h : Int}
    (hs : LayerShaped v w h) {x y : Int} (hx : 0 ≤ x ∧ x < w) (hy : 0 ≤ y ∧ y < h)
    (x1 y1 : Int) (a : α) :
    vvGet (vvSet v x y a) x1 y1 = if x1 = x ∧ y1 = y then a else vvGet v x1 y1 := by
  unfold vvGet
  rw [vvAt_vvSet]
  have hsome := (vvAt_isSome_iff hs x y).2 ⟨hx, hy⟩
  split_ifs with h1
  · cases hv : vvAt v x y with
    | none => simp [hv] at hsome
    | some b => simp
  · rfl

theorem vvNew_shaped {α : Type} (w h : Nat) (a : α) :
    LayerShaped (vvNew w h a) (w : Int) (h : Int) := by
  refine ⟨by simp [vvNew], ?_⟩
  intro col hcol
  rw [vvNew, List.mem_replicate] at hcol
  simp [hcol.2]

theorem vvGet_vvNew {α : Type} [Inhabited α] (w h : Nat) (a : α) (x y : Int)
    (hx : 0 ≤ x ∧ x < w) (hy : 0 ≤ y ∧ y < h) : vvGet (vvNew w h a) x y = a := by
  have hsome := (vvAt_isSome_iff (vvNew_shaped w h a) x y).2 ⟨hx, hy⟩
  unfold vvGet
  cases hv : vvAt (vvNew w h a) x y with
  | none => simp [hv] at hsome
  | some b =>
    simp only [Option.getD_some]
    unfold vvAt at hv
    rw [if_pos ⟨hx.1, hy.1⟩] at hv
    cases hc : (vvNew w h a)[x.toNat]? with
    | none => simp [hc] at hv
    | some col =>
      have hcm : col ∈ vvNew w h a := List.mem_iff_getElem?.2 ⟨_, hc⟩
      rw [vvNew, List.mem_replicate] at hcm
      rw [hc] at hv
      simp only [Option.some_bind, hcm.2] at hv
      have hb : b ∈ List.replicate h a := List.mem_iff_getElem?.2 ⟨_, hv⟩
      exact (List.mem_replicate.1 hb).2

theorem mem_loopRange (n x : Int) : x ∈ loopRange n ↔ 0 ≤ x ∧ x < n := by
  unfold loopRange
  constructor
  · intro hx
    rcases List.mem_map.1 hx with ⟨k, hk, rfl⟩
    have := List.mem_range.1 hk
    simp only [Int.ofNat_eq_coe]
    omega
  · intro hx
    refine List.mem_map.2 ⟨x.toNat, List.mem_range.2 (by omega), ?_⟩
    simp only [Int.ofNat_eq_coe]
    omega

theorem isValidTile_iff (m : State DM) (x y : Int) :
    isValidTile m x y = true ↔ (0 ≤ x ∧ x < m.m_width) ∧ (0 ≤ y ∧ y < m.m_height) := by
  simp only [isValidTile, Bool.and_eq_true, decide_eq_true_eq, ge_iff_le]
  tauto

/-! ### Loop invariants -/

theorem foldl_set_inv {σ ι : Type} (f : σ → ι → σ) (Q : Set ι → σ → Prop) (l : List ι)
    (hstep : ∀ V s i, Q V s → i ∈ l → Q (insert i V) (f s i)) :
    ∀ V s, Q V s → Q (V ∪ {i | i ∈ l}) (l.foldl f s) := by
  induction l with
  | nil =>
    intro V s h
    simpa using h
  | cons i l ih =>
    intro V s h
    have h1 := hstep V s i h (List.mem_cons_self i l)
    have h2 := ih (fun V s j hq hj => hstep V s j hq (List.mem_cons_of_mem i hj)) _ _ h1
    have he : insert i V ∪ {j | j ∈ l} = V ∪ {j | j ∈ i :: l} := by
      ext j
      simp only [Set.mem_union, Set.mem_insert_iff, Set.mem_setOf_eq, List.mem_cons]
      tauto
    rw [he] at h2
    exact h2

theorem foldl2_inv {σ : Type} (f : σ → Int → Int → σ) (Q : Set Tile → σ → Prop)
    (xs ys : List Int)
    (hstep : ∀ V s x y, Q V s → x ∈ xs → y ∈ ys → Q (insert (x, y) V) (f s x y))
    (s : σ) (h0 : Q ∅ s) :
    Q {t | t.1 ∈ xs ∧ t.2 ∈ ys} (xs.foldl (fun s1 x => ys.foldl (fun s2 y => f s2 x y) s1) s) := by
  have hout := foldl_set_inv (fun s1 x => ys.foldl (fun s2 y => f s2 x y) s1)
    (fun (Vx : Set Int) s1 => Q {t | t.1 ∈ Vx ∧ t.2 ∈ ys} s1) xs ?_ ∅ s (by simpa using h0)
  · simpa using hout
  · intro Vx s1 x hq hx
    have hin := foldl_set_inv (fun s2 y => f s2 x y)
      (fun (Vy : Set Int) s2 => Q ({t | t.1 ∈ Vx ∧ t.2 ∈ ys} ∪ {t | t.1 = x ∧ t.2 ∈ Vy}) s2) ys
      ?_ ∅ s1 (by simpa using hq)
    · have he : ({t : Tile | t.1 ∈ Vx ∧ t.2 ∈ ys} ∪ {t | t.1 = x ∧ t.2 ∈ (∅ : Set Int) ∪ {i | i ∈ ys}})
          = {t | t.1 ∈ insert x Vx ∧ t.2 ∈ ys} := by
        ext t
        simp only [Set.mem_union, Set.mem_setOf_eq, Set.mem_insert_iff, Set.mem_empty_iff_false,
          false_or]
        tauto
      beta_reduce at hin
      rw [he] at hin
      exact hin
    · intro Vy s2 y hq2 hy
      have h := hstep _ s2 x y hq2 hx hy
      have he : insert (x, y) ({t : Tile | t.1 ∈ Vx ∧ t.2 ∈ ys} ∪ {t | t.1 = x ∧ t.2 ∈ Vy})
          = {t : Tile | t.1 ∈ Vx ∧ t.2 ∈ ys} ∪ {t | t.1 = x ∧ t.2 ∈ insert y Vy} := by
        ext t
        rcases t with ⟨t1, t2⟩
        simp only [Set.mem_union, Set.mem_setOf_eq, Set.mem_insert_iff, Prod.mk.injEq]
        tauto
      rw [he] at h
      exact h

theorem foldlM_set_inv {σ ι : Type} (f : σ → ι → Option σ) (Q : Set ι → σ → Prop) (l : List ι)
    (hstep : ∀ V s i, Q V s → i ∈ l → ∃ s1, f s i = some s1 ∧ Q (insert i V) s1) :
    ∀ V s, Q V s → ∃ s1, l.foldlM f s = some s1 ∧ Q (V ∪ {i | i ∈ l}) s1 := by
  induction l with
  | nil =>
    intro V s h
    exact ⟨s, rfl, by simpa using h⟩
  | cons i l ih =>
    intro V s h
    obtain ⟨s1, hs1, h1⟩ := hstep V s i h (List.mem_cons_self i l)
    obtain ⟨s2, hs2, h2⟩ :=
      ih (fun V s j hq hj => hstep V s j hq (List.mem_cons_of_mem i hj)) _ _ h1
    have he : insert i V ∪ {j | j ∈ l} = V ∪ {j | j ∈ i :: l} := by
      ext j
      simp only [Set.mem_union, Set.mem_insert_iff, Set.mem_setOf_eq, List.mem_cons]
      tauto
    rw [he] at h2
    refine ⟨s2, ?_, h2⟩
    simp [List.foldlM, hs1, hs2]

theorem foldlM2_inv {σ : Type} (f : σ → Int → Int → Option σ) (Q : Set Tile → σ → Prop)
    (xs ys : List Int)
    (hstep : ∀ V s x y, Q V s → x ∈ xs → y ∈ ys → ∃ s1, f s x y = some s1 ∧ Q (insert (x, y) V) s1)
    (s : σ) (h0 : Q ∅ s) :
    ∃ s1, xs.foldlM (fun s1 x => ys.foldlM (fun s2 y => f s2 x y) s1) s = some s1 ∧
      Q {t | t.1 ∈ xs ∧ t.2 ∈ ys} s1 := by
  have hout := foldlM_set_inv (fun s1 x => ys.foldlM (fun s2 y => f s2 x y) s1)
    (fun (Vx : Set Int) s1 => Q {t | t.1 ∈ Vx ∧ t.2 ∈ ys} s1) xs ?_ ∅ s (by simpa using h0)
  · simpa using hout
  · intro Vx s1 x hq hx
    have hin := foldlM_set_inv (fun s2 y => f s2 x y)
      (fun (Vy : Set Int) s2 => Q ({t | t.1 ∈ Vx ∧ t.2 ∈ ys} ∪ {t | t.1 = x ∧ t.2 ∈ Vy}) s2) ys
      ?_ ∅ s1 (by simpa using hq)
    · have he : ({t : Tile | t.1 ∈ Vx ∧ t.2 ∈ ys} ∪ {t | t.1 = x ∧ t.2 ∈ (∅ : Set Int) ∪ {i | i ∈ ys}})
          = {t | t.1 ∈ insert x Vx ∧ t.2 ∈ ys} := by
        ext t
        simp only [Set.mem_union, Set.mem_setOf_eq, Set.mem_insert_iff, Set.mem_empty_iff_false,
          false_or]
        tauto
      beta_reduce at hin
      rw [he] at hin
      exact hin
    · intro Vy s2 y hq2 hy
      obtain ⟨s3, hs3, h⟩ := hstep _ s2 x y hq2 hx hy
      have he : insert (x, y) ({t : Tile | t.1 ∈ Vx ∧ t.2 ∈ ys} ∪ {t | t.1 = x ∧ t.2 ∈ Vy})
          = {t : Tile | t.1 ∈ Vx ∧ t.2 ∈ ys} ∪ {t | t.1 = x ∧ t.2 ∈ insert y Vy} := by
        ext t
        rcases t with ⟨t1, t2⟩
        simp only [Set.mem_union, Set.mem_setOf_eq, Set.mem_insert_iff, Prod.mk.injEq]
        tauto
      rw [he] at h
      exact ⟨s3, hs3, h⟩

/-! ### The cache -/

theorem StdMap.find_empty {K V : Type} [DecidableEq K] (k : K) :
    (StdMap.empty : StdMap K V).find k = none := rfl

theorem StdMap.find_set {K V : Type} [DecidableEq K] (c : StdMap K V) (k k1 : K) (v : V) :
    (c.set k v).find k1 = if k1 = k then some v else c.find k1 := by
  unfold StdMap.find StdMap.set
  by_cases h : k1 = k
  · subst h
    simp
  · have h2 : ¬ (k = k1) := fun e => h e.symm
    simp only [List.find?_cons, h2, decide_False, if_neg h]
    rw [List.find?_filter]
    congr 2
    funext e
    by_cases he : e.1 = k1
    · simp [he, h]
    · simp [he]

theorem getDistanceMap_find {Pos : Type} (D : DistanceMapOps DM Pos) (m : State DM)
    (o k : Tile) :
    (getDistanceMap D m o).2._allMaps.find k =
      if k = o then some (getDistanceMap D m o).1 else m._allMaps.find k := by
  unfold getDistanceMap
  have hoo : (o.1, o.2) = o := rfl
  simp only [hoo]
  cases hf : m._allMaps.find o with
  | none =>
    by_cases h : k = o
    · simp [StdMap.index, StdMap.find_set, h]
    · simp [StdMap.index, StdMap.find_set, h]
  | some d =>
    by_cases h : k = o
    · simp [StdMap.index, h, hf]
    · simp [StdMap.index, h]

theorem getDistanceMap_hit {Pos : Type} (D : DistanceMapOps DM Pos) (m : State DM)
    (o : Tile) (d : DM) (h : m._allMaps.find o = some d) : getDistanceMap D m o = (d, m) := by
  have h1 : m._allMaps.find (o.1, o.2) = some d := h
  simp [getDistanceMap, h1, StdMap.index]

theorem leastSeen_scan (m : State DM) (l : List Tile) :
    ∀ acc : Int × Tile,
      (l.foldl (fun (st : Int × Tile) tile =>
          if vvGet m.m_lastSeen tile.1 tile.2 < st.1 then (vvGet m.m_lastSeen tile.1 tile.2, tile)
          else st) acc = acc ∧ ∀ t ∈ l, acc.1 ≤ lastSeenAt m t) ∨
      (∃ pre post, l = pre ++ (l.foldl (fun (st : Int × Tile) tile =>
          if vvGet m.m_lastSeen tile.1 tile.2 < st.1 then (vvGet m.m_lastSeen tile.1 tile.2, tile)
          else st) acc).2 :: post ∧
        (l.foldl (fun (st : Int × Tile) tile =>
          if vvGet m.m_lastSeen tile.1 tile.2 < st.1 then (vvGet m.m_lastSeen tile.1 tile.2, tile)
          else st) acc).1 = lastSeenAt m (l.foldl (fun (st : Int × Tile) tile =>
          if vvGet m.m_lastSeen tile.1 tile.2 < st.1 then (vvGet m.m_lastSeen tile.1 tile.2, tile)
          else st) acc).2 ∧
        (l.foldl (fun (st : Int × Tile) tile =>
          if vvGet m.m_lastSeen tile.1 tile.2 < st.1 then (vvGet m.m_lastSeen tile.1 tile.2, tile)
          else st) acc).1 < acc.1 ∧
        (∀ t ∈ pre, (l.foldl (fun (st : Int × Tile) tile =>
          if vvGet m.m_lastSeen tile.1 tile.2 < st.1 then (vvGet m.m_lastSeen tile.1 tile.2, tile)
          else st) acc).1 < lastSeenAt m t) ∧
        (∀ t ∈ post, (l.foldl (fun (st : Int × Tile) tile =>
          if vvGet m.m_lastSeen tile.1 tile.2 < st.1 then (vvGet m.m_lastSeen tile.1 tile.2, tile)
          else st) acc).1 ≤ lastSeenAt m t)) := by
  induction l with
  | nil =>
    intro acc
    left
    exact ⟨rfl, by simp⟩
  | cons t l ih =>
    intro acc
    simp only [List.foldl_cons]
    by_cases hlt : vvGet m.m_lastSeen t.1 t.2 < acc.1
    · rw [if_pos hlt]
      rcases ih (vvGet m.m_lastSeen t.1 t.2, t) with ⟨heq, hall⟩ | ⟨pre, post, hl, h1, h2, h3, h4⟩
      · right
        refine ⟨[], l, by rw [heq]; rfl, by rw [heq]; rfl, by rw [heq]; exact hlt, by simp, ?_⟩
        rw [heq]
        exact hall
      · right
        refine ⟨t :: pre, post, by rw [List.cons_append, ← hl], h1, lt_trans h2 hlt, ?_, h4⟩
        intro t1 ht1
        rcases List.mem_cons.1 ht1 with rfl | hm
        · exact h2
        · exact h3 t1 hm
    · rw [if_neg hlt]
      rcases ih acc with ⟨heq, hall⟩ | ⟨pre, post, hl, h1, h2, h3, h4⟩
      · left
        refine ⟨heq, ?_⟩
        intro t1 ht1
        rcases List.mem_cons.1 ht1 with rfl | hm
        · exact not_lt.1 hlt
        · exact hall t1 hm
      · right
        refine ⟨t :: pre, post, by rw [List.cons_append, ← hl], h1, h2, ?_, h4⟩
        intro t1 ht1
        rcases List.mem_cons.1 ht1 with rfl | hm
        · exact lt_of_lt_of_le h2 (not_lt.1 hlt)
        · exact h3 t1 hm

/-! ### Adjacency and reachability -/

theorem adj_symm {a b : Tile} (h : Adj a b) : Adj b a := by
  rcases a with ⟨a1, a2⟩
  rcases b with ⟨b1, b2⟩
  simp only [Adj, Prod.mk.injEq] at h ⊢
  omega

theorem step_symm {walk : Tile → Bool} {a b : Tile} (h : Step walk a b) : Step walk b a :=
  ⟨adj_symm h.1, h.2.2, h.2.1⟩

theorem reach_symm {walk : Tile → Bool} {a b : Tile} (h : Reach walk a b) : Reach walk b a := by
  unfold Reach at h ⊢
  induction h with
  | refl => exact Relation.ReflTransGen.refl
  | tail _ hbc ih => exact Relation.ReflTransGen.head (step_symm hbc) ih

theorem reach_trans {walk : Tile → Bool} {a b c : Tile} (h1 : Reach walk a b)
    (h2 : Reach walk b c) : Reach walk a c :=
  Relation.ReflTransGen.trans h1 h2

theorem adj_iff_action (t b : Tile) :
    Adj t b ↔ ∃ a, a < LegalActions ∧ b = (t.1 + actionX.getD a 0, t.2 + actionY.getD a 0) := by
  rcases t with ⟨t1, t2⟩
  rcases b with ⟨b1, b2⟩
  constructor
  · intro h
    simp only [Adj, Prod.mk.injEq] at h
    rcases h with h | h | h | h
    · exact ⟨0, by decide, by simp [actionX, actionY, h.1, h.2]⟩
    · exact ⟨1, by decide, by simp [actionX, actionY, h.1, h.2]; omega⟩
    · exact ⟨2, by decide, by simp [actionX, actionY, h.1, h.2]⟩
    · exact ⟨3, by decide, by simp [actionX, actionY, h.1, h.2]; omega⟩
  · rintro ⟨a, ha, hb⟩
    simp only [LegalActions] at ha
    simp only [Adj, Prod.mk.injEq]
    interval_cases a <;> simp [actionX, actionY] at hb <;> omega

/-! ### The labelling invariants -/

theorem FillInv.zero (walk : Tile → Bool) (sec : Tile → Int) (h : ∀ t, sec t = 0) :
    FillInv walk sec 0 :=
  { knonneg := le_refl 0
    label := fun t ht => absurd (h t) ht
    closed := fun a _ ha => absurd (h a) ha
    conn := fun a _ ha => absurd (h a) ha
    used := fun j h1 h2 => by omega }

theorem FillInv.label_of_reach {walk : Tile → Bool} {sec : Tile → Int} {k : Int}
    (h : FillInv walk sec k) {a b : Tile} (ha : sec a ≠ 0) (hr : Reach walk a b) :
    sec b = sec a := by
  unfold Reach at hr
  induction hr with
  | refl => rfl
  | tail _ hbc ih =>
    rw [← ih]
    exact h.closed _ _ (by rw [ih]; exact ha) hbc.1 hbc.2.2

theorem BfsInv.nbr_labelled {walk : Tile → Bool} {sec : Tile → Int} {k : Int} {seed : Tile}
    {fringe : List Tile} {i : Nat} (h : BfsInv walk sec k seed fringe i) {t n : Tile}
    (ht : sec t = k) (hadj : Adj t n) (hn : sec n ≠ 0) : sec n = k := by
  by_contra hne
  have hk0 : sec t ≠ 0 := by rw [ht]; have := h.kpos; omega
  have := h.closedOld n t hn hne (adj_symm hadj) (h.label t hk0).1
  exact hne (this ▸ ht)

theorem BfsInv.push {walk : Tile → Bool} {sec : Tile → Int} {k : Int} {seed : Tile}
    {fringe : List Tile} {i : Nat} (h : BfsInv walk sec k seed fringe i) {t n : Tile}
    (ht : sec t = k) (hadj : Adj t n) (hw : walk n = true) (hz : sec n = 0) :
    BfsInv walk (Function.update sec n k) k seed (fringe ++ [n]) i := by
  have hk := h.kpos
  have hk0 : sec t ≠ 0 := by rw [ht]; omega
  have hup : ∀ x, x ≠ n → Function.update sec n k x = sec x :=
    fun x hx => Function.update_noteq hx k sec
  have hun : Function.update sec n k n = k := Function.update_same n k sec
  have hnz : ∀ x, sec x ≠ 0 → x ≠ n := fun x hx e => hx (e ▸ hz)
  refine
    { kpos := hk
      idx := by simp only [List.length_append, List.length_singleton]; have := h.idx; omega
      label := ?_, fringe_iff := ?_, closedOld := ?_, processed := ?_, connOld := ?_,
      connNew := ?_, used := ?_ }
  · intro x hx
    by_cases hxn : x = n
    · subst hxn
      rw [hun]
      exact ⟨hw, hk, le_refl k⟩
    · rw [hup x hxn] at hx ⊢
      exact h.label x hx
  · intro x
    by_cases hxn : x = n
    · subst hxn
      simp [hun]
    · rw [hup x hxn, h.fringe_iff x]
      simp [hxn]
  · intro a b ha hak hab hb
    have han : a ≠ n := fun e => hak (e ▸ hun)
    rw [hup a han] at ha hak ⊢
    have hsb := h.closedOld a b ha hak hab hb
    have hbn : b ≠ n := hnz b (by rw [hsb]; exact ha)
    rw [hup b hbn]
    exact hsb
  · intro j x hj hx b hab hb
    have hjl : j < fringe.length := lt_of_lt_of_le hj h.idx
    rw [List.getElem?_append_left hjl] at hx
    have hsb := h.processed j x hj hx b hab hb
    have hbn : b ≠ n := hnz b (by rw [hsb]; omega)
    rw [hup b hbn]
    exact hsb
  · intro a b ha hak hsame
    have han : a ≠ n := fun e => hak (e ▸ hun)
    rw [hup a han] at ha hak hsame
    have hbn : b ≠ n := by
      intro e
      rw [e, hun] at hsame
      exact hak hsame.symm
    rw [hup b hbn] at hsame
    exact h.connOld a b ha hak hsame
  · intro x hx
    by_cases hxn : x = n
    · subst hxn
      exact Relation.ReflTransGen.tail (h.connNew t ht) ⟨hadj, (h.label t hk0).1, hw⟩
    · rw [hup x hxn] at hx
      exact h.connNew x hx
  · intro j h1 h2
    obtain ⟨x, hx⟩ := h.used j h1 h2
    exact ⟨x, by rw [hup x (hnz x (by rw [hx]; omega))]; exact hx⟩

theorem BfsInv.advance {walk : Tile → Bool} {sec : Tile → Int} {k : Int} {seed : Tile}
    {fringe : List Tile} {i : Nat} (h : BfsInv walk sec k seed fringe i) {t : Tile}
    (ht : fringe[i]? = some t) (hnb : ∀ b, Adj t b → walk b = true → sec b = k) :
    BfsInv walk sec k seed fringe (i + 1) :=
  { h with
    idx := by
      have := (List.getElem?_eq_some.1 ht).1
      omega
    processed := by
      intro j x hj hx b hab hb
      by_cases hji : j < i
      · exact h.processed j x hji hx b hab hb
      · have hje : j = i := by omega
        subst hje
        rw [ht] at hx
        cases hx
        exact hnb b hab hb }

theorem BfsInv.start {walk : Tile → Bool} {sec : Tile → Int} {k : Int}
    (h : FillInv walk sec k) {s : Tile} (hw : walk s = true) (hz : sec s = 0) :
    BfsInv walk (Function.update sec s (k + 1)) (k + 1) s [s] 0 := by
  have hk := h.knonneg
  have hup : ∀ x, x ≠ s → Function.update sec s (k + 1) x = sec x :=
    fun x hx => Function.update_noteq hx (k + 1) sec
  have hun : Function.update sec s (k + 1) s = k + 1 := Function.update_same s (k + 1) sec
  have hnz : ∀ x, sec x ≠ 0 → x ≠ s := fun x hx e => hx (e ▸ hz)
  have hle : ∀ x, sec x ≠ k + 1 := by
    intro x e
    have h0 : sec x ≠ 0 := by rw [e]; omega
    have := (h.label x h0).2.2
    omega
  refine
    { kpos := by omega
      idx := Nat.zero_le _
      label := ?_, fringe_iff := ?_, closedOld := ?_, processed := ?_, connOld := ?_,
      connNew := ?_, used := ?_ }
  · intro x hx
    by_cases hxs : x = s
    · subst hxs
      rw [hun]
      exact ⟨hw, by omega, le_refl _⟩
    · rw [hup x hxs] at hx ⊢
      have := h.label x hx
      exact ⟨this.1, this.2.1, by omega⟩
  · intro x
    by_cases hxs : x = s
    · subst hxs
      simp [hun]
    · rw [hup x hxs]
      simp [hxs, hle x]
  · intro a b ha hak hab hb
    have has : a ≠ s := fun e => hak (e ▸ hun)
    rw [hup a has] at ha ⊢
    have hsb := h.closed a b ha hab hb
    rw [hup b (hnz b (by rw [hsb]; exact ha))]
    exact hsb
  · intro j x hj
    exact absurd hj (Nat.not_lt_zero j)
  · intro a b ha hak hsame
    have has : a ≠ s := fun e => hak (e ▸ hun)
    rw [hup a has] at ha hak hsame
    have hbs : b ≠ s := by
      intro e
      rw [e, hun] at hsame
      exact hak hsame.symm
    rw [hup b hbs] at hsame
    exact h.conn a b ha hsame
  · intro x hx
    by_cases hxs : x = s
    · subst hxs
      exact Relation.ReflTransGen.refl
    · rw [hup x hxs] at hx
      exact absurd hx (hle x)
  · intro j h1 h2
    by_cases hj : j = k + 1
    · exact ⟨s, by rw [hun, hj]⟩
    · obtain ⟨x, hx⟩ := h.used j h1 (by omega)
      exact ⟨x, by rw [hup x (hnz x (by rw [hx]; omega))]; exact hx⟩

theorem BfsInv.finish {walk : Tile → Bool} {sec : Tile → Int} {k : Int} {seed : Tile}
    {fringe : List Tile} {i : Nat} (h : BfsInv walk sec k seed fringe i)
    (hi : fringe.length ≤ i) : FillInv walk sec k := by
  have hk := h.kpos
  refine
    { knonneg := by omega
      label := h.label
      closed := ?_, conn := ?_
      used := h.used }
  · intro a b ha hab hb
    by_cases hak : sec a = k
    · have hmem := (h.fringe_iff a).1 hak
      obtain ⟨j, hj⟩ := List.mem_iff_getElem?.1 hmem
      have hjl := (List.getElem?_eq_some.1 hj).1
      rw [hak]
      exact h.processed j a (by omega) hj b hab hb
    · exact h.closedOld a b ha hak hab hb
  · intro a b ha hsame
    by_cases hak : sec a = k
    · exact reach_trans (reach_symm (h.connNew a hak)) (h.connNew b (hsame.trans hak))
    · exact h.connOld a b ha hak hsame

/-! ### Writing one sector number -/

theorem SameGrid.refl_of_shaped (m : State DM)
    (hs : LayerShaped m.m_sectorNumber m.m_width m.m_height) : SameGrid m m :=
  ⟨rfl, rfl, rfl, rfl, rfl, rfl, rfl, rfl, rfl, hs⟩

theorem SameGrid.setSector {m0 m : State DM} (hg : SameGrid m0 m) (x y v : Int) :
    SameGrid m0 { m with m_sectorNumber := vvSet m.m_sectorNumber x y v } :=
  ⟨hg.width, hg.height, hg.frame, hg.walkable, hg.buildable, hg.depotBuildable, hg.lastSeen,
    hg.terrainHeight, hg.allMaps, vvSet_shaped hg.shaped x y v⟩

theorem SameGrid.walkOf_eq {m0 m : State DM} (hg : SameGrid m0 m) : walkOf m = walkOf m0 := by
  funext t
  simp only [walkOf, isWalkable, isValidTile, hg.width, hg.height, hg.walkable]

theorem SameGrid.isValidTile_eq {m0 m : State DM} (hg : SameGrid m0 m) (x y : Int) :
    isValidTile m x y = isValidTile m0 x y := by
  simp only [isValidTile, hg.width, hg.height]

theorem walkOf_valid {m : State DM} {t : Tile} (h : walkOf m t = true) :
    isValidTile m t.1 t.2 = true := by
  unfold walkOf isWalkable at h
  by_contra hv
  simp [hv] at h

theorem secOf_setSector {m : State DM}
    (hs : LayerShaped m.m_sectorNumber m.m_width m.m_height) {n : Tile}
    (hv : isValidTile m n.1 n.2 = true) (v : Int) :
    secOf { m with m_sectorNumber := vvSet m.m_sectorNumber n.1 n.2 v } =
      Function.update (secOf m) n v := by
  funext t
  have hvn := (isValidTile_iff m n.1 n.2).1 hv
  show (if !isValidTile m t.1 t.2 then 0 else vvGet (vvSet m.m_sectorNumber n.1 n.2 v) t.1 t.2) = _
  rw [vvGet_vvSet hs hvn.1 hvn.2]
  by_cases htn : t = n
  · subst htn
    simp [hv]
  · have hne : ¬ (t.1 = n.1 ∧ t.2 = n.2) := fun e => htn (Prod.ext e.1 e.2)
    rw [if_neg hne, Function.update_noteq htn]
    rfl

theorem zeroTiles_setSector {m : State DM}
    (hs : LayerShaped m.m_sectorNumber m.m_width m.m_height) {n : Tile}
    (hw : walkOf m n = true) (hz : secOf m n = 0) {v : Int} (hv : v ≠ 0) :
    (zeroTiles { m with m_sectorNumber := vvSet m.m_sectorNumber n.1 n.2 v }).card + 1 =
      (zeroTiles m).card := by
  have hval := walkOf_valid hw
  have hmem : n ∈ zeroTiles m := by
    have := (isValidTile_iff m n.1 n.2).1 hval
    simp only [zeroTiles, Finset.mem_filter, Finset.mem_product, Finset.mem_Ico]
    exact ⟨⟨this.1, this.2⟩, hw, hz⟩
  have heq : zeroTiles { m with m_sectorNumber := vvSet m.m_sectorNumber n.1 n.2 v } =
      (zeroTiles m).erase n := by
    ext t
    simp only [zeroTiles, Finset.mem_filter, Finset.mem_product, Finset.mem_Ico,
      Finset.mem_erase, secOf_setSector hs hval v]
    have hwalk : walkOf { m with m_sectorNumber := vvSet m.m_sectorNumber n.1 n.2 v } t =
        walkOf m t := rfl
    rw [hwalk]
    by_cases htn : t = n
    · subst htn
      simp [hv]
    · simp [htn, Function.update_noteq htn]
  rw [heq, Finset.card_erase_of_mem hmem]
  have : 0 < (zeroTiles m).card := Finset.card_pos.2 ⟨n, hmem⟩
  omega

theorem zeroTiles_card_le (m : State DM) :
    (zeroTiles m).card ≤ (m.m_width * m.m_height).toNat := by
  have h1 : (zeroTiles m).card ≤ ((Finset.Ico 0 m.m_width) ×ˢ (Finset.Ico 0 m.m_height)).card :=
    Finset.card_filter_le _ _
  rw [Finset.card_product, Int.card_Ico, Int.card_Ico] at h1
  simp only [sub_zero] at h1
  by_cases hw : 0 ≤ m.m_width
  · by_cases hh : 0 ≤ m.m_height
    · have : (m.m_width * m.m_height).toNat = m.m_width.toNat * m.m_height.toNat := by
        obtain ⟨a, ha⟩ := Int.eq_ofNat_of_zero_le hw
        obtain ⟨b, hb⟩ := Int.eq_ofNat_of_zero_le hh
        rw [ha, hb]
        have e : ((a : Int) * (b : Int)) = ((a * b : Nat) : Int) := by push_cast; rfl
        rw [e, Int.toNat_ofNat, Int.toNat_ofNat, Int.toNat_ofNat]
      omega
    · have : m.m_height.toNat = 0 := by omega
      rw [this] at h1
      omega
  · have : m.m_width.toNat = 0 := by omega
    rw [this] at h1
    omega

/-! ### One legal action -/

theorem expandAction_spec {m0 m : State DM} {k : Int} {seed tile : Tile} {fringe : List Tile}
    {i : Nat} (a : Nat) (ha : a < LegalActions) (hg : SameGrid m0 m)
    (h : BfsInv (walkOf m0) (secOf m) k seed fringe i) (ht : secOf m tile = k) :
    SameGrid m0 (expandAction k tile (m, fringe) a).1 ∧
    BfsInv (walkOf m0) (secOf (expandAction k tile (m, fringe) a).1) k seed
      (expandAction k tile (m, fringe) a).2 i ∧
    (∀ t, secOf m t ≠ 0 → secOf (expandAction k tile (m, fringe) a).1 t = secOf m t) ∧
    (walkOf m0 (tile.1 + actionX.getD a 0, tile.2 + actionY.getD a 0) = true →
      secOf (expandAction k tile (m, fringe) a).1
        (tile.1 + actionX.getD a 0, tile.2 + actionY.getD a 0) = k) ∧
    (zeroTiles (expandAction k tile (m, fringe) a).1).card +
        (expandAction k tile (m, fringe) a).2.length =
      (zeroTiles m).card + fringe.length ∧
    (∀ (j : Nat) (t : Tile), fringe[j]? = some t → (expandAction k tile (m, fringe) a).2[j]? = some t) := by
  have hk := h.kpos
  have hadj : Adj tile (tile.1 + actionX.getD a 0, tile.2 + actionY.getD a 0) :=
    (adj_iff_action tile _).2 ⟨a, ha, rfl⟩
  have hwalk := hg.walkOf_eq
  unfold expandAction
  simp only []
  split_ifs with hc
  · simp only [Bool.and_eq_true, beq_iff_eq] at hc
    have hw : walkOf m (tile.1 + actionX.getD a 0, tile.2 + actionY.getD a 0) = true := hc.1.2
    have hz : secOf m (tile.1 + actionX.getD a 0, tile.2 + actionY.getD a 0) = 0 := hc.2
    have hsec := secOf_setSector hg.shaped (n := (tile.1 + actionX.getD a 0, tile.2 + actionY.getD a 0))
      hc.1.1 k
    simp only [] at hsec
    refine ⟨hg.setSector _ _ _, ?_, ?_, ?_, ?_⟩
    · rw [hsec]
      exact h.push ht hadj (hwalk ▸ hw) hz
    · intro t htz
      rw [hsec, Function.update_noteq]
      intro e
      exact htz (e ▸ hz)
    · intro _
      rw [hsec, Function.update_same]
    · refine ⟨?_, ?_⟩
      · have := zeroTiles_setSector hg.shaped hw hz (v := k) (by omega)
        simp only [] at this
        simp only [List.length_append, List.length_singleton]
        omega
      · intro j t hj
        rw [List.getElem?_append_left (List.getElem?_eq_some.1 hj).1]
        exact hj
  · refine ⟨hg, h, fun _ _ => rfl, ?_, rfl, fun _ _ hj => hj⟩
    intro hw
    have hw1 : walkOf m (tile.1 + actionX.getD a 0, tile.2 + actionY.getD a 0) = true := by
      rw [hwalk]; exact hw
    have hv := walkOf_valid hw1
    have hnz : secOf m (tile.1 + actionX.getD a 0, tile.2 + actionY.getD a 0) ≠ 0 := by
      intro hz
      apply hc
      simp only [Bool.and_eq_true, beq_iff_eq]
      exact ⟨⟨hv, hw1⟩, hz⟩
    exact h.nbr_labelled ht hadj hnz

theorem expandActions_spec {m0 : State DM} {k : Int} {seed tile : Tile} {i : Nat}
    (as : List Nat) (has : ∀ a ∈ as, a < LegalActions) :
    ∀ (m : State DM) (fringe : List Tile), SameGrid m0 m →
      BfsInv (walkOf m0) (secOf m) k seed fringe i → secOf m tile = k →
      SameGrid m0 (as.foldl (expandAction k tile) (m, fringe)).1 ∧
      BfsInv (walkOf m0) (secOf (as.foldl (expandAction k tile) (m, fringe)).1) k seed
        (as.foldl (expandAction k tile) (m, fringe)).2 i ∧
      (∀ t, secOf m t ≠ 0 → secOf (as.foldl (expandAction k tile) (m, fringe)).1 t = secOf m t) ∧
      (∀ a ∈ as, walkOf m0 (tile.1 + actionX.getD a 0, tile.2 + actionY.getD a 0) = true →
        secOf (as.foldl (expandAction k tile) (m, fringe)).1
          (tile.1 + actionX.getD a 0, tile.2 + actionY.getD a 0) = k) ∧
      (zeroTiles (as.foldl (expandAction k tile) (m, fringe)).1).card +
          (as.foldl (expandAction k tile) (m, fringe)).2.length =
        (zeroTiles m).card + fringe.length ∧
      (∀ (j : Nat) (t : Tile), fringe[j]? = some t →
        (as.foldl (expandAction k tile) (m, fringe)).2[j]? = some t) := by
  induction as with
  | nil =>
    intro m fringe hg h _
    exact ⟨hg, h, fun _ _ => rfl, fun a ha => absurd ha (List.not_mem_nil a), rfl,
      fun _ _ hj => hj⟩
  | cons a as ih =>
    intro m fringe hg h ht
    have hk := h.kpos
    obtain ⟨hg1, h1, hmono1, hn1, hz1, hp1⟩ :=
      expandAction_spec a (has a (List.mem_cons_self a as)) hg h ht
    have ht1 : secOf (expandAction k tile (m, fringe) a).1 tile = k := by
      rw [hmono1 tile (by rw [ht]; omega)]; exact ht
    obtain ⟨hg2, h2, hmono2, hn2, hz2, hp2⟩ :=
      ih (fun b hb => has b (List.mem_cons_of_mem a hb)) _ _ hg1 h1 ht1
    simp only [Prod.mk.eta] at hg2 h2 hmono2 hn2 hz2 hp2
    simp only [List.foldl_cons]
    refine ⟨hg2, h2, ?_, ?_, by omega, fun j t hj => hp2 j t (hp1 j t hj)⟩
    · intro t htz
      rw [hmono2 t (by rw [hmono1 t htz]; exact htz), hmono1 t htz]
    · intro b hb hw
      rcases List.mem_cons.1 hb with rfl | hb1
      · have := hn1 hw
        rw [hmono2 _ (by rw [this]; omega)]
        exact this
      · exact hn2 b hb1 hw

/-! ### The breadth-first loop -/

theorem bfsLoop_spec {m0 : State DM} {k : Int} {seed : Tile} :
    ∀ (fuel : Nat) (m : State DM) (fringe : List Tile) (i : Nat), SameGrid m0 m →
      BfsInv (walkOf m0) (secOf m) k seed fringe i →
      (zeroTiles m).card + (fringe.length - i) ≤ fuel →
      ∃ m1 fringe1, bfsLoop k fuel m fringe i = some (m1, fringe1) ∧ SameGrid m0 m1 ∧
        FillInv (walkOf m0) (secOf m1) k ∧ (∀ t, secOf m t ≠ 0 → secOf m1 t = secOf m t) := by
  intro fuel
  induction fuel with
  | zero =>
    intro m fringe i hg h hf
    have hi := h.idx
    have hnot : ¬ (i < fringe.length) := by omega
    refine ⟨m, fringe, ?_, hg, h.finish (by omega), fun _ _ => rfl⟩
    simp only [bfsLoop, if_neg hnot]
  | succ fuel ih =>
    intro m fringe i hg h hf
    have hk := h.kpos
    cases hget : fringe[i]? with
    | none =>
      have hlen := List.getElem?_eq_none_iff.1 hget
      refine ⟨m, fringe, ?_, hg, h.finish hlen, fun _ _ => rfl⟩
      simp only [bfsLoop, hget]
    | some tile =>
      have hlt := (List.getElem?_eq_some.1 hget).1
      have hmem : tile ∈ fringe := List.mem_iff_getElem?.2 ⟨i, hget⟩
      have ht : secOf m tile = k := (h.fringe_iff tile).2 hmem
      obtain ⟨hg1, h1, hmono1, hn1, hz1, hp1⟩ :=
        @expandActions_spec DM m0 k seed tile i
          (List.range LegalActions) (fun a ha => List.mem_range.1 ha) m fringe hg h ht
      have hget1 := hp1 i tile hget
      have hlt1 := (List.getElem?_eq_some.1 hget1).1
      have h2 := h1.advance hget1 (by
        intro b hab hb
        obtain ⟨a, ha, rfl⟩ := (adj_iff_action tile b).1 hab
        exact hn1 a (List.mem_range.2 ha) hb)
      obtain ⟨m1, fringe1, hrun, hg3, hfill, hmono3⟩ := ih _ _ (i + 1) hg1 h2 (by omega)
      refine ⟨m1, fringe1, ?_, hg3, hfill, ?_⟩
      · simp only [bfsLoop, hget]
        exact hrun
      · intro t htz
        rw [hmono3 t (by rw [hmono1 t htz]; exact htz), hmono1 t htz]

/-! ### One tile of the double loop -/

theorem visitTile_spec {m0 m : State DM} {k : Int} (x y : Int) (hg : SameGrid m0 m)
    (h : FillInv (walkOf m0) (secOf m) k) :
    ∃ m1 k1, visitTile (m, k) x y = some (m1, k1) ∧ SameGrid m0 m1 ∧
      FillInv (walkOf m0) (secOf m1) k1 ∧ (∀ t, secOf m t ≠ 0 → secOf m1 t = secOf m t) ∧
      (walkOf m0 (x, y) = true → secOf m1 (x, y) ≠ 0) := by
  unfold visitTile
  simp only []
  split_ifs with hc
  · refine ⟨m, k, rfl, hg, h, fun _ _ => rfl, ?_⟩
    intro hw hz
    simp only [Bool.or_eq_true, bne_iff_ne, ne_eq, Bool.not_eq_true', Bool.not_eq_true] at hc
    rcases hc with hc | hc
    · exact hc hz
    · have : walkOf m (x, y) = true := by rw [hg.walkOf_eq]; exact hw
      have hw1 : isWalkable m x y = true := this
      rw [hw1] at hc
      exact Bool.noConfusion hc
  · simp only [Bool.or_eq_true, bne_iff_ne, ne_eq, Bool.not_eq_true', not_or, not_not,
      Bool.not_eq_false] at hc
    have hz : secOf m (x, y) = 0 := hc.1
    have hw : walkOf m (x, y) = true := hc.2
    have hw0 : walkOf m0 (x, y) = true := by rw [← hg.walkOf_eq]; exact hw
    have hval := walkOf_valid hw
    have hsec := secOf_setSector hg.shaped (n := (x, y)) hval (k + 1)
    simp only [] at hsec
    have hk := h.knonneg
    have hstart := BfsInv.start h hw0 hz
    rw [← hsec] at hstart
    have hcard := zeroTiles_setSector hg.shaped hw hz (v := k + 1) (by omega)
    simp only [] at hcard
    have hle := zeroTiles_card_le m
    obtain ⟨m1, fringe1, hrun, hg1, hfill, hmono⟩ :=
      @bfsLoop_spec DM m0 (k + 1) (x, y) (m.m_width * m.m_height).toNat _ [(x, y)] 0
        (hg.setSector x y (k + 1)) hstart (by simp only [List.length_singleton]; omega)
    refine ⟨m1, k + 1, ?_, hg1, hfill, ?_, ?_⟩
    · rw [hrun]; rfl
    · intro t htz
      have hne : t ≠ (x, y) := fun e => htz (e ▸ hz)
      rw [hmono t (by rw [hsec, Function.update_noteq hne]; exact htz), hsec,
        Function.update_noteq hne]
    · intro _
      rw [hmono (x, y) (by rw [hsec, Function.update_same]; omega), hsec, Function.update_same]
      omega

/-! ### The double loop -/

theorem connectivityLoop_spec (m : State DM)
    (hs : LayerShaped m.m_sectorNumber m.m_width m.m_height) (hz : SectorsZero m) :
    ∃ m1 k, connectivityLoop m = some (m1, k) ∧ SameGrid m m1 ∧
      FillInv (walkOf m) (secOf m1) k ∧ ∀ t, walkOf m t = true → secOf m1 t ≠ 0 := by
  have hloop := foldlM2_inv (fun (st : State DM × Int) x y => visitTile st x y)
    (fun V st => SameGrid m st.1 ∧ FillInv (walkOf m) (secOf st.1) st.2 ∧
      ∀ t ∈ V, walkOf m t = true → secOf st.1 t ≠ 0)
    (loopRange m.m_width) (loopRange m.m_height) ?_ (m, 0)
    ⟨SameGrid.refl_of_shaped m hs, FillInv.zero _ _ (fun t => hz t.1 t.2),
      fun t ht => absurd ht (Set.not_mem_empty t)⟩
  · obtain ⟨⟨m1, k⟩, hrun, hg, hfill, hall⟩ := hloop
    refine ⟨m1, k, hrun, hg, hfill, ?_⟩
    intro t hw
    have hv := (isValidTile_iff m t.1 t.2).1 (walkOf_valid hw)
    exact hall t ⟨(mem_loopRange _ _).2 hv.1, (mem_loopRange _ _).2 hv.2⟩ hw
  · rintro V ⟨m1, k⟩ x y ⟨hg, hfill, hall⟩ _ _
    obtain ⟨m2, k2, hrun, hg2, hfill2, hmono, hxy⟩ := visitTile_spec x y hg hfill
    refine ⟨(m2, k2), hrun, hg2, hfill2, ?_⟩
    intro t ht hw
    rcases Set.mem_insert_iff.1 ht with rfl | htV
    · exact hxy hw
    · have := hall t htV hw
      rw [hmono t this]
      exact this

/-! ### Paths as lists -/

theorem reach_of_isWalkPath {m : State DM} (p : List Tile) :
    ∀ (a b : Tile), IsWalkPath m a b p → Reach (walkOf m) a b := by
  induction p with
  | nil =>
    intro a b h
    simp [IsWalkPath] at h
  | cons c rest ih =>
    intro a b h
    obtain ⟨hh, hl, hc, hall⟩ := h
    simp only [List.head?_cons, Option.some.injEq] at hh
    subst hh
    cases rest with
    | nil =>
      simp only [List.getLast?_singleton, Option.some.injEq] at hl
      subst hl
      exact Relation.ReflTransGen.refl
    | cons d rest1 =>
      have hcd : Adj c d := (List.chain'_cons.1 hc).1
      have hc2 : List.Chain' Adj (d :: rest1) := (List.chain'_cons.1 hc).2
      have hl2 : (d :: rest1).getLast? = some b := by
        rw [List.getLast?_cons_cons] at hl
        exact hl
      have hrec := ih d b ⟨rfl, hl2, hc2, fun t ht => hall t (List.mem_cons_of_mem c ht)⟩
      have hwc := (hall c (List.mem_cons_self c _)).2
      have hwd := (hall d (List.mem_cons_of_mem c (List.mem_cons_self d _))).2
      exact Relation.ReflTransGen.head ⟨hcd, hwc, hwd⟩ hrec

theorem isWalkPath_of_reach {m : State DM} {a b : Tile} (ha : walkOf m a = true)
    (h : Reach (walkOf m) a b) : ∃ p, IsWalkPath m a b p := by
  unfold Reach at h
  induction h with
  | refl =>
    refine ⟨[a], rfl, rfl, List.chain'_singleton a, ?_⟩
    intro t ht
    rw [List.mem_singleton] at ht
    subst ht
    exact ⟨walkOf_valid ha, ha⟩
  | @tail b c _ hbc ih =>
    obtain ⟨p, hh, hl, hc, hall⟩ := ih
    refine ⟨p ++ [c], ?_, ?_, ?_, ?_⟩
    · cases p with
      | nil => simp at hh
      | cons x xs => simpa using hh
    · simp
    · rw [List.chain'_append]
      refine ⟨hc, List.chain'_singleton c, ?_⟩
      intro x hx y hy
      rw [hl] at hx
      simp only [Option.mem_def, Option.some.injEq] at hx
      simp only [List.head?_cons, Option.mem_def, Option.some.injEq] at hy
      subst hx hy
      exact hbc.1
    · intro t ht
      rcases List.mem_append.1 ht with hp | hp
      · exact hall t hp
      · rw [List.mem_singleton] at hp
        subst hp
        exact ⟨walkOf_valid hbc.2.2, hbc.2.2⟩

theorem isWalkPath_iff_reach {m : State DM} (a b : Tile) :
    (∃ p, IsWalkPath m a b p) ↔ walkOf m a = true ∧ Reach (walkOf m) a b := by
  constructor
  · rintro ⟨p, hp⟩
    refine ⟨?_, reach_of_isWalkPath p a b hp⟩
    obtain ⟨hh, _, _, hall⟩ := hp
    cases p with
    | nil => simp at hh
    | cons c rest =>
      simp only [List.head?_cons, Option.some.injEq] at hh
      subst hh
      exact (hall c (List.mem_cons_self c _)).2
  · rintro ⟨ha, hr⟩
    exact isWalkPath_of_reach ha hr

theorem reach_walkable {walk : Tile → Bool} {a b : Tile} (ha : walk a = true)
    (h : Reach walk a b) : walk b = true := by
  unfold Reach at h
  induction h with
  | refl => exact ha
  | tail _ hbc _ => exact hbc.2.2

/-! ### The result of the flood fill -/

theorem SameGrid.isWalkPath_iff {m m1 : State DM} (hg : SameGrid m m1) (a b : Tile)
    (p : List Tile) : IsWalkPath m1 a b p ↔ IsWalkPath m a b p := by
  have hw : ∀ t : Tile, isWalkable m1 t.1 t.2 = isWalkable m t.1 t.2 :=
    fun t => congrFun hg.walkOf_eq t
  simp only [IsWalkPath, hg.isValidTile_eq, hw]

/-- The flood fill returns, changes the sector layer only, and leaves a labelling that
satisfies the invariant with every walkable tile labelled. -/
theorem computeConnectivity_total (m : State DM)
    (hs : LayerShaped m.m_sectorNumber m.m_width m.m_height) (hz : SectorsZero m) :
    ∃ m1 k, connectivityLoop m = some (m1, k) ∧ computeConnectivity m = some m1 ∧
      SameGrid m m1 ∧ FillInv (walkOf m1) (secOf m1) k ∧
      ∀ t, walkOf m1 t = true → secOf m1 t ≠ 0 := by
  obtain ⟨m1, k, hrun, hg, hfill, hall⟩ := connectivityLoop_spec m hs hz
  refine ⟨m1, k, hrun, ?_, hg, ?_, ?_⟩
  · simp [computeConnectivity, hrun]
  · rw [hg.walkOf_eq]; exact hfill
  · rw [hg.walkOf_eq]; exact hall

theorem secOf_eq_zero_of_not_walkable {m : State DM} {k : Int}
    (h : FillInv (walkOf m) (secOf m) k) {t : Tile} (hw : walkOf m t = false) :
    secOf m t = 0 := by
  by_contra hne
  have := (h.label t hne).1
  rw [hw] at this
  exact Bool.noConfusion this

theorem isConnected_eq (m : State DM) (x1 y1 x2 y2 : Int) :
    isConnected m x1 y1 x2 y2 = true ↔
      isValidTile m x1 y1 = true ∧ isValidTile m x2 y2 = true ∧
      secOf m (x1, y1) ≠ 0 ∧ secOf m (x1, y1) = secOf m (x2, y2) := by
  unfold isConnected secOf
  by_cases h1 : isValidTile m x1 y1 = true
  · by_cases h2 : isValidTile m x2 y2 = true
    · simp [h1, h2]
    · simp [h1, h2]
  · simp [h1]

/-! ### The population loop of `onStart` -/

theorem onStartLayers_spec (canBuild canWalk : Int → Int → Bool) (terainHeight : ℚ → ℚ → Height)
    (m0 : State DM) (w h : Nat) :
    (onStartLayers canBuild canWalk terainHeight m0 w h).m_width = (w : Int) ∧
    (onStartLayers canBuild canWalk terainHeight m0 w h).m_height = (h : Int) ∧
    (onStartLayers canBuild canWalk terainHeight m0 w h).m_frame = m0.m_frame ∧
    (onStartLayers canBuild canWalk terainHeight m0 w h)._allMaps = m0._allMaps ∧
    (onStartLayers canBuild canWalk terainHeight m0 w h).m_lastSeen = vvNew w h 0 ∧
    (onStartLayers canBuild canWalk terainHeight m0 w h).m_sectorNumber = vvNew w h 0 ∧
    (onStartLayers canBuild canWalk terainHeight m0 w h).m_depotBuildable = vvNew w h false ∧
    LayerShaped (onStartLayers canBuild canWalk terainHeight m0 w h).m_buildable w h ∧
    LayerShaped (onStartLayers canBuild canWalk terainHeight m0 w h).m_walkable w h ∧
    LayerShaped (onStartLayers canBuild canWalk terainHeight m0 w h).m_terrainHeight w h ∧
    ∀ x y : Int, (0 ≤ x ∧ x < w) → (0 ≤ y ∧ y < h) →
      vvGet (onStartLayers canBuild canWalk terainHeight m0 w h).m_buildable x y = canBuild x y ∧
      vvGet (onStartLayers canBuild canWalk terainHeight m0 w h).m_walkable x y =
        (canBuild x y || canWalk x y) ∧
      vvGet (onStartLayers canBuild canWalk terainHeight m0 w h).m_terrainHeight x y =
        terainHeight (x : ℚ) (y : ℚ) := by
  have hloop := foldl2_inv (onStartCell canBuild canWalk terainHeight)
    (fun V (s : State DM) =>
      s.m_width = (w : Int) ∧ s.m_height = (h : Int) ∧ s.m_frame = m0.m_frame ∧
      s._allMaps = m0._allMaps ∧ s.m_lastSeen = vvNew w h 0 ∧ s.m_sectorNumber = vvNew w h 0 ∧
      s.m_depotBuildable = vvNew w h false ∧ LayerShaped s.m_buildable w h ∧
      LayerShaped s.m_walkable w h ∧ LayerShaped s.m_terrainHeight w h ∧
      ∀ t ∈ V, vvGet s.m_buildable t.1 t.2 = canBuild t.1 t.2 ∧
        vvGet s.m_walkable t.1 t.2 = (canBuild t.1 t.2 || canWalk t.1 t.2) ∧
        vvGet s.m_terrainHeight t.1 t.2 = terainHeight (t.1 : ℚ) (t.2 : ℚ))
    (loopRange (w : Int)) (loopRange (h : Int)) ?_
    { m0 with
      m_width := (w : Int), m_height := (h : Int),
      m_walkable := vvNew w h true,
      m_buildable := vvNew w h false,
      m_depotBuildable := vvNew w h false,
      m_lastSeen := vvNew w h 0,
      m_sectorNumber := vvNew w h 0,
      m_terrainHeight := vvNew w h 0 }
    ⟨rfl, rfl, rfl, rfl, rfl, rfl, rfl, vvNew_shaped w h false, vvNew_shaped w h true,
      vvNew_shaped w h 0, fun t ht => absurd ht (Set.not_mem_empty t)⟩
  · obtain ⟨h1, h2, h3, h4, h5, h6, h7, h8, h9, h10, hall⟩ := hloop
    refine ⟨h1, h2, h3, h4, h5, h6, h7, h8, h9, h10, ?_⟩
    intro x y hx hy
    exact hall (x, y) ⟨(mem_loopRange _ _).2 hx, (mem_loopRange _ _).2 hy⟩
  · rintro V s x y ⟨h1, h2, h3, h4, h5, h6, h7, h8, h9, h10, hall⟩ hx hy
    have hx1 := (mem_loopRange _ _).1 hx
    have hy1 := (mem_loopRange _ _).1 hy
    refine ⟨h1, h2, h3, h4, h5, h6, h7, vvSet_shaped h8 _ _ _, vvSet_shaped h9 _ _ _,
      vvSet_shaped h10 _ _ _, ?_⟩
    intro t ht
    simp only [onStartCell, vvGet_vvSet h8 hx1 hy1, vvGet_vvSet h9 hx1 hy1,
      vvGet_vvSet h10 hx1 hy1, and_self, if_true]
    by_cases htx : t.1 = x ∧ t.2 = y
    · rw [if_pos htx, if_pos htx, if_pos htx, htx.1, htx.2]
      exact ⟨rfl, rfl, rfl⟩
    · rw [if_neg htx, if_neg htx, if_neg htx]
      rcases Set.mem_insert_iff.1 ht with rfl | htV
      · exact absurd ⟨rfl, rfl⟩ htx
      · exact hall t htV

theorem onStartLayers_shaped (canBuild canWalk : Int → Int → Bool)
    (terainHeight : ℚ → ℚ → Height) (m0 : State DM) (w h : Nat) :
    Shaped (onStartLayers canBuild canWalk terainHeight m0 w h) := by
  obtain ⟨h1, h2, _, _, h5, h6, h7, h8, h9, h10, _⟩ :=
    onStartLayers_spec canBuild canWalk terainHeight m0 w h
  refine ⟨?_, ?_, ?_, ?_, ?_, ?_⟩
  · rw [h1, h2]; exact h9
  · rw [h1, h2]; exact h8
  · rw [h1, h2, h7]; exact vvNew_shaped w h false
  · rw [h1, h2, h5]; exact vvNew_shaped w h 0
  · rw [h1, h2, h6]; exact vvNew_shaped w h 0
  · rw [h1, h2]; exact h10

theorem onStartLayers_sectorsZero (canBuild canWalk : Int → Int → Bool)
    (terainHeight : ℚ → ℚ → Height) (m0 : State DM) (w h : Nat) :
    SectorsZero (onStartLayers canBuild canWalk terainHeight m0 w h) := by
  obtain ⟨h1, h2, _, _, _, h6, _⟩ := onStartLayers_spec canBuild canWalk terainHeight m0 w h
  intro x y
  unfold getSectorNumber
  split_ifs with hv
  · rfl
  · simp only [Bool.not_eq_true, Bool.not_eq_false] at hv
    have hv1 := (isValidTile_iff _ x y).1 (by simpa using hv)
    rw [h1, h2] at hv1
    rw [h6]
    exact vvGet_vvNew w h 0 x y hv1.1 hv1.2

theorem onStartLayers_lastSeen (canBuild canWalk : Int → Int → Bool)
    (terainHeight : ℚ → ℚ → Height) (m0 : State DM) (w h : Nat) (t : Tile)
    (hv : isValidTile (onStartLayers canBuild canWalk terainHeight m0 w h) t.1 t.2 = true) :
    lastSeenAt (onStartLayers canBuild canWalk terainHeight m0 w h) t = 0 := by
  obtain ⟨h1, h2, _, _, h5, _⟩ := onStartLayers_spec canBuild canWalk terainHeight m0 w h
  have hv1 := (isValidTile_iff _ t.1 t.2).1 hv
  rw [h1, h2] at hv1
  unfold lastSeenAt
  rw [h5]
  exact vvGet_vvNew w h 0 t.1 t.2 hv1.1 hv1.2

/-! ### One frame -/

theorem onFrame_spec (visible : Int → Int → Bool) (m : State DM)
    (hs : LayerShaped m.m_lastSeen m.m_width m.m_height) :
    (onFrame visible m).m_frame = wrapInt (m.m_frame + 1) ∧
    (onFrame visible m).m_width = m.m_width ∧
    (onFrame visible m).m_height = m.m_height ∧
    (onFrame visible m).m_walkable = m.m_walkable ∧
    (onFrame visible m).m_buildable = m.m_buildable ∧
    (onFrame visible m).m_depotBuildable = m.m_depotBuildable ∧
    (onFrame visible m).m_sectorNumber = m.m_sectorNumber ∧
    (onFrame visible m).m_terrainHeight = m.m_terrainHeight ∧
    (onFrame visible m)._allMaps = m._allMaps ∧
    LayerShaped (onFrame visible m).m_lastSeen m.m_width m.m_height ∧
    ∀ t : Tile, isValidTile m t.1 t.2 = true →
      lastSeenAt (onFrame visible m) t =
        if visible t.1 t.2 = true then wrapInt (m.m_frame + 1) else lastSeenAt m t := by
  have hloop := foldl2_inv
    (fun (s : State DM) x y =>
      if isVisible s visible x y then
        { s with m_lastSeen := vvSet s.m_lastSeen x y s.m_frame }
      else s)
    (fun V (s : State DM) =>
      s.m_frame = wrapInt (m.m_frame + 1) ∧ s.m_width = m.m_width ∧ s.m_height = m.m_height ∧
      s.m_walkable = m.m_walkable ∧ s.m_buildable = m.m_buildable ∧
      s.m_depotBuildable = m.m_depotBuildable ∧ s.m_sectorNumber = m.m_sectorNumber ∧
      s.m_terrainHeight = m.m_terrainHeight ∧ s._allMaps = m._allMaps ∧
      LayerShaped s.m_lastSeen m.m_width m.m_height ∧
      (∀ t ∈ V, visible t.1 t.2 = true → lastSeenAt s t = wrapInt (m.m_frame + 1)) ∧
      (∀ t, (t ∈ V → visible t.1 t.2 = false) → lastSeenAt s t = lastSeenAt m t))
    (loopRange m.m_width) (loopRange m.m_height) ?_
    { m with m_frame := wrapInt (m.m_frame + 1) }
    ⟨rfl, rfl, rfl, rfl, rfl, rfl, rfl, rfl, rfl, hs,
      fun t ht => absurd ht (Set.not_mem_empty t), fun _ _ => rfl⟩
  · obtain ⟨h1, h2, h3, h4, h5, h6, h7, h8, h9, h10, hvis, hnot⟩ := hloop
    refine ⟨h1, h2, h3, h4, h5, h6, h7, h8, h9, h10, ?_⟩
    intro t hv
    have hv1 := (isValidTile_iff m t.1 t.2).1 hv
    have hmem : t ∈ {t : Tile | t.1 ∈ loopRange m.m_width ∧ t.2 ∈ loopRange m.m_height} :=
      ⟨(mem_loopRange _ _).2 hv1.1, (mem_loopRange _ _).2 hv1.2⟩
    split_ifs with hvt
    · exact hvis t hmem hvt
    · exact hnot t (fun _ => by simpa using hvt)
  · rintro V s x y ⟨h1, h2, h3, h4, h5, h6, h7, h8, h9, h10, hvis, hnot⟩ hx hy
    beta_reduce
    have hx1 := (mem_loopRange _ _).1 hx
    have hy1 := (mem_loopRange _ _).1 hy
    have hval : isValidTile s x y = true := by
      rw [isValidTile_iff, h2, h3]; exact ⟨hx1, hy1⟩
    by_cases hv : visible x y = true
    · have hc : isVisible s visible x y = true := by simp [isVisible, hval, hv]
      rw [if_pos hc]
      refine ⟨h1, h2, h3, h4, h5, h6, h7, h8, h9, vvSet_shaped h10 _ _ _, ?_, ?_⟩
      · intro t ht hvt
        show vvGet (vvSet s.m_lastSeen x y s.m_frame) t.1 t.2 = _
        rw [vvGet_vvSet h10 hx1 hy1]
        split_ifs with htx
        · exact h1
        · rcases Set.mem_insert_iff.1 ht with rfl | htV
          · exact absurd ⟨rfl, rfl⟩ htx
          · exact hvis t htV hvt
      · intro t ht
        show vvGet (vvSet s.m_lastSeen x y s.m_frame) t.1 t.2 = _
        rw [vvGet_vvSet h10 hx1 hy1]
        split_ifs with htx
        · have : t = (x, y) := Prod.ext htx.1 htx.2
          have hf := ht (this ▸ Set.mem_insert _ _)
          rw [htx.1, htx.2, hv] at hf
          exact Bool.noConfusion hf
        · exact hnot t (fun htV => ht (Set.mem_insert_of_mem _ htV))
    · have hc : ¬ (isVisible s visible x y = true) := by simp [isVisible, hval, hv]
      rw [if_neg hc]
      refine ⟨h1, h2, h3, h4, h5, h6, h7, h8, h9, h10, ?_, ?_⟩
      · intro t ht hvt
        rcases Set.mem_insert_iff.1 ht with rfl | htV
        · exact absurd hvt hv
        · exact hvis t htV hvt
      · intro t ht
        apply hnot t
        intro htV
        exact ht (Set.mem_insert_of_mem _ htV)

/-! ### The unguarded terrain lookup -/

theorem floatToInt_of_nonneg {x : ℚ} (hx : 0 ≤ x) : floatToInt x = ⌊x⌋ := by
  unfold floatToInt
  rw [Rat.floor_def, Int.tdiv_eq_ediv (Rat.num_nonneg.2 hx) (Int.ofNat_nonneg _)]

/-- The in-bounds half of the terrain lookup: with coordinates inside the map the read is in
range and returns the stored height of the tile `(floor x, floor y)`. -/
theorem terrainHeight_in_bounds (m : State DM) (hs : Shaped m) (x y : ℚ)
    (hx : 0 ≤ x ∧ x < m.m_width) (hy : 0 ≤ y ∧ y < m.m_height) :
    terrainHeight m x y = some (vvGet m.m_terrainHeight ⌊x⌋ ⌊y⌋) := by
  unfold terrainHeight
  rw [floatToInt_of_nonneg hx.1, floatToInt_of_nonneg hy.1]
  have hfx : (0 ≤ ⌊x⌋ ∧ ⌊x⌋ < m.m_width) := ⟨Int.floor_nonneg.2 hx.1, Int.floor_lt.2 hx.2⟩
  have hfy : (0 ≤ ⌊y⌋ ∧ ⌊y⌋ < m.m_height) := ⟨Int.floor_nonneg.2 hy.1, Int.floor_lt.2 hy.2⟩
  have hsome := (vvAt_isSome_iff hs.terrainHeight ⌊x⌋ ⌊y⌋).2 ⟨hfx, hfy⟩
  unfold vvGet
  cases hv : vvAt m.m_terrainHeight ⌊x⌋ ⌊y⌋ with
  | none => simp [hv] at hsome
  | some b => rfl

/-- Reads guarded by `isValidTile` are in range on a shaped state, so `vvGet` never takes
its default there. -/
theorem vvAt_isSome_of_shaped (m : State DM) (hs : Shaped m) (x y : Int)
    (hv : isValidTile m x y = true) :
    (vvAt m.m_walkable x y).isSome = true ∧ (vvAt m.m_buildable x y).isSome = true ∧
    (vvAt m.m_depotBuildable x y).isSome = true ∧ (vvAt m.m_lastSeen x y).isSome = true ∧
    (vvAt m.m_sectorNumber x y).isSome = true ∧ (vvAt m.m_terrainHeight x y).isSome = true := by
  have h := (isValidTile_iff m x y).1 hv
  exact ⟨(vvAt_isSome_iff hs.walkable x y).2 h, (vvAt_isSome_iff hs.buildable x y).2 h,
    (vvAt_isSome_iff hs.depotBuildable x y).2 h, (vvAt_isSome_iff hs.lastSeen x y).2 h,
    (vvAt_isSome_iff hs.sectorNumber x y).2 h, (vvAt_isSome_iff hs.terrainHeight x y).2 h⟩

theorem getDistanceMap_miss {Pos : Type} (D : DistanceMapOps DM Pos) (m : State DM)
    (o : Tile) (h : m._allMaps.find o = none) :
    getDistanceMap D m o =
      (D.computeDistanceMap D.ctor { m with _allMaps := m._allMaps.set o D.ctor } o,
        { m with _allMaps := ((m._allMaps.set o D.ctor).set o
            (D.computeDistanceMap D.ctor { m with _allMaps := m._allMaps.set o D.ctor } o)) }) := by
  have h1 : m._allMaps.find (o.1, o.2) = none := h
  have hoo : (o.1, o.2) = o := rfl
  simp [getDistanceMap, h1, hoo, StdMap.index, StdMap.find_set]

theorem component_eq_label {m : State DM} {k : Int} (h : FillInv (walkOf m) (secOf m) k)
    {t : Tile} (hw : walkOf m t = true) (hnz : secOf m t ≠ 0) (b : Tile) :
    (∃ p, IsWalkPath m t b p) ↔ secOf m b = secOf m t := by
  rw [isWalkPath_iff_reach]
  constructor
  · rintro ⟨_, hr⟩
    exact h.label_of_reach hnz hr
  · intro hsame
    exact ⟨hw, h.conn t b hnz hsame⟩

theorem components_ncard {m : State DM} {k : Int} (h : FillInv (walkOf m) (secOf m) k)
    (hall : ∀ t, walkOf m t = true → secOf m t ≠ 0) : (components m).ncard = k.toNat := by
  have himg : components m = (fun j : Int => {t : Tile | secOf m t = j}) '' (Set.Icc 1 k) := by
    ext S
    simp only [components, Set.mem_setOf_eq, Set.mem_image, Set.mem_Icc]
    constructor
    · rintro ⟨t, hw, rfl⟩
      have hnz := hall t hw
      refine ⟨secOf m t, ⟨(h.label t hnz).2.1, (h.label t hnz).2.2⟩, ?_⟩
      ext b
      simp only [Set.mem_setOf_eq]
      exact (component_eq_label h hw hnz b).symm
    · rintro ⟨j, ⟨h1, h2⟩, rfl⟩
      obtain ⟨t, ht⟩ := h.used j h1 h2
      have hnz : secOf m t ≠ 0 := by rw [ht]; omega
      refine ⟨t, (h.label t hnz).1, ?_⟩
      ext b
      simp only [Set.mem_setOf_eq]
      rw [component_eq_label h (h.label t hnz).1 hnz b, ht]
  have hinj : Set.InjOn (fun j : Int => {t : Tile | secOf m t = j}) (Set.Icc 1 k) := by
    intro j hj j1 _ heq
    obtain ⟨t, ht⟩ := h.used j hj.1 hj.2
    have : t ∈ (fun j : Int => {t : Tile | secOf m t = j}) j1 := by
      rw [← heq]; exact ht
    exact ht.symm.trans this
  rw [himg, Set.ncard_image_of_injOn hinj, ← Finset.coe_Icc, Set.ncard_coe_Finset,
    Int.card_Icc]
  congr 1
  omega

theorem runFrames_append (vs : List (Int → Int → Bool)) (v : Int → Int → Bool) (m : State DM) :
    runFrames (vs ++ [v]) m = onFrame v (runFrames vs m) := by
  simp [runFrames, List.foldl_append]

theorem wrapInt_of_range (x : Int) (h1 : -2147483648 ≤ x) (h2 : x ≤ 2147483647) :
    wrapInt x = x := by
  unfold wrapInt
  omega

theorem runFrames_grid (m : State DM) (hs : LayerShaped m.m_lastSeen m.m_width m.m_height)
    (vs : List (Int → Int → Bool)) :
    (runFrames vs m).m_width = m.m_width ∧ (runFrames vs m).m_height = m.m_height ∧
    LayerShaped (runFrames vs m).m_lastSeen (runFrames vs m).m_width (runFrames vs m).m_height := by
  induction vs using List.reverseRecOn with
  | nil => exact ⟨rfl, rfl, hs⟩
  | append_singleton vs v ih =>
    obtain ⟨h1, h2, h3⟩ := ih
    obtain ⟨_, g2, g3, _, _, _, _, _, _, g10, _⟩ := onFrame_spec v (runFrames vs m) h3
    rw [runFrames_append]
    refine ⟨by rw [g2, h1], by rw [g3, h2], ?_⟩
    rw [g2, g3]; exact g10

theorem runFrames_frame_step (m : State DM)
    (hs : LayerShaped m.m_lastSeen m.m_width m.m_height) (vs : List (Int → Int → Bool))
    (v : Int → Int → Bool) :
    (runFrames (vs ++ [v]) m).m_frame = wrapInt ((runFrames vs m).m_frame + 1) := by
  rw [runFrames_append]
  exact (onFrame_spec v (runFrames vs m) (runFrames_grid m hs vs).2.2).1

theorem runFrames_frame (m : State DM) (hs : LayerShaped m.m_lastSeen m.m_width m.m_height)
    (h0 : 0 ≤ m.m_frame) (vs : List (Int → Int → Bool))
    (hb : m.m_frame + (vs.length : Int) ≤ 2147483647) :
    (runFrames vs m).m_frame = m.m_frame + (vs.length : Int) := by
  induction vs using List.reverseRecOn with
  | nil => simp [runFrames]
  | append_singleton vs v ih =>
    simp only [List.length_append, List.length_singleton] at hb ⊢
    push_cast at hb ⊢
    rw [runFrames_frame_step m hs vs v, ih (by omega), wrapInt_of_range _ (by omega) (by omega)]
    omega

theorem runFrames_step (m : State DM) (hs : LayerShaped m.m_lastSeen m.m_width m.m_height)
    (vs : List (Int → Int → Bool)) (v : Int → Int → Bool) (t : Tile)
    (hv : isValidTile m t.1 t.2 = true) :
    lastSeenAt (runFrames (vs ++ [v]) m) t =
      if v t.1 t.2 = true then (runFrames (vs ++ [v]) m).m_frame
      else lastSeenAt (runFrames vs m) t := by
  obtain ⟨h1, h2, h3⟩ := runFrames_grid m hs vs
  have hv1 : isValidTile (runFrames vs m) t.1 t.2 = true := by
    rw [isValidTile_iff, h1, h2]; exact (isValidTile_iff m t.1 t.2).1 hv
  rw [runFrames_frame_step m hs vs v, runFrames_append]
  exact (onFrame_spec v (runFrames vs m) h3).2.2.2.2.2.2.2.2.2.2 t hv1

theorem runFrames_lastSeen (m : State DM) (hs : LayerShaped m.m_lastSeen m.m_width m.m_height)
    (hf : m.m_frame = 0) (t : Tile) (hv : isValidTile m t.1 t.2 = true)
    (hz : lastSeenAt m t = 0) (vs : List (Int → Int → Bool))
    (hb : (vs.length : Int) ≤ 2147483647) :
    (lastSeenAt (runFrames vs m) t = 0 ∧
      ∀ (i : Nat) (v : Int → Int → Bool), vs[i]? = some v → v t.1 t.2 = false) ∨
    (∃ (i : Nat) (v : Int → Int → Bool), vs[i]? = some v ∧ v t.1 t.2 = true ∧
      lastSeenAt (runFrames vs m) t = (i : Int) + 1 ∧
      ∀ (j : Nat) (u : Int → Int → Bool), i < j → vs[j]? = some u → u t.1 t.2 = false) := by
  induction vs using List.reverseRecOn with
  | nil =>
    left
    exact ⟨hz, fun i v h => by simp at h⟩
  | append_singleton vs v ih =>
    have hb1 : (vs.length : Int) + 1 ≤ 2147483647 := by
      simp only [List.length_append, List.length_singleton] at hb
      push_cast at hb
      exact hb
    have ih := ih (by omega)
    have hfr := runFrames_frame m hs (by omega) (vs ++ [v]) (by rw [hf]; omega)
    rw [runFrames_step m hs vs v t hv]
    by_cases hvis : v t.1 t.2 = true
    · right
      refine ⟨vs.length, v, by simp, hvis, ?_, ?_⟩
      · rw [if_pos hvis, hfr, hf]
        simp only [List.length_append, List.length_singleton]
        push_cast
        omega
      · intro j u hj hu
        have := (List.getElem?_eq_some.1 hu).1
        simp only [List.length_append, List.length_singleton] at this
        omega
    · rw [if_neg hvis]
      have hvf : v t.1 t.2 = false := by simpa using hvis
      rcases ih with ⟨h0, hnone⟩ | ⟨i, u, hu, hut, hval, hlater⟩
      · left
        refine ⟨h0, ?_⟩
        intro i u hu
        by_cases hi : i < vs.length
        · rw [List.getElem?_append_left hi] at hu
          exact hnone i u hu
        · have hlen := (List.getElem?_eq_some.1 hu).1
          simp only [List.length_append, List.length_singleton] at hlen
          have hie : i = vs.length := by omega
          subst hie
          simp at hu
          rw [← hu]; exact hvf
      · right
        have hil := (List.getElem?_eq_some.1 hu).1
        refine ⟨i, u, by rw [List.getElem?_append_left hil]; exact hu, hut, hval, ?_⟩
        intro j w hj hw
        by_cases hjl : j < vs.length
        · rw [List.getElem?_append_left hjl] at hw
          exact hlater j w hj hw
        · have hlen := (List.getElem?_eq_some.1 hw).1
          simp only [List.length_append, List.length_singleton] at hlen
          have hje : j = vs.length := by omega
          subst hje
          simp at hw
          rw [← hw]; exact hvf

theorem sentinel_run (n : Nat) (hn : (n : Int) + 1 ≤ 2147483647) :
    ∃ m : State Unit,
      onStart (fun _ _ => true) (fun _ _ => true) (fun _ _ => 0) new 2 1 = some m ∧
      (runFrames (List.replicate n seeNothing ++ [seeLast]) m).m_frame = (n : Int) + 1 ∧
      lastSeenAt (runFrames (List.replicate n seeNothing ++ [seeLast]) m) (1, 0) = (n : Int) + 1 ∧
      isValidTile (runFrames (List.replicate n seeNothing ++ [seeLast]) m) 1 0 = true := by
  obtain ⟨m1, k, _, hrun, hg, _, _⟩ := computeConnectivity_total
    (onStartLayers (fun _ _ => true) (fun _ _ => true) (fun _ _ => 0) (new : State Unit) 2 1)
    (onStartLayers_shaped _ _ _ new 2 1).sectorNumber
    (onStartLayers_sectorsZero _ _ _ new 2 1)
  have hspec := onStartLayers_spec (fun _ _ => true) (fun _ _ => true) (fun _ _ => 0)
    (new : State Unit) 2 1
  have hshape := (onStartLayers_shaped (fun _ _ => true) (fun _ _ => true) (fun _ _ => 0)
    (new : State Unit) 2 1).lastSeen
  have hs : LayerShaped m1.m_lastSeen m1.m_width m1.m_height := by
    rw [hg.lastSeen, hg.width, hg.height]; exact hshape
  have hf : m1.m_frame = 0 := by
    rw [hg.frame, hspec.2.2.1]; rfl
  have hw : m1.m_width = 2 := by rw [hg.width, hspec.1]; rfl
  have hh : m1.m_height = 1 := by rw [hg.height, hspec.2.1]; rfl
  have hv : isValidTile m1 1 0 = true := by
    rw [isValidTile_iff, hw, hh]; decide
  have hgrid1 := runFrames_grid m1 hs (List.replicate n seeNothing ++ [seeLast])
  have hfr : (runFrames (List.replicate n seeNothing ++ [seeLast]) m1).m_frame = (n : Int) + 1 := by
    rw [runFrames_frame m1 hs (by omega) _ (by
      simp only [List.length_append, List.length_replicate, List.length_singleton]
      push_cast
      rw [hf]; omega), hf]
    simp only [List.length_append, List.length_replicate, List.length_singleton]
    push_cast
    omega
  refine ⟨m1, hrun, hfr, ?_, ?_⟩
  · have hsee : seeLast ((1 : Int), (0 : Int)).1 ((1 : Int), (0 : Int)).2 = true := by decide
    rw [runFrames_step m1 hs _ seeLast (1, 0) hv, if_pos hsee, hfr]
  · rw [isValidTile_iff, hgrid1.1, hgrid1.2.1, hw, hh]; decide

/-- The sentinel state of the `getLeastRecentlySeenTile` example arises in a run: on a 2x1 map,
after `INT_MAX` calls of `onFrame` (`n + 1` of them with `n + 1 = INT_MAX`) of which only the
last sees the tile `(1, 0)`, the frame counter is `INT_MAX`, `lastSeen` of `(1, 0)` is
`INT_MAX`, and the scan of the candidate list `[(1, 0)]` returns the default tile `(0, 0)`. -/
theorem sentinel_state_reachable (n : Nat) (hn : (n : Int) + 1 = INT_MAX) :
    ∃ m : State Unit,
      onStart (fun _ _ => true) (fun _ _ => true) (fun _ _ => 0) new 2 1 = some m ∧
      (runFrames (List.replicate n seeNothing ++ [seeLast]) m).m_frame = INT_MAX ∧
      lastSeenAt (runFrames (List.replicate n seeNothing ++ [seeLast]) m) (1, 0) = INT_MAX ∧
      isValidTile (runFrames (List.replicate n seeNothing ++ [seeLast]) m) 1 0 = true ∧
      getLeastRecentlySeenTile (runFrames (List.replicate n seeNothing ++ [seeLast]) m)
        [(1, 0)] (0, 0) = (0, 0) := by
  obtain ⟨m, hrun, hfr, hls, hv⟩ := sentinel_run n (le_of_eq hn)
  rw [hn] at hfr hls
  refine ⟨m, hrun, hfr, hls, hv, ?_⟩
  unfold lastSeenAt at hls
  dsimp only at hls
  unfold getLeastRecentlySeenTile
  simp only [List.foldl_cons, List.foldl_nil, hls, lt_self_iff_false, if_false]

theorem onFrame_frame_condition (visible : Int → Int → Bool) (m : State DM) :
    StaticEq m (onFrame visible m) ∧ (onFrame visible m)._allMaps = m._allMaps := by
  have hloop := foldl2_inv
    (fun (s : State DM) x y =>
      if isVisible s visible x y then
        { s with m_lastSeen := vvSet s.m_lastSeen x y s.m_frame }
      else s)
    (fun (_ : Set Tile) (s : State DM) => StaticEq m s ∧ s._allMaps = m._allMaps)
    (loopRange m.m_width) (loopRange m.m_height) ?_
    { m with m_frame := wrapInt (m.m_frame + 1) }
    ⟨⟨rfl, rfl, rfl, rfl, rfl, rfl, rfl⟩, rfl⟩
  · exact hloop
  · rintro V s x y ⟨hst, hc⟩ _ _
    beta_reduce
    split_ifs
    · exact ⟨⟨hst.width, hst.height, hst.walkable, hst.buildable, hst.depotBuildable,
        hst.terrainHeight, hst.sectorNumber⟩, hc⟩
    · exact ⟨hst, hc⟩

theorem getDistanceMap_frame_condition {Pos : Type} (D : DistanceMapOps DM Pos) (m : State DM)
    (tile : Tile) :
    StaticEq m (getDistanceMap D m tile).2 ∧ (getDistanceMap D m tile).2.m_frame = m.m_frame ∧
    (getDistanceMap D m tile).2.m_lastSeen = m.m_lastSeen := by
  unfold getDistanceMap
  simp only []
  split_ifs
  · exact ⟨⟨rfl, rfl, rfl, rfl, rfl, rfl, rfl⟩, rfl, rfl⟩
  · exact ⟨⟨rfl, rfl, rfl, rfl, rfl, rfl, rfl⟩, rfl, rfl⟩

theorem getGroundDistance_frame_condition {Pos : Type} (D : DistanceMapOps DM Pos)
    (m : State DM) (src dest : Pos) :
    StaticEq m (getGroundDistance D m src dest).2 ∧
    (getGroundDistance D m src dest).2.m_frame = m.m_frame ∧
    (getGroundDistance D m src dest).2.m_lastSeen = m.m_lastSeen := by
  unfold getGroundDistance getDistanceMapPos
  simp only []
  split_ifs
  · obtain ⟨h1, h2, h3⟩ := getDistanceMap_frame_condition D
      { m with _allMaps := StdMap.empty } (D.GetTilePosition dest)
    exact ⟨⟨h1.width, h1.height, h1.walkable, h1.buildable, h1.depotBuildable,
      h1.terrainHeight, h1.sectorNumber⟩, h2, h3⟩
  · exact getDistanceMap_frame_condition D m (D.GetTilePosition dest)

theorem StdMap.filter_ne_of_find_none {K V : Type} [DecidableEq K] (c : StdMap K V) (k : K)
    (h : c.find k = none) : c.entries.filter (fun e => decide (e.1 ≠ k)) = c.entries := by
  rw [List.filter_eq_self]
  intro e he
  unfold StdMap.find at h
  rw [Option.map_eq_none', List.find?_eq_none] at h
  have := h e he
  simpa using this

theorem StdMap.size_set_of_find_none {K V : Type} [DecidableEq K] (c : StdMap K V) (k : K)
    (v : V) (h : c.find k = none) : (c.set k v).size = c.size + 1 := by
  unfold StdMap.size StdMap.set
  simp only [List.length_cons]
  rw [StdMap.filter_ne_of_find_none c k h]

theorem StdMap.size_set_set {K V : Type} [DecidableEq K] (c : StdMap K V) (k : K) (a b : V) :
    ((c.set k a).set k b).size = (c.set k a).size := by
  unfold StdMap.size StdMap.set
  simp [List.filter_filter]

theorem getDistanceMap_size {Pos : Type} (D : DistanceMapOps DM Pos) (m : State DM)
    (tile : Tile) :
    (getDistanceMap D m tile).2._allMaps.size =
      if (m._allMaps.find tile).isNone then m._allMaps.size + 1 else m._allMaps.size := by
  unfold getDistanceMap
  have hoo : (tile.1, tile.2) = tile := rfl
  simp only [hoo]
  cases hf : m._allMaps.find tile with
  | none =>
    simp only [Option.isNone_none, if_true]
    rw [StdMap.size_set_set, StdMap.size_set_of_find_none _ _ _ hf]
  | some d =>
    simp

theorem getGroundDistance_size_le {Pos : Type} (D : DistanceMapOps DM Pos) (m : State DM)
    (src dest : Pos) : (getGroundDistance D m src dest).2._allMaps.size ≤ 51 := by
  unfold getGroundDistance getDistanceMapPos
  simp only []
  rw [getDistanceMap_size]
  by_cases hbig : m._allMaps.size > 50
  · simp only [if_pos hbig]
    have : (StdMap.empty : StdMap Tile DM).size = 0 := rfl
    split_ifs <;> omega
  · simp only [if_neg hbig]
    split_ifs <;> omega

theorem Appended.nil (m : State DM) : Appended m m [] :=
  ⟨List.nodup_nil, fun t ht => absurd ht (List.not_mem_nil t), by simp⟩

theorem Appended.append {m m1 m2 : State DM} {e1 e2 : List Tile} (h1 : Appended m m1 e1)
    (h2 : Appended m1 m2 e2) : Appended m m2 (e1 ++ e2) := by
  obtain ⟨n1, s1, z1⟩ := h1
  obtain ⟨n2, s2, z2⟩ := h2
  refine ⟨?_, ?_, ?_⟩
  · rw [List.nodup_append]
    refine ⟨n1, n2, ?_⟩
    intro t ht1 ht2
    have := s2 t ht2
    rw [z1, Finset.mem_sdiff] at this
    exact this.2 (List.mem_toFinset.2 ht1)
  · intro t ht
    rcases List.mem_append.1 ht with h | h
    · exact s1 t h
    · have := s2 t h
      rw [z1, Finset.mem_sdiff] at this
      exact this.1
  · rw [z2, z1]
    ext t
    simp only [Finset.mem_sdiff, List.mem_toFinset, List.mem_append]
    tauto

theorem Appended.card {m m1 : State DM} {ext : List Tile} (h : Appended m m1 ext) :
    (zeroTiles m1).card + ext.length = (zeroTiles m).card := by
  obtain ⟨n, s, z⟩ := h
  have hsub : ext.toFinset ⊆ zeroTiles m := fun t ht => s t (List.mem_toFinset.1 ht)
  rw [z, Finset.card_sdiff hsub, List.toFinset_card_of_nodup n]
  have := Finset.card_le_card hsub
  rw [List.toFinset_card_of_nodup n] at this
  omega

theorem Appended.single {m : State DM}
    (hs : LayerShaped m.m_sectorNumber m.m_width m.m_height) {n : Tile}
    (hw : walkOf m n = true) (hz : secOf m n = 0) {v : Int} (hv : v ≠ 0) :
    Appended m { m with m_sectorNumber := vvSet m.m_sectorNumber n.1 n.2 v } [n] := by
  have hval := walkOf_valid hw
  have hmem : n ∈ zeroTiles m := by
    have := (isValidTile_iff m n.1 n.2).1 hval
    simp only [zeroTiles, Finset.mem_filter, Finset.mem_product, Finset.mem_Ico]
    exact ⟨⟨this.1, this.2⟩, hw, hz⟩
  refine ⟨List.nodup_singleton n, ?_, ?_⟩
  · intro t ht
    rw [List.mem_singleton] at ht
    rw [ht]; exact hmem
  · ext t
    simp only [zeroTiles, Finset.mem_filter, Finset.mem_product, Finset.mem_Ico,
      Finset.mem_sdiff, List.toFinset_cons, List.toFinset_nil, Finset.mem_insert,
      Finset.not_mem_empty, or_false, secOf_setSector hs hval v]
    have hwalk : walkOf { m with m_sectorNumber := vvSet m.m_sectorNumber n.1 n.2 v } t =
        walkOf m t := rfl
    rw [hwalk]
    by_cases htn : t = n
    · subst htn
      simp [hv]
    · simp [htn, Function.update_noteq htn]

theorem expandAction_appended {m0 m : State DM} {k : Int} (tile : Tile) (fringe : List Tile)
    (a : Nat) (hk : k ≠ 0) (hg : SameGrid m0 m) :
    SameGrid m0 (expandAction k tile (m, fringe) a).1 ∧
    ∃ ext, (expandAction k tile (m, fringe) a).2 = fringe ++ ext ∧
      Appended m (expandAction k tile (m, fringe) a).1 ext := by
  unfold expandAction
  simp only []
  split_ifs with hc
  · simp only [Bool.and_eq_true, beq_iff_eq] at hc
    have hw : walkOf m (tile.1 + actionX.getD a 0, tile.2 + actionY.getD a 0) = true := hc.1.2
    have hz : secOf m (tile.1 + actionX.getD a 0, tile.2 + actionY.getD a 0) = 0 := hc.2
    exact ⟨hg.setSector _ _ _, [(tile.1 + actionX.getD a 0, tile.2 + actionY.getD a 0)], rfl,
      Appended.single hg.shaped hw hz hk⟩
  · exact ⟨hg, [], by simp, Appended.nil m⟩

theorem expandActions_appended {m0 : State DM} {k : Int} (tile : Tile) (hk : k ≠ 0)
    (as : List Nat) :
    ∀ (m : State DM) (fringe : List Tile), SameGrid m0 m →
      SameGrid m0 (as.foldl (expandAction k tile) (m, fringe)).1 ∧
      ∃ ext, (as.foldl (expandAction k tile) (m, fringe)).2 = fringe ++ ext ∧
        Appended m (as.foldl (expandAction k tile) (m, fringe)).1 ext := by
  induction as with
  | nil =>
    intro m fringe hg
    exact ⟨hg, [], by simp, Appended.nil m⟩
  | cons a as ih =>
    intro m fringe hg
    obtain ⟨hg1, e1, hf1, ha1⟩ := expandAction_appended tile fringe a hk hg
    obtain ⟨hg2, e2, hf2, ha2⟩ := ih (expandAction k tile (m, fringe) a).1
      (expandAction k tile (m, fringe) a).2 hg1
    simp only [Prod.mk.eta] at hg2 hf2 ha2
    simp only [List.foldl_cons]
    refine ⟨hg2, e1 ++ e2, ?_, ha1.append ha2⟩
    rw [hf2, hf1, List.append_assoc]

theorem bfsLoop_appended {m0 : State DM} {k : Int} (hk : k ≠ 0) :
    ∀ (fuel : Nat) (m : State DM) (fringe : List Tile) (i : Nat), SameGrid m0 m →
      i ≤ fringe.length → (zeroTiles m).card + (fringe.length - i) ≤ fuel →
      ∃ m1 ext, bfsLoop k fuel m fringe i = some (m1, fringe ++ ext) ∧ SameGrid m0 m1 ∧
        Appended m m1 ext := by
  intro fuel
  induction fuel with
  | zero =>
    intro m fringe i hg hi hf
    have hnot : ¬ (i < fringe.length) := by omega
    refine ⟨m, [], ?_, hg, Appended.nil m⟩
    simp only [bfsLoop, if_neg hnot, List.append_nil]
  | succ fuel ih =>
    intro m fringe i hg hi hf
    cases hget : fringe[i]? with
    | none =>
      refine ⟨m, [], ?_, hg, Appended.nil m⟩
      simp only [bfsLoop, hget, List.append_nil]
    | some tile =>
      have hlt := (List.getElem?_eq_some.1 hget).1
      obtain ⟨hg1, e1, hf1, ha1⟩ :=
        @expandActions_appended DM m0 k tile hk (List.range LegalActions) m fringe hg
      have hc1 := ha1.card
      obtain ⟨m2, e2, hrun, hg2, ha2⟩ := ih
        (List.foldl (expandAction k tile) (m, fringe) (List.range LegalActions)).1
        (List.foldl (expandAction k tile) (m, fringe) (List.range LegalActions)).2 (i + 1) hg1
        (by rw [hf1, List.length_append]; omega)
        (by rw [hf1, List.length_append]; omega)
      refine ⟨m2, e1 ++ e2, ?_, hg2, ha1.append ha2⟩
      simp only [bfsLoop, hget]
      rw [hrun, hf1, List.append_assoc]

theorem foldlM_map_sim {σ τ ι : Type} (proj : τ → σ) (f : σ → ι → Option σ)
    (g : τ → ι → Option τ) (h : ∀ s i, (g s i).map proj = f (proj s) i) (l : List ι) :
    ∀ s, (l.foldlM g s).map proj = l.foldlM f (proj s) := by
  induction l with
  | nil => intro s; rfl
  | cons i l ih =>
    intro s
    have hi := h s i
    cases hg : g s i with
    | none =>
      rw [hg] at hi
      simp only [Option.map_none'] at hi
      simp [List.foldlM, hg, ← hi]
    | some s1 =>
      rw [hg] at hi
      simp only [Option.map_some'] at hi
      simp [List.foldlM, hg, ← hi, ih s1]

theorem visitTileTrace_sim (st : State DM × Int × List (List Tile)) (x y : Int) :
    (visitTileTrace st x y).map (fun r => (r.1, r.2.1)) = visitTile (st.1, st.2.1) x y := by
  unfold visitTileTrace visitTile
  simp only []
  split_ifs
  · rfl
  · rw [Option.map_map]
    rfl

/-- The recording changes nothing: dropping the recorded fringes from `connectivityTrace`
gives `connectivityLoop`. -/
theorem connectivityTrace_sim (m : State DM) :
    (connectivityTrace m).map (fun r => (r.1, r.2.1)) = connectivityLoop m := by
  unfold connectivityTrace connectivityLoop
  exact foldlM_map_sim (fun r : State DM × Int × List (List Tile) => (r.1, r.2.1)) _ _
    (fun s x => foldlM_map_sim (fun r : State DM × Int × List (List Tile) => (r.1, r.2.1)) _ _
      (fun s1 y => visitTileTrace_sim s1 x y) (loopRange m.m_height) s)
    (loopRange m.m_width) (m, 0, [])

theorem visitTileTrace_appended {m0 m : State DM} {k : Int} {tr : List (List Tile)}
    (x y : Int) (hg : SameGrid m0 m) (hk : 0 ≤ k) :
    ∃ m1 k1 tr1 ext, visitTileTrace (m, k, tr) x y = some (m1, k1, tr1) ∧ SameGrid m0 m1 ∧
      0 ≤ k1 ∧ tr1.flatten = tr.flatten ++ ext ∧ Appended m m1 ext ∧ (x, y) ∉ zeroTiles m1 ∧
      ∀ F ∈ tr1, F ∈ tr ∨ F = ext := by
  unfold visitTileTrace
  simp only []
  split_ifs with hc
  · refine ⟨m, k, tr, [], rfl, hg, hk, by simp, Appended.nil m, ?_, fun F hF => Or.inl hF⟩
    simp only [Bool.or_eq_true, bne_iff_ne, ne_eq, Bool.not_eq_true'] at hc
    simp only [zeroTiles, Finset.mem_filter, not_and]
    intro _ hw hz
    rcases hc with hc | hc
    · exact hc hz
    · have hw1 : isWalkable m x y = true := hw
      rw [hw1] at hc
      exact Bool.noConfusion hc
  · simp only [Bool.or_eq_true, bne_iff_ne, ne_eq, Bool.not_eq_true', not_or, not_not,
      Bool.not_eq_false] at hc
    have hz : secOf m (x, y) = 0 := hc.1
    have hw : walkOf m (x, y) = true := hc.2
    have hk1 : k + 1 ≠ 0 := by omega
    have hseed := Appended.single hg.shaped hw hz hk1
    simp only [] at hseed
    have hcard := hseed.card
    have hle := zeroTiles_card_le m
    obtain ⟨m1, ext, hrun, hg1, happ⟩ :=
      @bfsLoop_appended DM m0 (k + 1) hk1 (m.m_width * m.m_height).toNat
        { m with m_sectorNumber := vvSet m.m_sectorNumber x y (k + 1) } [(x, y)] 0
        (hg.setSector x y (k + 1)) (Nat.zero_le _)
        (by simp only [List.length_singleton] at hcard ⊢; omega)
    have hall := hseed.append happ
    refine ⟨m1, k + 1, tr ++ [[(x, y)] ++ ext], [(x, y)] ++ ext, ?_, hg1, by omega, by simp,
      hall, ?_, ?_⟩
    · rw [hrun]; rfl
    · rw [hall.2.2, Finset.mem_sdiff]
      intro h
      exact h.2 (by simp)
    · intro F hF
      rcases List.mem_append.1 hF with h | h
      · exact Or.inl h
      · exact Or.inr (List.mem_singleton.1 h)

theorem connectivityTrace_spec (m : State DM)
    (hs : LayerShaped m.m_sectorNumber m.m_width m.m_height) :
    ∃ m1 k tr, connectivityTrace m = some (m1, k, tr) ∧ SameGrid m m1 ∧
      Appended m m1 tr.flatten ∧ zeroTiles m1 = ∅ ∧
      ∀ F ∈ tr, F.length ≤ (zeroTiles m).card := by
  have hloop := foldlM2_inv
    (fun (st : State DM × Int × List (List Tile)) x y => visitTileTrace st x y)
    (fun V st => SameGrid m st.1 ∧ 0 ≤ st.2.1 ∧ Appended m st.1 st.2.2.flatten ∧
      (∀ t ∈ V, t ∉ zeroTiles st.1) ∧ ∀ F ∈ st.2.2, F.length ≤ (zeroTiles m).card)
    (loopRange m.m_width) (loopRange m.m_height) ?_ (m, 0, [])
    ⟨SameGrid.refl_of_shaped m hs, le_refl 0, Appended.nil m,
      fun t ht => absurd ht (Set.not_mem_empty t), fun F hF => absurd hF (List.not_mem_nil F)⟩
  · obtain ⟨⟨m1, k, tr⟩, hrun, hg, _, happ, hvis, hlen⟩ := hloop
    refine ⟨m1, k, tr, hrun, hg, happ, ?_, hlen⟩
    rw [Finset.eq_empty_iff_forall_not_mem]
    intro t ht
    have hmem := ht
    simp only [zeroTiles, Finset.mem_filter, Finset.mem_product, Finset.mem_Ico] at hmem
    rw [hg.width, hg.height] at hmem
    exact hvis t ⟨(mem_loopRange _ _).2 hmem.1.1, (mem_loopRange _ _).2 hmem.1.2⟩ ht
  · rintro V ⟨m1, k, tr⟩ x y ⟨hg, hk, happ, hvis, hlen⟩ _ _
    dsimp only at hg hk happ hvis hlen
    obtain ⟨m2, k2, tr2, ext, hrun, hg2, hk2, hjoin, happ2, hxy, hmem⟩ :=
      @visitTileTrace_appended DM m m1 k tr x y hg hk
    refine ⟨(m2, k2, tr2), hrun, hg2, hk2, ?_, ?_, ?_⟩
    · show Appended m m2 tr2.flatten
      rw [hjoin]
      exact happ.append happ2
    · intro t ht
      rcases Set.mem_insert_iff.1 ht with rfl | htV
      · exact hxy
      · intro hin
        rw [happ2.2.2, Finset.mem_sdiff] at hin
        exact hvis t htV hin.1
    · intro F hF
      rcases hmem F hF with h | h
      · exact hlen F h
      · rw [h]
        have h1 := happ2.card
        have h2 := happ.card
        show ext.length ≤ (zeroTiles m).card
        have h3 : (zeroTiles m1).card ≤ (zeroTiles m).card := by omega
        omega

theorem connectivityLoop_skip (m : State DM)
    (h : ∀ x y : Int, (getSectorNumber m x y != 0 || !isWalkable m x y) = true) :
    connectivityLoop m = some (m, 0) := by
  have hloop := foldlM2_inv (fun (st : State DM × Int) x y => visitTile st x y)
    (fun (_ : Set Tile) st => st = (m, 0))
    (loopRange m.m_width) (loopRange m.m_height) ?_ (m, 0) rfl
  · obtain ⟨s1, hrun, hs1⟩ := hloop
    rw [hs1] at hrun
    exact hrun
  · rintro V st x y hst _ _
    subst hst
    refine ⟨(m, 0), ?_, rfl⟩
    unfold visitTile
    simp only []
    rw [if_pos (h x y)]

theorem grid_index_in_range {w h x y : Int} (hx : 0 ≤ x ∧ x < w) (hy : 0 ≤ y ∧ y < h) :
    0 ≤ x + ((h - 1) - y) * w ∧ x + ((h - 1) - y) * w < w * h := by
  have hr0 : 0 ≤ (h - 1) - y := by omega
  have hr1 : (h - 1) - y ≤ h - 1 := by omega
  have hw : 0 ≤ w := by omega
  have h1 : 0 ≤ ((h - 1) - y) * w := mul_nonneg hr0 hw
  have h2 : ((h - 1) - y) * w ≤ (h - 1) * w := mul_le_mul_of_nonneg_right hr1 hw
  have h3 : (h - 1) * w = w * h - w := by ring
  constructor
  · omega
  · omega

theorem byteAt_isSome {data : List Nat} {n i : Int} (hn : (data.length : Int) = n)
    (hi : 0 ≤ i ∧ i < n) : ∃ b, byteAt data i = some b := by
  unfold byteAt
  rw [if_pos hi.1]
  have hlt : i.toNat < data.length := by omega
  exact ⟨data[i.toNat], List.getElem?_eq_getElem hlt⟩

/-- Where the row index is below the width (so on every map that is not taller than wide) the
raw lookups decode the row-flipped byte: `canBuild` is true exactly when the placement byte is
255 and `canWalk` exactly when the pathing byte is not 255. -/
theorem canBuild_canWalk_decode (info : GameInfo)
    (hp : (info.placement_grid.length : Int) = info.width * info.height)
    (hq : (info.pathing_grid.length : Int) = info.width * info.height) (x y : Int)
    (hx : 0 ≤ x ∧ x < info.width) (hy : 0 ≤ y ∧ y < info.height) (hyw : y < info.width) :
    ∃ p q, byteAt info.placement_grid (x + ((info.height - 1) - y) * info.width) = some p ∧
      byteAt info.pathing_grid (x + ((info.height - 1) - y) * info.width) = some q ∧
      canBuild info x y = some (decide (p = 255)) ∧
      canWalk info x y = some (decide (q ≠ 255)) := by
  have hidx := grid_index_in_range hx hy
  obtain ⟨p, hpb⟩ := byteAt_isSome hp hidx
  obtain ⟨q, hqb⟩ := byteAt_isSome hq hidx
  have hguard : (decide (x < 0) || decide (x ≥ info.width) || decide (y < 0) ||
      decide (y ≥ info.width)) = false := by
    simp only [Bool.or_eq_false_iff, decide_eq_false_iff_not]
    omega
  refine ⟨p, q, hpb, hqb, ?_, ?_⟩
  · unfold canBuild
    rw [hguard, hpb]
    by_cases h : p = 255 <;> simp [h]
  · unfold canWalk
    rw [hguard, hqb]
    by_cases h : q = 255 <;> simp [h]

/-- For in-bounds tiles of a map whose grids hold `width * height` bytes, neither raw lookup
reads outside its grid. -/
theorem canBuild_isSome (info : GameInfo)
    (hp : (info.placement_grid.length : Int) = info.width * info.height)
    (hq : (info.pathing_grid.length : Int) = info.width * info.height) (x y : Int)
    (hx : 0 ≤ x ∧ x < info.width) (hy : 0 ≤ y ∧ y < info.height) :
    (canBuild info x y).isSome = true ∧ (canWalk info x y).isSome = true := by
  by_cases hyw : y < info.width
  · obtain ⟨p, q, _, _, hb, hw⟩ := canBuild_canWalk_decode info hp hq x y hx hy hyw
    rw [hb, hw]
    exact ⟨rfl, rfl⟩
  · have hguard : (decide (x < 0) || decide (x ≥ info.width) || decide (y < 0) ||
        decide (y ≥ info.width)) = true := by
      simp only [Bool.or_eq_true, decide_eq_true_eq]
      omega
    unfold canBuild canWalk
    rw [hguard]
    exact ⟨rfl, rfl⟩

theorem DistInv.init (walk : Tile → Bool) (o : Tile) :
    DistInv walk (Function.update (fun _ => unreached) o 0) o [o] 0 := by
  have hun : Function.update (fun _ : Tile => unreached) o 0 o = 0 := Function.update_same _ _ _
  have hup : ∀ x, x ≠ o → Function.update (fun _ : Tile => unreached) o 0 x = unreached :=
    fun x hx => Function.update_noteq hx _ _
  refine
    { idx := Nat.zero_le _
      origin := hun
      fringe_iff := ?_, nonneg := ?_, sorted := ?_, bound := ?_, parent := ?_, processed := ?_ }
  · intro t
    by_cases ht : t = o
    · subst ht
      simp [hun, unreached]
    · simp [hup t ht, ht]
  · intro t ht
    rw [List.mem_singleton] at ht
    subst ht
    rw [hun]
  · intro j k tj tk _ hj hk
    have h1 : tj ∈ [o] := List.mem_iff_getElem?.2 ⟨j, hj⟩
    have h2 : tk ∈ [o] := List.mem_iff_getElem?.2 ⟨k, hk⟩
    rw [List.mem_singleton] at h1 h2
    rw [h1, h2]
  · intro ti t hi ht
    have h1 : ti ∈ [o] := List.mem_iff_getElem?.2 ⟨0, hi⟩
    rw [List.mem_singleton] at h1 ht
    rw [h1, ht]
    omega
  · intro t ht hne
    rw [List.mem_singleton] at ht
    exact absurd ht hne
  · intro j t hj
    exact absurd hj (Nat.not_lt_zero j)

theorem DistInv.seen {walk : Tile → Bool} {d : Tile → Int} {o : Tile} {F : List Tile}
    {i : Nat} (h : DistInv walk d o F i) {t b : Tile} (ht : F[i]? = some t)
    (hb : d b ≠ unreached) : b ∈ F ∧ d b ≤ d t + 1 :=
  ⟨(h.fringe_iff b).1 hb, h.bound t b ht ((h.fringe_iff b).1 hb)⟩

theorem DistInv.reach {walk : Tile → Bool} {d : Tile → Int} {o : Tile} {F : List Tile}
    {i : Nat} (h : DistInv walk d o F i) {t n : Tile} (ht : F[i]? = some t)
    (hadj : Adj t n) (hw : walk n = true) (hz : d n = unreached) :
    DistInv walk (Function.update d n (d t + 1)) o (F ++ [n]) i := by
  have htF : t ∈ F := List.mem_iff_getElem?.2 ⟨i, ht⟩
  have hilt : i < F.length := (List.getElem?_eq_some.1 ht).1
  have ht0 := h.nonneg t htF
  have hup : ∀ x, x ≠ n → Function.update d n (d t + 1) x = d x :=
    fun x hx => Function.update_noteq hx _ d
  have hun : Function.update d n (d t + 1) n = d t + 1 := Function.update_same _ _ d
  have hnF : ∀ x, x ∈ F → x ≠ n := fun x hx e => (h.fringe_iff x).2 hx (e ▸ hz)
  have hget : ∀ (j : Nat) (x : Tile), (F ++ [n])[j]? = some x →
      (j < F.length ∧ F[j]? = some x) ∨ (j = F.length ∧ x = n) := by
    intro j x hx
    by_cases hj : j < F.length
    · rw [List.getElem?_append_left hj] at hx
      exact Or.inl ⟨hj, hx⟩
    · have hlen := (List.getElem?_eq_some.1 hx).1
      simp only [List.length_append, List.length_singleton] at hlen
      have hje : j = F.length := by omega
      subst hje
      simp at hx
      exact Or.inr ⟨rfl, hx.symm⟩
  refine
    { idx := by simp only [List.length_append, List.length_singleton]; omega
      origin := ?_, fringe_iff := ?_, nonneg := ?_, sorted := ?_, bound := ?_, parent := ?_,
      processed := ?_ }
  · have hon : o ≠ n := by
      intro e
      have := h.origin
      rw [e, hz] at this
      simp [unreached] at this
    rw [hup o hon]
    exact h.origin
  · intro x
    by_cases hxn : x = n
    · subst hxn
      rw [hun]
      simp only [List.mem_append, List.mem_singleton, or_true, iff_true, unreached]
      omega
    · rw [hup x hxn, h.fringe_iff x]
      simp [hxn]
  · intro x hx
    rcases List.mem_append.1 hx with hxF | hxn
    · rw [hup x (hnF x hxF)]
      exact h.nonneg x hxF
    · rw [List.mem_singleton] at hxn
      subst hxn
      rw [hun]
      omega
  · intro j k tj tk hjk hj hk
    rcases hget j tj hj with ⟨hjl, hj1⟩ | ⟨hje, hjn⟩
    · have htjF : tj ∈ F := List.mem_iff_getElem?.2 ⟨j, hj1⟩
      rw [hup tj (hnF tj htjF)]
      rcases hget k tk hk with ⟨_, hk1⟩ | ⟨_, hkn⟩
      · have htkF : tk ∈ F := List.mem_iff_getElem?.2 ⟨k, hk1⟩
        rw [hup tk (hnF tk htkF)]
        exact h.sorted j k tj tk hjk hj1 hk1
      · subst hkn
        rw [hun]
        exact h.bound t tj ht htjF
    · rcases hget k tk hk with ⟨hkl, _⟩ | ⟨_, hkn⟩
      · omega
      · rw [hjn, hkn]
  · intro ti x hi hx
    rw [List.getElem?_append_left hilt, ht] at hi
    cases hi
    rw [hup t (hnF t htF)]
    rcases List.mem_append.1 hx with hxF | hxn
    · rw [hup x (hnF x hxF)]
      exact h.bound t x ht hxF
    · rw [List.mem_singleton] at hxn
      subst hxn
      rw [hun]
  · intro x hx hxo
    rcases List.mem_append.1 hx with hxF | hxn
    · obtain ⟨hwx, p, hpF, hpa, hpd⟩ := h.parent x hxF hxo
      refine ⟨hwx, p, List.mem_append_left _ hpF, hpa, ?_⟩
      rw [hup x (hnF x hxF), hup p (hnF p hpF)]
      exact hpd
    · rw [List.mem_singleton] at hxn
      subst hxn
      refine ⟨hw, t, List.mem_append_left _ htF, hadj, ?_⟩
      rw [hun, hup t (hnF t htF)]
  · intro j x hj hx b hab hb
    have hjl : j < F.length := by omega
    rw [List.getElem?_append_left hjl] at hx
    have hxF : x ∈ F := List.mem_iff_getElem?.2 ⟨j, hx⟩
    obtain ⟨hbF, hbd⟩ := h.processed j x hj hx b hab hb
    refine ⟨List.mem_append_left _ hbF, ?_⟩
    rw [hup b (hnF b hbF), hup x (hnF x hxF)]
    exact hbd

theorem DistInv.dequeue {walk : Tile → Bool} {d : Tile → Int} {o : Tile} {F : List Tile}
    {i : Nat} (h : DistInv walk d o F i) {t : Tile} (ht : F[i]? = some t)
    (hnb : ∀ b, Adj t b → walk b = true → b ∈ F ∧ d b ≤ d t + 1) :
    DistInv walk d o F (i + 1) :=
  { h with
    idx := by
      have := (List.getElem?_eq_some.1 ht).1
      omega
    bound := by
      intro ti x hi hx
      have h1 := h.bound t x ht hx
      have h2 := h.sorted i (i + 1) t ti (Nat.le_succ i) ht hi
      omega
    processed := by
      intro j x hj hx b hab hb
      by_cases hji : j < i
      · exact h.processed j x hji hx b hab hb
      · have hje : j = i := by omega
        subst hje
        rw [ht] at hx
        cases hx
        exact hnb b hab hb }

theorem DistInv.le_of_chain {walk : Tile → Bool} {d : Tile → Int} {o : Tile} {F : List Tile}
    {i : Nat} (h : DistInv walk d o F i) (hi : F.length ≤ i) (p : List Tile) :
    ∀ a b : Tile, a ∈ F → p.head? = some a → p.getLast? = some b → List.Chain' Adj p →
      (∀ t ∈ p, walk t = true) → b ∈ F ∧ d b + 1 ≤ d a + p.length := by
  induction p with
  | nil =>
    intro a b _ hh
    simp at hh
  | cons c rest ih =>
    intro a b haF hh hl hc hall
    simp only [List.head?_cons, Option.some.injEq] at hh
    subst hh
    cases rest with
    | nil =>
      simp only [List.getLast?_singleton, Option.some.injEq] at hl
      subst hl
      exact ⟨haF, by simp⟩
    | cons e rest1 =>
      have hce : Adj c e := (List.chain'_cons.1 hc).1
      have hc2 : List.Chain' Adj (e :: rest1) := (List.chain'_cons.1 hc).2
      have hl2 : (e :: rest1).getLast? = some b := by
        rw [List.getLast?_cons_cons] at hl
        exact hl
      have hwe := hall e (List.mem_cons_of_mem c (List.mem_cons_self e _))
      obtain ⟨j, hj⟩ := List.mem_iff_getElem?.1 haF
      have hjl := (List.getElem?_eq_some.1 hj).1
      obtain ⟨heF, hed⟩ := h.processed j c (by omega) hj e hce hwe
      obtain ⟨hbF, hbd⟩ := ih e b heF rfl hl2 hc2
        (fun t ht => hall t (List.mem_cons_of_mem c ht))
      refine ⟨hbF, ?_⟩
      simp only [List.length_cons] at hbd ⊢
      push_cast at hbd ⊢
      omega

theorem DistInv.chain_of_mem {walk : Tile → Bool} {d : Tile → Int} {o : Tile} {F : List Tile}
    {i : Nat} (h : DistInv walk d o F i) (hwo : walk o = true) :
    ∀ (n : Nat) (t : Tile), t ∈ F → d t = (n : Int) →
      ∃ p : List Tile, p.head? = some o ∧ p.getLast? = some t ∧ List.Chain' Adj p ∧
        (∀ x ∈ p, walk x = true) ∧ p.length = n + 1 := by
  intro n
  induction n with
  | zero =>
    intro t htF hd
    by_cases hto : t = o
    · subst hto
      refine ⟨[t], rfl, rfl, List.chain'_singleton t, ?_, rfl⟩
      intro x hx
      rw [List.mem_singleton] at hx
      rw [hx]; exact hwo
    · obtain ⟨_, p, hpF, _, hpd⟩ := h.parent t htF hto
      have := h.nonneg p hpF
      simp only [Nat.cast_zero] at hd
      omega
  | succ n ih =>
    intro t htF hd
    have hto : t ≠ o := by
      intro e
      rw [e, h.origin] at hd
      push_cast at hd
      omega
    obtain ⟨hwt, q, hqF, hqa, hqd⟩ := h.parent t htF hto
    have hdq : d q = (n : Int) := by
      push_cast at hd
      omega
    obtain ⟨p, hh, hl, hc, hall, hlen⟩ := ih q hqF hdq
    refine ⟨p ++ [t], ?_, ?_, ?_, ?_, ?_⟩
    · cases p with
      | nil => simp at hh
      | cons x xs => simpa using hh
    · simp
    · rw [List.chain'_append]
      refine ⟨hc, List.chain'_singleton t, ?_⟩
      intro x hx y hy
      rw [hl] at hx
      simp only [Option.mem_def, Option.some.injEq] at hx
      simp only [List.head?_cons, Option.mem_def, Option.some.injEq] at hy
      subst hx hy
      exact hqa
    · intro x hx
      rcases List.mem_append.1 hx with hp | hp
      · exact hall x hp
      · rw [List.mem_singleton] at hp
        rw [hp]; exact hwt
    · simp [hlen]

theorem distOf_vvSet {dl : List (List Int)} {w h : Int} (hs : LayerShaped dl w h) {n : Tile}
    (hx : 0 ≤ n.1 ∧ n.1 < w) (hy : 0 ≤ n.2 ∧ n.2 < h) (v : Int) :
    distOf (vvSet dl n.1 n.2 v) = Function.update (distOf dl) n v := by
  funext t
  unfold distOf
  rw [vvAt_vvSet]
  have hsome := (vvAt_isSome_iff hs n.1 n.2).2 ⟨hx, hy⟩
  by_cases htn : t = n
  · subst htn
    rw [if_pos ⟨rfl, rfl⟩, Function.update_same]
    cases hv : vvAt dl t.1 t.2 with
    | none => simp [hv] at hsome
    | some b => simp
  · have hne : ¬ (t.1 = n.1 ∧ t.2 = n.2) := fun e => htn (Prod.ext e.1 e.2)
    rw [if_neg hne, Function.update_noteq htn]

theorem distOf_vvNew (w h : Nat) (t : Tile) : distOf (vvNew w h unreached) t = unreached := by
  unfold distOf
  cases hv : vvAt (vvNew w h unreached) t.1 t.2 with
  | none => rfl
  | some b =>
    simp only [Option.getD_some]
    unfold vvAt at hv
    split_ifs at hv with hnn
    cases hc : (vvNew w h unreached)[t.1.toNat]? with
    | none => simp [hc] at hv
    | some col =>
      have hcm : col ∈ vvNew w h unreached := List.mem_iff_getElem?.2 ⟨_, hc⟩
      rw [vvNew, List.mem_replicate] at hcm
      rw [hc] at hv
      simp only [Option.some_bind, hcm.2] at hv
      have hb : b ∈ List.replicate h unreached := List.mem_iff_getElem?.2 ⟨_, hv⟩
      exact (List.mem_replicate.1 hb).2

theorem grid_card_le (w h : Int) :
    ((Finset.Ico (0 : Int) w) ×ˢ (Finset.Ico (0 : Int) h)).card ≤ (w * h).toNat := by
  rw [Finset.card_product, Int.card_Ico, Int.card_Ico]
  simp only [sub_zero]
  by_cases hw : 0 ≤ w
  · by_cases hh : 0 ≤ h
    · obtain ⟨a, ha⟩ := Int.eq_ofNat_of_zero_le hw
      obtain ⟨b, hb⟩ := Int.eq_ofNat_of_zero_le hh
      rw [ha, hb]
      have e : ((a : Int) * (b : Int)) = ((a * b : Nat) : Int) := by push_cast; rfl
      rw [e, Int.toNat_ofNat, Int.toNat_ofNat, Int.toNat_ofNat]
    · have : h.toNat = 0 := by omega
      rw [this]
      omega
  · have : w.toNat = 0 := by omega
    rw [this]
    omega

theorem unreachedTiles_vvSet {dl : List (List Int)} {w h : Int} (hs : LayerShaped dl w h)
    {n : Tile} (hx : 0 ≤ n.1 ∧ n.1 < w) (hy : 0 ≤ n.2 ∧ n.2 < h) (hz : distOf dl n = unreached)
    {v : Int} (hv : v ≠ unreached) :
    (unreachedTiles w h (vvSet dl n.1 n.2 v)).card + 1 = (unreachedTiles w h dl).card := by
  have hmem : n ∈ unreachedTiles w h dl := by
    simp only [unreachedTiles, Finset.mem_filter, Finset.mem_product, Finset.mem_Ico]
    exact ⟨⟨hx, hy⟩, hz⟩
  have heq : unreachedTiles w h (vvSet dl n.1 n.2 v) = (unreachedTiles w h dl).erase n := by
    ext t
    simp only [unreachedTiles, Finset.mem_filter, Finset.mem_product, Finset.mem_Ico,
      Finset.mem_erase, distOf_vvSet hs hx hy v]
    by_cases htn : t = n
    · subst htn
      simp [hv]
    · simp [htn, Function.update_noteq htn]
  rw [heq, Finset.card_erase_of_mem hmem]
  have : 0 < (unreachedTiles w h dl).card := Finset.card_pos.2 ⟨n, hmem⟩
  omega

theorem distExpand_spec {m : State DM} {o tile : Tile} {dl : List (List Int)}
    {F : List Tile} {i : Nat} (a : Nat) (ha : a < LegalActions)
    (hs : LayerShaped dl m.m_width m.m_height)
    (h : DistInv (walkOf m) (distOf dl) o F i) (ht : F[i]? = some tile) :
    LayerShaped (distExpand (walkOf m) (fun t => isValidTile m t.1 t.2) tile (dl, F) a).1
      m.m_width m.m_height ∧
    DistInv (walkOf m)
      (distOf (distExpand (walkOf m) (fun t => isValidTile m t.1 t.2) tile (dl, F) a).1) o
      (distExpand (walkOf m) (fun t => isValidTile m t.1 t.2) tile (dl, F) a).2 i ∧
    (distExpand (walkOf m) (fun t => isValidTile m t.1 t.2) tile (dl, F) a).2[i]? = some tile ∧
    (∀ t, t ∈ F →
      t ∈ (distExpand (walkOf m) (fun t => isValidTile m t.1 t.2) tile (dl, F) a).2 ∧
      distOf (distExpand (walkOf m) (fun t => isValidTile m t.1 t.2) tile (dl, F) a).1 t =
        distOf dl t) ∧
    (walkOf m (tile.1 + actionX.getD a 0, tile.2 + actionY.getD a 0) = true →
      (tile.1 + actionX.getD a 0, tile.2 + actionY.getD a 0) ∈
        (distExpand (walkOf m) (fun t => isValidTile m t.1 t.2) tile (dl, F) a).2 ∧
      distOf (distExpand (walkOf m) (fun t => isValidTile m t.1 t.2) tile (dl, F) a).1
          (tile.1 + actionX.getD a 0, tile.2 + actionY.getD a 0) ≤ distOf dl tile + 1) ∧
    (unreachedTiles m.m_width m.m_height
        (distExpand (walkOf m) (fun t => isValidTile m t.1 t.2) tile (dl, F) a).1).card +
        (distExpand (walkOf m) (fun t => isValidTile m t.1 t.2) tile (dl, F) a).2.length =
      (unreachedTiles m.m_width m.m_height dl).card + F.length := by
  have hadj : Adj tile (tile.1 + actionX.getD a 0, tile.2 + actionY.getD a 0) :=
    (adj_iff_action tile _).2 ⟨a, ha, rfl⟩
  have htF : tile ∈ F := List.mem_iff_getElem?.2 ⟨i, ht⟩
  have hilt : i < F.length := (List.getElem?_eq_some.1 ht).1
  have ht0 := h.nonneg tile htF
  unfold distExpand
  simp only []
  split_ifs with hc
  · simp only [Bool.and_eq_true, beq_iff_eq] at hc
    have hw : walkOf m (tile.1 + actionX.getD a 0, tile.2 + actionY.getD a 0) = true := hc.1.1
    have hz : distOf dl (tile.1 + actionX.getD a 0, tile.2 + actionY.getD a 0) = unreached :=
      hc.2
    have hval := (isValidTile_iff m _ _).1 hc.1.2
    have hd := distOf_vvSet hs (n := (tile.1 + actionX.getD a 0, tile.2 + actionY.getD a 0))
      hval.1 hval.2 (distOf dl tile + 1)
    simp only [] at hd
    have hnF : ∀ x, x ∈ F → x ≠ (tile.1 + actionX.getD a 0, tile.2 + actionY.getD a 0) :=
      fun x hx e => (h.fringe_iff x).2 hx (e ▸ hz)
    refine ⟨vvSet_shaped hs _ _ _, ?_, ?_, ?_, ?_, ?_⟩
    · rw [hd]
      exact h.reach ht hadj hw hz
    · rw [List.getElem?_append_left hilt]
      exact ht
    · intro t htm
      refine ⟨List.mem_append_left _ htm, ?_⟩
      rw [hd, Function.update_noteq (hnF t htm)]
    · intro _
      refine ⟨by simp, ?_⟩
      rw [hd, Function.update_same]
    · have := unreachedTiles_vvSet hs
        (n := (tile.1 + actionX.getD a 0, tile.2 + actionY.getD a 0)) hval.1 hval.2 hz
        (v := distOf dl tile + 1) (by unfold unreached; omega)
      simp only [] at this
      simp only [List.length_append, List.length_singleton]
      omega
  · refine ⟨hs, h, ht, fun t htm => ⟨htm, rfl⟩, ?_, rfl⟩
    intro hw
    have hv := walkOf_valid hw
    have hnz : distOf dl (tile.1 + actionX.getD a 0, tile.2 + actionY.getD a 0) ≠ unreached := by
      intro hz
      apply hc
      simp only [Bool.and_eq_true, beq_iff_eq]
      exact ⟨⟨hw, hv⟩, hz⟩
    exact h.seen ht hnz

theorem distExpands_spec {m : State DM} {o tile : Tile} {i : Nat} (as : List Nat)
    (has : ∀ a ∈ as, a < LegalActions) :
    ∀ (dl : List (List Int)) (F : List Tile), LayerShaped dl m.m_width m.m_height →
      DistInv (walkOf m) (distOf dl) o F i → F[i]? = some tile →
      LayerShaped (as.foldl (distExpand (walkOf m) (fun t => isValidTile m t.1 t.2) tile)
        (dl, F)).1 m.m_width m.m_height ∧
      DistInv (walkOf m)
        (distOf (as.foldl (distExpand (walkOf m) (fun t => isValidTile m t.1 t.2) tile)
          (dl, F)).1) o
        (as.foldl (distExpand (walkOf m) (fun t => isValidTile m t.1 t.2) tile) (dl, F)).2 i ∧
      (as.foldl (distExpand (walkOf m) (fun t => isValidTile m t.1 t.2) tile) (dl, F)).2[i]? =
        some tile ∧
      (∀ t, t ∈ F →
        t ∈ (as.foldl (distExpand (walkOf m) (fun t => isValidTile m t.1 t.2) tile)
          (dl, F)).2 ∧
        distOf (as.foldl (distExpand (walkOf m) (fun t => isValidTile m t.1 t.2) tile)
          (dl, F)).1 t = distOf dl t) ∧
      (∀ a ∈ as, walkOf m (tile.1 + actionX.getD a 0, tile.2 + actionY.getD a 0) = true →
        (tile.1 + actionX.getD a 0, tile.2 + actionY.getD a 0) ∈
          (as.foldl (distExpand (walkOf m) (fun t => isValidTile m t.1 t.2) tile) (dl, F)).2 ∧
        distOf (as.foldl (distExpand (walkOf m) (fun t => isValidTile m t.1 t.2) tile)
            (dl, F)).1 (tile.1 + actionX.getD a 0, tile.2 + actionY.getD a 0) ≤
          distOf dl tile + 1) ∧
      (unreachedTiles m.m_width m.m_height
          (as.foldl (distExpand (walkOf m) (fun t => isValidTile m t.1 t.2) tile)
            (dl, F)).1).card +
          (as.foldl (distExpand (walkOf m) (fun t => isValidTile m t.1 t.2) tile)
            (dl, F)).2.length =
        (unreachedTiles m.m_width m.m_height dl).card + F.length := by
  induction as with
  | nil =>
    intro dl F hs h ht
    exact ⟨hs, h, ht, fun t htm => ⟨htm, rfl⟩, fun a ha => absurd ha (List.not_mem_nil a), rfl⟩
  | cons a as ih =>
    intro dl F hs h ht
    have htF : tile ∈ F := List.mem_iff_getElem?.2 ⟨i, ht⟩
    obtain ⟨hs1, h1, ht1, hk1, hn1, hc1⟩ :=
      distExpand_spec a (has a (List.mem_cons_self a as)) hs h ht
    obtain ⟨hs2, h2, ht2, hk2, hn2, hc2⟩ :=
      ih (fun b hb => has b (List.mem_cons_of_mem a hb))
        (distExpand (walkOf m) (fun t => isValidTile m t.1 t.2) tile (dl, F) a).1
        (distExpand (walkOf m) (fun t => isValidTile m t.1 t.2) tile (dl, F) a).2 hs1 h1 ht1
    simp only [Prod.mk.eta] at hs2 h2 ht2 hk2 hn2 hc2
    simp only [List.foldl_cons]
    refine ⟨hs2, h2, ht2, ?_, ?_, by omega⟩
    · intro t htm
      obtain ⟨hm1, hd1⟩ := hk1 t htm
      obtain ⟨hm2, hd2⟩ := hk2 t hm1
      exact ⟨hm2, hd2.trans hd1⟩
    · intro b hb hw
      rcases List.mem_cons.1 hb with rfl | hb1
      · obtain ⟨hm1, hd1⟩ := hn1 hw
        obtain ⟨hm2, hd2⟩ := hk2 _ hm1
        exact ⟨hm2, by rw [hd2]; exact hd1⟩
      · obtain ⟨hm2, hd2⟩ := hn2 b hb1 hw
        refine ⟨hm2, ?_⟩
        rw [(hk1 tile htF).2] at hd2
        exact hd2

theorem distLoop_spec {m : State DM} {o : Tile} :
    ∀ (fuel : Nat) (dl : List (List Int)) (F : List Tile) (i : Nat),
      LayerShaped dl m.m_width m.m_height → DistInv (walkOf m) (distOf dl) o F i →
      (unreachedTiles m.m_width m.m_height dl).card + (F.length - i) ≤ fuel →
      ∃ dl1 F1, distLoop (walkOf m) (fun t => isValidTile m t.1 t.2) fuel dl F i =
          some (dl1, F1) ∧
        DistInv (walkOf m) (distOf dl1) o F1 F1.length := by
  intro fuel
  induction fuel with
  | zero =>
    intro dl F i _ h hf
    have hi := h.idx
    have hnot : ¬ (i < F.length) := by omega
    have hie : i = F.length := by omega
    refine ⟨dl, F, ?_, hie ▸ h⟩
    simp only [distLoop, if_neg hnot]
  | succ fuel ih =>
    intro dl F i hs h hf
    cases hget : F[i]? with
    | none =>
      have hlen := List.getElem?_eq_none_iff.1 hget
      have hie : i = F.length := by have := h.idx; omega
      refine ⟨dl, F, ?_, hie ▸ h⟩
      simp only [distLoop, hget]
    | some tile =>
      have hlt := (List.getElem?_eq_some.1 hget).1
      have htF : tile ∈ F := List.mem_iff_getElem?.2 ⟨i, hget⟩
      obtain ⟨hs1, h1, ht1, hk1, hn1, hc1⟩ :=
        @distExpands_spec DM m o tile i (List.range LegalActions)
          (fun a ha => List.mem_range.1 ha) dl F hs h hget
      have hlt1 := (List.getElem?_eq_some.1 ht1).1
      have h2 := h1.dequeue ht1 (by
        intro b hab hb
        obtain ⟨a, ha, rfl⟩ := (adj_iff_action tile b).1 hab
        obtain ⟨hm, hd⟩ := hn1 a (List.mem_range.2 ha) hb
        refine ⟨hm, ?_⟩
        rw [(hk1 tile htF).2]
        exact hd)
      obtain ⟨dl1, F1, hrun, hfin⟩ := ih _ _ (i + 1) hs1 h2 (by omega)
      refine ⟨dl1, F1, ?_, hfin⟩
      simp only [distLoop, hget]
      exact hrun

/-- The distance search returns for every valid origin, and what it returns satisfies the
invariant with the whole visitation order dequeued. -/
theorem computeDistanceMap_total (m : State DM) (o : Tile)
    (hv : isValidTile m o.1 o.2 = true) :
    ∃ dm, computeDistanceMap m o = some dm ∧
      DistInv (walkOf m) (distOf dm.dist) o dm.sortedTiles dm.sortedTiles.length := by
  have hval := (isValidTile_iff m o.1 o.2).1 hv
  have hw : ((m.m_width.toNat : Nat) : Int) = m.m_width := by omega
  have hh : ((m.m_height.toNat : Nat) : Int) = m.m_height := by omega
  have hs0 : LayerShaped (vvNew m.m_width.toNat m.m_height.toNat unreached) m.m_width
      m.m_height := by
    have := vvNew_shaped m.m_width.toNat m.m_height.toNat unreached
    rw [hw, hh] at this
    exact this
  have hd0 : distOf (vvNew m.m_width.toNat m.m_height.toNat unreached) = fun _ => unreached := by
    funext t
    exact distOf_vvNew _ _ t
  have hd1 := distOf_vvSet hs0 (n := o) hval.1 hval.2 0
  have hinv : DistInv (walkOf m)
      (distOf (vvSet (vvNew m.m_width.toNat m.m_height.toNat unreached) o.1 o.2 0)) o [o] 0 := by
    rw [hd1, hd0]
    exact DistInv.init (walkOf m) o
  have hcard := unreachedTiles_vvSet hs0 (n := o) hval.1 hval.2 (by rw [hd0]) (v := 0)
    (by unfold unreached; omega)
  have hle : (unreachedTiles m.m_width m.m_height
      (vvNew m.m_width.toNat m.m_height.toNat unreached)).card ≤
      (m.m_width * m.m_height).toNat :=
    le_trans (Finset.card_filter_le _ _) (grid_card_le _ _)
  obtain ⟨dl1, F1, hrun, hfin⟩ :=
    @distLoop_spec DM m o (m.m_width * m.m_height).toNat _ [o] 0 (vvSet_shaped hs0 _ _ _) hinv
      (by simp only [List.length_singleton]; omega)
  refine ⟨{ dist := dl1, sortedTiles := F1 }, ?_, hfin⟩
  unfold computeDistanceMap
  simp only []
  rw [hrun]
  rfl

theorem computeDistanceMap_shortest (m : State DM) (a b : Tile)
    (hconn : ∃ p, IsWalkPath m a b p) :
    ∃ dm, computeDistanceMap m a = some dm ∧ dm.getDistance a = 0 ∧
      (∃ p, IsWalkPath m a b p ∧ (p.length : Int) = dm.getDistance b + 1) ∧
      ∀ q, IsWalkPath m a b q → dm.getDistance b + 1 ≤ (q.length : Int) := by
  obtain ⟨p0, hp0⟩ := hconn
  have hwa : walkOf m a = true := ((isWalkPath_iff_reach a b).1 ⟨p0, hp0⟩).1
  have hva := walkOf_valid hwa
  obtain ⟨dm, hrun, hinv⟩ := computeDistanceMap_total m a hva
  have haF : a ∈ dm.sortedTiles := (hinv.fringe_iff a).1 (by rw [hinv.origin]; decide)
  have hupper : ∀ q, IsWalkPath m a b q →
      b ∈ dm.sortedTiles ∧ distOf dm.dist b + 1 ≤ (q.length : Int) := by
    intro q hq
    obtain ⟨hh, hl, hc, hall⟩ := hq
    have := hinv.le_of_chain (le_refl _) q a b haF hh hl hc (fun t ht => (hall t ht).2)
    rw [hinv.origin] at this
    exact ⟨this.1, by omega⟩
  have hbF := (hupper p0 hp0).1
  have hb0 := hinv.nonneg b hbF
  obtain ⟨p, hh, hl, hc, hall, hlen⟩ := hinv.chain_of_mem hwa (distOf dm.dist b).toNat b hbF
    (by omega)
  refine ⟨dm, hrun, hinv.origin, ⟨p, ⟨hh, hl, hc, ?_⟩, ?_⟩, fun q hq => (hupper q hq).2⟩
  · intro t ht
    exact ⟨walkOf_valid (hall t ht), hall t ht⟩
  · show (p.length : Int) = distOf dm.dist b + 1
    rw [hlen]
    push_cast
    omega

theorem getDistanceMap_specOps (m : State DistanceMap) (hc : CacheOk m) (o : Tile)
    (dm : DistanceMap) (hdm : computeDistanceMap m o = some dm) :
    (getDistanceMap specOps m o).1 = dm := by
  cases hf : m._allMaps.find o with
  | some d =>
    have := hc o d hf
    rw [hdm] at this
    cases this
    rw [getDistanceMap_hit specOps m o dm hf]
  | none =>
    have hoo : (o.1, o.2) = o := rfl
    have hcomp : ∀ c : StdMap Tile DistanceMap,
        computeDistanceMap { m with _allMaps := c } o = computeDistanceMap m o := fun _ => rfl
    simp only [getDistanceMap, hoo, hf, Option.isNone_none, if_true, StdMap.index,
      StdMap.find_set, specOps, hcomp, hdm, Option.getD_some]

theorem cacheOk_of_empty (m : State DistanceMap) (h : m._allMaps = StdMap.empty) :
    CacheOk m := by
  intro k d hk
  rw [h, StdMap.find_empty] at hk
  cases hk

/-! ## The claims -/

/-- C1: after `computeConnectivity` on a grid of the shape `onStart` allocates whose sector
layer is all 0, `isConnected(a, b)` holds if and only if both tiles are inside the map, both
are walkable, and a 4-directional path of in-bounds walkable tiles leads from `a` to `b`;
equivalently two walkable tiles are joined by such a path iff they carry the same nonzero
sector number. -/
theorem isConnected_iff_path (m : State DM) (hs : Shaped m) (hz : SectorsZero m) :
    ∃ m1, computeConnectivity m = some m1 ∧
      (∀ x1 y1 x2 y2 : Int, isConnected m1 x1 y1 x2 y2 = true ↔
        isValidTile m1 x1 y1 = true ∧ isValidTile m1 x2 y2 = true ∧
        isWalkable m1 x1 y1 = true ∧ isWalkable m1 x2 y2 = true ∧
        ∃ p, IsWalkPath m1 (x1, y1) (x2, y2) p) ∧
      (∀ a b : Tile, isWalkable m1 a.1 a.2 = true → isWalkable m1 b.1 b.2 = true →
        ((∃ p, IsWalkPath m1 a b p) ↔
          getSectorNumber m1 a.1 a.2 ≠ 0 ∧
          getSectorNumber m1 a.1 a.2 = getSectorNumber m1 b.1 b.2)) := by
  obtain ⟨m1, k, _, hrun, _, hfill, hall⟩ := computeConnectivity_total m hs.sectorNumber hz
  refine ⟨m1, hrun, ?_, ?_⟩
  · intro x1 y1 x2 y2
    rw [isConnected_eq]
    constructor
    · rintro ⟨hv1, hv2, hnz, hsame⟩
      have hw1 : walkOf m1 (x1, y1) = true := (hfill.label _ hnz).1
      have hw2 : walkOf m1 (x2, y2) = true := (hfill.label _ (by rw [← hsame]; exact hnz)).1
      exact ⟨hv1, hv2, hw1, hw2, (component_eq_label hfill hw1 hnz _).2 hsame.symm⟩
    · rintro ⟨hv1, hv2, hw1, _, hp⟩
      have hnz := hall (x1, y1) hw1
      exact ⟨hv1, hv2, hnz, ((component_eq_label hfill (t := (x1, y1)) hw1 hnz _).1 hp).symm⟩
  · intro a b hwa _
    have hnz := hall a hwa
    rw [component_eq_label hfill hwa hnz b]
    constructor
    · intro hsame
      exact ⟨hnz, hsame.symm⟩
    · rintro ⟨_, hsame⟩
      exact hsame.symm

/-- C1, concrete instance: on the 4x4 grid that is walkable except at `(1, 1)` the flood
fill gives sector 1 to the 15 walkable tiles and 0 to `(1, 1)`, and `isConnected` is the
path relation there. -/
theorem isConnected_iff_path_witness :
    Shaped grid44 ∧ SectorsZero grid44 ∧
    (computeConnectivity grid44).map (fun m1 => m1.m_sectorNumber) =
      some [[1, 1, 1, 1], [1, 0, 1, 1], [1, 1, 1, 1], [1, 1, 1, 1]] ∧
    ∃ m1, computeConnectivity grid44 = some m1 ∧
      (∀ x1 y1 x2 y2 : Int, isConnected m1 x1 y1 x2 y2 = true ↔
        isValidTile m1 x1 y1 = true ∧ isValidTile m1 x2 y2 = true ∧
        isWalkable m1 x1 y1 = true ∧ isWalkable m1 x2 y2 = true ∧
        ∃ p, IsWalkPath m1 (x1, y1) (x2, y2) p) := by
  have hs : Shaped grid44 := onStartLayers_shaped _ _ _ _ 4 4
  have hz : SectorsZero grid44 := onStartLayers_sectorsZero _ _ _ _ 4 4
  obtain ⟨m1, hrun, h1, _⟩ := isConnected_iff_path grid44 hs hz
  exact ⟨hs, hz, by decide, m1, hrun, h1⟩

/-- C2: after `computeConnectivity` on a grid of the shape `onStart` allocates whose sector
layer is all 0, every in-bounds walkable tile has a positive sector number and every in-bounds
non-walkable tile has sector number 0. -/
theorem sector_positive_iff_walkable (m : State DM) (hs : Shaped m) (hz : SectorsZero m) :
    ∃ m1, computeConnectivity m = some m1 ∧
      ∀ x y : Int, isValidTile m1 x y = true →
        (isWalkable m1 x y = true → 0 < getSectorNumber m1 x y) ∧
        (isWalkable m1 x y = false → getSectorNumber m1 x y = 0) := by
  obtain ⟨m1, k, _, hrun, _, hfill, hall⟩ := computeConnectivity_total m hs.sectorNumber hz
  refine ⟨m1, hrun, ?_⟩
  intro x y _
  constructor
  · intro hw
    have hnz := hall (x, y) hw
    have := (hfill.label (x, y) hnz).2.1
    show 0 < secOf m1 (x, y)
    omega
  · intro hw
    exact secOf_eq_zero_of_not_walkable hfill (t := (x, y)) hw

/-- C2, concrete instance: on the 3x2 grid with the wall `x = 1` the walkable tile `(2, 1)`
gets the positive sector number 2 and the wall tile `(1, 0)` keeps 0. -/
theorem sector_positive_iff_walkable_witness :
    Shaped gridWall ∧ SectorsZero gridWall ∧
    ∃ m1, computeConnectivity gridWall = some m1 ∧ getSectorNumber m1 2 1 = 2 ∧
      getSectorNumber m1 1 0 = 0 ∧
      ∀ x y : Int, isValidTile m1 x y = true →
        (isWalkable m1 x y = true → 0 < getSectorNumber m1 x y) ∧
        (isWalkable m1 x y = false → getSectorNumber m1 x y = 0) := by
  have hs : Shaped gridWall := onStartLayers_shaped _ _ _ _ 3 2
  have hz : SectorsZero gridWall := onStartLayers_sectorsZero _ _ _ _ 3 2
  obtain ⟨m1, hrun, h1⟩ := sector_positive_iff_walkable gridWall hs hz
  have h2 : (computeConnectivity gridWall).map (fun m1 => getSectorNumber m1 2 1) = some 2 := by
    decide
  have h3 : (computeConnectivity gridWall).map (fun m1 => getSectorNumber m1 1 0) = some 0 := by
    decide
  rw [hrun] at h2 h3
  exact ⟨hs, hz, m1, hrun, by simpa using h2, by simpa using h3, h1⟩

/-- C3: after `onStart`, whatever the engine's raw build and walk classification and for
every integer pair `(x, y)`, in bounds or not, `isBuildable(x, y)` implies
`isWalkable(x, y)`. -/
theorem isBuildable_imp_isWalkable (canBuild canWalk : Int → Int → Bool)
    (terainHeight : ℚ → ℚ → Height) (m0 : State DM) (width height : Nat) :
    ∃ m, onStart canBuild canWalk terainHeight m0 width height = some m ∧
      ∀ x y : Int, isBuildable m x y = true → isWalkable m x y = true := by
  obtain ⟨m1, k, _, hrun, hg, _, _⟩ := computeConnectivity_total
    (onStartLayers canBuild canWalk terainHeight m0 width height)
    (onStartLayers_shaped canBuild canWalk terainHeight m0 width height).sectorNumber
    (onStartLayers_sectorsZero canBuild canWalk terainHeight m0 width height)
  refine ⟨m1, hrun, ?_⟩
  obtain ⟨h1, h2, _, _, _, _, _, _, _, _, hcell⟩ :=
    onStartLayers_spec canBuild canWalk terainHeight m0 width height
  intro x y hb
  unfold isBuildable at hb
  unfold isWalkable
  by_cases hv : isValidTile m1 x y = true
  · have hv1 := (isValidTile_iff m1 x y).1 hv
    rw [hg.width, hg.height, h1, h2] at hv1
    obtain ⟨hbx, hwx, _⟩ := hcell x y hv1.1 hv1.2
    simp only [hv, Bool.not_true, Bool.false_eq_true, if_false, hg.buildable, hbx] at hb
    simp only [hv, Bool.not_true, Bool.false_eq_true, if_false, hg.walkable, hwx, hb,
      Bool.true_or]
  · simp [hv] at hb

/-- C4: `getGroundDistance(src, dest)` evicts all or nothing, keyed on the cache size at call
time.  With more than 50 cached maps the cache afterwards holds exactly one entry, the map of
the tile of `dest`, computed afresh from a default-constructed map on the cleared cache, and
the returned value is the distance of `src` in that map.  With at most 50, every cached map
is kept unchanged and only the key of `dest` can be new; when the tile of `dest` is cached
the object is left as it was and the value is read in the cached map; when it is not, the
entry added for it is the map computed for that tile from a default-constructed map, and the
value is read in that computed map.  In every case the returned value is the distance of
`src` in the map stored for the tile of `dest`. -/
theorem getGroundDistance_eviction {Pos : Type} (D : DistanceMapOps DM Pos) (m : State DM)
    (src dest : Pos) :
    (50 < m._allMaps.size →
      (getGroundDistance D m src dest).2._allMaps.entries =
        [(D.GetTilePosition dest,
          D.computeDistanceMap D.ctor
            { m with _allMaps := (StdMap.empty : StdMap Tile DM).set (D.GetTilePosition dest) D.ctor }
            (D.GetTilePosition dest))] ∧
      (getGroundDistance D m src dest).1 =
        D.getDistance (D.computeDistanceMap D.ctor
            { m with _allMaps := (StdMap.empty : StdMap Tile DM).set (D.GetTilePosition dest) D.ctor }
            (D.GetTilePosition dest)) src) ∧
    (m._allMaps.size ≤ 50 →
      (∀ k d, m._allMaps.find k = some d →
        (getGroundDistance D m src dest).2._allMaps.find k = some d) ∧
      (∀ k, k ≠ D.GetTilePosition dest →
        (getGroundDistance D m src dest).2._allMaps.find k = m._allMaps.find k) ∧
      (∀ d, m._allMaps.find (D.GetTilePosition dest) = some d →
        getGroundDistance D m src dest = (D.getDistance d src, m)) ∧
      (m._allMaps.find (D.GetTilePosition dest) = none →
        (getGroundDistance D m src dest).2._allMaps.find (D.GetTilePosition dest) =
          some (D.computeDistanceMap D.ctor
            { m with _allMaps := m._allMaps.set (D.GetTilePosition dest) D.ctor }
            (D.GetTilePosition dest)) ∧
        (getGroundDistance D m src dest).1 =
          D.getDistance (D.computeDistanceMap D.ctor
            { m with _allMaps := m._allMaps.set (D.GetTilePosition dest) D.ctor }
            (D.GetTilePosition dest)) src)) ∧
    (∃ d, (getGroundDistance D m src dest).2._allMaps.find (D.GetTilePosition dest) = some d ∧
      (getGroundDistance D m src dest).1 = D.getDistance d src) := by
  refine ⟨?_, ?_, ?_⟩
  · intro hbig
    have hb : m._allMaps.size > 50 := hbig
    simp only [getGroundDistance, getDistanceMapPos, if_pos hb]
    rw [getDistanceMap_miss D _ _ (StdMap.find_empty _)]
    exact ⟨by simp [StdMap.set, StdMap.empty], rfl⟩
  · intro hsmall
    have hb : ¬ (m._allMaps.size > 50) := by omega
    simp only [getGroundDistance, getDistanceMapPos, if_neg hb]
    refine ⟨?_, ?_, ?_, ?_⟩
    · intro k d hk
      rw [getDistanceMap_find]
      split_ifs with h
      · subst h
        rw [getDistanceMap_hit D m _ d hk]
      · exact hk
    · intro k hk
      rw [getDistanceMap_find, if_neg hk]
    · intro d hd
      rw [getDistanceMap_hit D m _ d hd]
    · intro hnone
      rw [getDistanceMap_miss D m _ hnone]
      exact ⟨by simp [StdMap.find_set], rfl⟩
  · simp only [getGroundDistance, getDistanceMapPos]
    exact ⟨_, by rw [getDistanceMap_find, if_pos rfl], rfl⟩

/-- C4, concrete instance: on a cache holding the 51 maps of the origins `(0,0) .. (50,0)`,
a query toward `(51, 0)` leaves exactly the map of `(51, 0)`, the earlier origin `(0, 0)` is
no longer cached, and the value is read in the new map.  On a cache holding the 3 maps of
`(0,0) .. (2,0)`, a query toward `(51, 0)` keeps the three maps, adds the computed map of
`(51, 0)` and reads the value in it; a query toward the cached `(1, 0)` leaves the object as
it was and reads the value in the cached map. -/
theorem getGroundDistance_eviction_witness :
    50 < cache51._allMaps.size ∧
    (getGroundDistance numberOps cache51 (0, 0) (51, 0)).2._allMaps.entries = [((51, 0), 5101)] ∧
    (getGroundDistance numberOps cache51 (0, 0) (51, 0)).2._allMaps.find (0, 0) = none ∧
    (getGroundDistance numberOps cache51 (0, 0) (51, 0)).1 = 5101 ∧
    cache3._allMaps.size ≤ 50 ∧ cache3._allMaps.find (51, 0) = none ∧
    (getGroundDistance numberOps cache3 (0, 0) (51, 0)).2._allMaps.find (51, 0) = some 5101 ∧
    (getGroundDistance numberOps cache3 (0, 0) (51, 0)).1 = 5101 ∧
    (getGroundDistance numberOps cache3 (0, 0) (51, 0)).2._allMaps.find (0, 0) = some 1 ∧
    (getGroundDistance numberOps cache3 (0, 0) (51, 0)).2._allMaps.size = 4 ∧
    getGroundDistance numberOps cache3 (0, 0) (1, 0) = (101, cache3) := by
  have h := (getGroundDistance_eviction numberOps cache51 (0, 0) (51, 0)).1 (by decide)
  have h3 := (getGroundDistance_eviction numberOps cache3 (0, 0) (51, 0)).2.1 (by decide)
  have h4 := (getGroundDistance_eviction numberOps cache3 (0, 0) (1, 0)).2.1 (by decide)
  refine ⟨by decide, ?_, ?_, ?_, by decide, by decide, ?_, ?_, ?_, by decide, ?_⟩
  · exact h.1.trans rfl
  · unfold StdMap.find
    rw [h.1]; rfl
  · exact h.2.trans rfl
  · exact (h3.2.2.2 (by decide)).1.trans rfl
  · exact (h3.2.2.2 (by decide)).2.trans rfl
  · exact h3.1 (0, 0) 1 (by decide)
  · exact h4.2.2.1 101 (by decide)

/-- C5: `getDistanceMap` is memoized by origin tile.  A second call for the same origin returns
the same map and leaves the object as the first call left it, whatever `DistanceMap`
operations it is given (so it computes nothing); and the first call changes no cache entry
other than the one keyed by the origin. -/
theorem getDistanceMap_memoized {Pos : Type} (D : DistanceMapOps DM Pos) (m : State DM)
    (o : Tile) :
    (getDistanceMap D (getDistanceMap D m o).2 o).1 = (getDistanceMap D m o).1 ∧
    (getDistanceMap D (getDistanceMap D m o).2 o).2 = (getDistanceMap D m o).2 ∧
    (∀ D1 : DistanceMapOps DM Pos,
      getDistanceMap D1 (getDistanceMap D m o).2 o = getDistanceMap D m o) ∧
    (∀ k, k ≠ o → (getDistanceMap D m o).2._allMaps.find k = m._allMaps.find k) := by
  have hfind : (getDistanceMap D m o).2._allMaps.find o = some (getDistanceMap D m o).1 := by
    rw [getDistanceMap_find, if_pos rfl]
  have hall : ∀ D1 : DistanceMapOps DM Pos,
      getDistanceMap D1 (getDistanceMap D m o).2 o = getDistanceMap D m o :=
    fun D1 => getDistanceMap_hit D1 _ o _ hfind
  refine ⟨by rw [hall D], by rw [hall D], hall, ?_⟩
  intro k hk
  rw [getDistanceMap_find, if_neg hk]

/-- C6: `isValidTile(x, y)` is exactly `0 <= x < width` and `0 <= y < height`; outside that
range, whatever the layers hold, `isWalkable`, `isBuildable` and `isDepotBuildableTile` are
false, `getSectorNumber` is 0, and `isConnected` is false with the tile on either side. -/
theorem out_of_bounds_defaults (m : State DM) (x y : Int) :
    (isValidTile m x y = true ↔ (0 ≤ x ∧ x < m.m_width) ∧ (0 ≤ y ∧ y < m.m_height)) ∧
    (¬ ((0 ≤ x ∧ x < m.m_width) ∧ (0 ≤ y ∧ y < m.m_height)) →
      isWalkable m x y = false ∧ isBuildable m x y = false ∧
      isDepotBuildableTile m x y = false ∧ getSectorNumber m x y = 0 ∧
      ∀ x2 y2, isConnected m x y x2 y2 = false ∧ isConnected m x2 y2 x y = false) := by
  refine ⟨isValidTile_iff m x y, ?_⟩
  intro hout
  have hv : isValidTile m x y = false := by
    rw [← Bool.not_eq_true, isValidTile_iff]
    exact hout
  refine ⟨by simp [isWalkable, hv], by simp [isBuildable, hv],
    by simp [isDepotBuildableTile, hv], by simp [getSectorNumber, hv], ?_⟩
  intro x2 y2
  exact ⟨by simp [isConnected, hv], by simp [isConnected, hv]⟩

/-- C6, concrete instance: on the 4x4 grid the tile `(4, 0)` and the tile `(0, -1)` are out
of bounds and every query answers with its default. -/
theorem out_of_bounds_defaults_witness :
    isValidTile grid44 4 0 = false ∧ isWalkable grid44 4 0 = false ∧
    isBuildable grid44 4 0 = false ∧ isDepotBuildableTile grid44 4 0 = false ∧
    getSectorNumber grid44 4 0 = 0 ∧ isConnected grid44 4 0 0 0 = false ∧
    isConnected grid44 0 0 0 (-1) = false := by
  have h := (out_of_bounds_defaults grid44 4 0).2 (by decide)
  have h1 := (out_of_bounds_defaults grid44 0 (-1)).2 (by decide)
  exact ⟨by decide, h.1, h.2.1, h.2.2.1, h.2.2.2.1, (h.2.2.2.2 0 0).1, (h1.2.2.2.2 0 0).2⟩

/-- C7, the code at out-of-bounds input: on the 2x1 map with stored heights 7,
`terrainHeight(-1, 0)` and `terrainHeight(2, 0)` index `m_terrainHeight` outside its range
(no value, where the claim promises 0), and `terrainHeight(-1/2, 0)` truncates to tile
`(0, 0)` and returns its stored height 7. -/
theorem terrainHeight_unguarded :
    isValidTile heightsExample (-1) 0 = false ∧ terrainHeight heightsExample (-1) 0 = none ∧
    isValidTile heightsExample 2 0 = false ∧ terrainHeight heightsExample 2 0 = none ∧
    terrainHeight heightsExample (-1 / 2) 0 = some 7 := by
  have h0 : floatToInt (-1 / 2) = 0 := by
    norm_num [floatToInt]
    decide
  refine ⟨by decide, by decide, by decide, by decide, ?_⟩
  unfold terrainHeight
  rw [h0]
  decide

/-- C8 fails as stated: on a 2x1 map, after the 2147483648 calls of `onFrame` of
`framesPastIntMax`, each of which sees the tile `(0, 0)`, the `int` frame counter has wrapped
around to -2147483648, which is not the number of calls, and `lastSeen` of `(0, 0)` is
-2147483648, not the number 2147483648 of the last call during which the tile was visible. -/
theorem frame_counter_wraps :
    ∃ m : State Unit,
      onStart (fun _ _ => true) (fun _ _ => true) (fun _ _ => 0) new 2 1 = some m ∧
      m.m_frame = 0 ∧ isValidTile m 0 0 = true ∧
      (framesPastIntMax.length : Int) = 2147483648 ∧
      (∀ v ∈ framesPastIntMax, v 0 0 = true) ∧
      (runFrames framesPastIntMax m).m_frame = -2147483648 ∧
      lastSeenAt (runFrames framesPastIntMax m) (0, 0) = -2147483648 ∧
      (runFrames framesPastIntMax m).m_frame ≠ (framesPastIntMax.length : Int) := by
  obtain ⟨m1, k, _, hrun, hg, _, _⟩ := computeConnectivity_total
    (onStartLayers (fun _ _ => true) (fun _ _ => true) (fun _ _ => 0) (new : State Unit) 2 1)
    (onStartLayers_shaped _ _ _ new 2 1).sectorNumber
    (onStartLayers_sectorsZero _ _ _ new 2 1)
  have hspec := onStartLayers_spec (fun _ _ => true) (fun _ _ => true) (fun _ _ => 0)
    (new : State Unit) 2 1
  have hshape := (onStartLayers_shaped (fun _ _ => true) (fun _ _ => true) (fun _ _ => 0)
    (new : State Unit) 2 1).lastSeen
  have hs : LayerShaped m1.m_lastSeen m1.m_width m1.m_height := by
    rw [hg.lastSeen, hg.width, hg.height]; exact hshape
  have hf : m1.m_frame = 0 := by
    rw [hg.frame, hspec.2.2.1]; rfl
  have hw : m1.m_width = 2 := by rw [hg.width, hspec.1]; rfl
  have hh : m1.m_height = 1 := by rw [hg.height, hspec.2.1]; rfl
  have hv : isValidTile m1 0 0 = true := by
    rw [isValidTile_iff, hw, hh]; decide
  have hlen : ((List.replicate 2147483647 seeOrigin).length : Int) = 2147483647 := by
    rw [List.length_replicate]; rfl
  have hfr0 : (runFrames (List.replicate 2147483647 seeOrigin) m1).m_frame = 2147483647 := by
    rw [runFrames_frame m1 hs (by omega) _ (by rw [hf, hlen]; decide), hf, hlen]; rfl
  have hfr : (runFrames framesPastIntMax m1).m_frame = -2147483648 := by
    unfold framesPastIntMax
    rw [runFrames_frame_step m1 hs, hfr0]
    decide
  have hsee : seeOrigin ((0 : Int), (0 : Int)).1 ((0 : Int), (0 : Int)).2 = true := by decide
  have hlen1 : (framesPastIntMax.length : Int) = 2147483648 := by
    unfold framesPastIntMax
    rw [List.length_append, List.length_replicate, List.length_singleton]
    rfl
  refine ⟨m1, hrun, hf, hv, hlen1, ?_, hfr, ?_, ?_⟩
  · intro v hmem
    unfold framesPastIntMax at hmem
    rcases List.mem_append.1 hmem with h | h
    · rw [(List.mem_replicate.1 h).2]; decide
    · rw [List.mem_singleton.1 h]; decide
  · have hstep := runFrames_step m1 hs (List.replicate 2147483647 seeOrigin) seeOrigin (0, 0) hv
    rw [if_pos hsee] at hstep
    have hfr2 : (runFrames (List.replicate 2147483647 seeOrigin ++ [seeOrigin]) m1).m_frame =
        -2147483648 := hfr
    rw [hfr2] at hstep
    exact hstep
  · rw [hfr, hlen1]
    decide

/-- C8 (amended): from the state `onStart` leaves on a freshly constructed object (frame
counter 0, every `lastSeen` 0), after at most `INT_MAX` calls of `onFrame` with visibility
sets `vs` the frame counter is the number of calls, and for every in-bounds tile the stored
`lastSeen` is the number of the last call during which the tile was visible, or 0 if it was
visible in none, and lies between 0 and the frame counter; while fewer than `INT_MAX` calls
were made one more call adds 1 to the counter; and after any number of calls one more call
sets `lastSeen` of a visible tile to the new counter value and leaves that of a non-visible
tile unchanged. -/
theorem lastSeen_tracks_frames (canBuild canWalk : Int → Int → Bool)
    (terainHeight : ℚ → ℚ → Height) (width height : Nat) :
    ∃ m : State DM, onStart canBuild canWalk terainHeight new width height = some m ∧
      m.m_frame = 0 ∧ (∀ t : Tile, isValidTile m t.1 t.2 = true → lastSeenAt m t = 0) ∧
      ∀ vs : List (Int → Int → Bool),
        ((vs.length : Int) ≤ INT_MAX →
          (runFrames vs m).m_frame = (vs.length : Int) ∧
          (∀ t : Tile, isValidTile m t.1 t.2 = true →
            ((lastSeenAt (runFrames vs m) t = 0 ∧
                ∀ (i : Nat) (v : Int → Int → Bool), vs[i]? = some v → v t.1 t.2 = false) ∨
              (∃ (i : Nat) (v : Int → Int → Bool), vs[i]? = some v ∧ v t.1 t.2 = true ∧
                lastSeenAt (runFrames vs m) t = (i : Int) + 1 ∧
                ∀ (j : Nat) (u : Int → Int → Bool), i < j → vs[j]? = some u →
                  u t.1 t.2 = false)) ∧
            0 ≤ lastSeenAt (runFrames vs m) t ∧
            lastSeenAt (runFrames vs m) t ≤ (runFrames vs m).m_frame)) ∧
        ((vs.length : Int) < INT_MAX → ∀ v : Int → Int → Bool,
          (runFrames (vs ++ [v]) m).m_frame = (runFrames vs m).m_frame + 1) ∧
        (∀ (v : Int → Int → Bool) (t : Tile), isValidTile m t.1 t.2 = true →
          lastSeenAt (runFrames (vs ++ [v]) m) t =
            if v t.1 t.2 = true then (runFrames (vs ++ [v]) m).m_frame
            else lastSeenAt (runFrames vs m) t) := by
  obtain ⟨m1, k, _, hrun, hg, _, _⟩ := computeConnectivity_total
    (onStartLayers canBuild canWalk terainHeight (new : State DM) width height)
    (onStartLayers_shaped canBuild canWalk terainHeight new width height).sectorNumber
    (onStartLayers_sectorsZero canBuild canWalk terainHeight new width height)
  have hshape := (onStartLayers_shaped canBuild canWalk terainHeight (new : State DM)
    width height).lastSeen
  have hs : LayerShaped m1.m_lastSeen m1.m_width m1.m_height := by
    rw [hg.lastSeen, hg.width, hg.height]; exact hshape
  have hf : m1.m_frame = 0 := by
    rw [hg.frame, (onStartLayers_spec canBuild canWalk terainHeight new width height).2.2.1]
    rfl
  have hz : ∀ t : Tile, isValidTile m1 t.1 t.2 = true → lastSeenAt m1 t = 0 := by
    intro t hv
    rw [hg.isValidTile_eq] at hv
    have := onStartLayers_lastSeen canBuild canWalk terainHeight (new : State DM) width height t hv
    unfold lastSeenAt at this ⊢
    rw [hg.lastSeen]
    exact this
  refine ⟨m1, hrun, hf, hz, ?_⟩
  intro vs
  refine ⟨?_, ?_, ?_⟩
  · intro hb
    have hb1 : (vs.length : Int) ≤ 2147483647 := hb
    have hfr : (runFrames vs m1).m_frame = (vs.length : Int) := by
      rw [runFrames_frame m1 hs (by omega) vs (by rw [hf]; omega), hf]; omega
    refine ⟨hfr, ?_⟩
    intro t hv
    have hchar := runFrames_lastSeen m1 hs hf t hv (hz t hv) vs hb1
    refine ⟨hchar, ?_⟩
    rcases hchar with ⟨h0, _⟩ | ⟨i, u, hu, _, hval, _⟩
    · rw [h0, hfr]
      exact ⟨le_refl 0, by omega⟩
    · have := (List.getElem?_eq_some.1 hu).1
      rw [hval, hfr]
      omega
  · intro hb v
    have hb1 : (vs.length : Int) < 2147483647 := hb
    rw [runFrames_frame m1 hs (by omega) (vs ++ [v]) (by
        simp only [List.length_append, List.length_singleton]
        push_cast
        rw [hf]; omega),
      runFrames_frame m1 hs (by omega) vs (by rw [hf]; omega)]
    simp only [List.length_append, List.length_singleton]
    push_cast
    omega
  · intro v t hv
    exact runFrames_step m1 hs vs v t hv

/-- C8 (amended), concrete instance: on a 2x1 map, after four frames of which the first and the third
see the tile `(0, 0)`, the frame counter is 4, `lastSeen` of `(0, 0)` is 3 and that of `(1, 0)`
is still 0. -/
theorem lastSeen_tracks_frames_witness :
    ∃ m : State Unit,
      onStart (fun _ _ => true) (fun _ _ => true) (fun _ _ => 0) new 2 1 = some m ∧
      (runFrames [seeOrigin, seeNothing, seeOrigin, seeNothing] m).m_frame = 4 ∧
      (runFrames [seeOrigin, seeNothing, seeOrigin, seeNothing] m).m_lastSeen = [[3], [0]] := by
  obtain ⟨m, hrun, _, _, hall⟩ :=
    @lastSeen_tracks_frames Unit (fun _ _ => true) (fun _ _ => true) (fun _ _ => 0) 2 1
  have h1 := ((hall [seeOrigin, seeNothing, seeOrigin, seeNothing]).1 (by decide)).1
  have h2 : (onStart (fun _ _ => true) (fun _ _ => true) (fun _ _ => 0) (new : State Unit)
      2 1).map (fun m => (runFrames [seeOrigin, seeNothing, seeOrigin, seeNothing] m).m_lastSeen)
      = some [[3], [0]] := by decide
  rw [hrun] at h2
  exact ⟨m, hrun, by simpa using h1, by simpa using h2⟩

/-- C9 fails as stated: on a 2x1 map whose tile `(1, 0)` has `lastSeen = INT_MAX`, the
candidate list `[(1, 0)]` is non-empty and valid, yet the scan never updates and returns the
default-constructed tile `(0, 0)`, which is not in the list. -/
theorem getLeastRecentlySeenTile_sentinel :
    (∀ t ∈ [((1 : Int), (0 : Int))], isValidTile lastSeenExample t.1 t.2 = true) ∧
    getLeastRecentlySeenTile lastSeenExample [(1, 0)] (0, 0) = (0, 0) ∧
    getLeastRecentlySeenTile lastSeenExample [(1, 0)] (0, 0) ∉ [((1 : Int), (0 : Int))] := by
  decide

/-- C9 (amended): for a candidate list of valid tiles of which at least one has a `lastSeen`
value below `INT_MAX`, `getLeastRecentlySeenTile` returns a tile of the list whose `lastSeen`
is the minimum over the list, and it is the first tile of the list attaining that minimum:
every tile before it has a strictly larger value. -/
theorem getLeastRecentlySeenTile_min (m : State DM) (tiles : List Tile) (leastSeen0 : Tile)
    (_hvalid : ∀ t ∈ tiles, isValidTile m t.1 t.2 = true)
    (hlt : ∃ t ∈ tiles, lastSeenAt m t < INT_MAX) :
    getLeastRecentlySeenTile m tiles leastSeen0 ∈ tiles ∧
    (∀ t ∈ tiles, lastSeenAt m (getLeastRecentlySeenTile m tiles leastSeen0) ≤ lastSeenAt m t) ∧
    ∃ pre post, tiles = pre ++ getLeastRecentlySeenTile m tiles leastSeen0 :: post ∧
      ∀ t ∈ pre, lastSeenAt m (getLeastRecentlySeenTile m tiles leastSeen0) < lastSeenAt m t := by
  unfold getLeastRecentlySeenTile
  rcases leastSeen_scan m tiles (INT_MAX, leastSeen0) with
    ⟨_, hall⟩ | ⟨pre, post, hl, h1, _, h3, h4⟩
  · obtain ⟨t, ht, hlt1⟩ := hlt
    exact absurd (hall t ht) (not_le.2 hlt1)
  · refine ⟨?_, ?_, pre, post, hl, ?_⟩
    · have hmem : (tiles.foldl (fun (st : Int × Tile) tile =>
          if vvGet m.m_lastSeen tile.1 tile.2 < st.1 then
            (vvGet m.m_lastSeen tile.1 tile.2, tile)
          else st) (INT_MAX, leastSeen0)).2 ∈ pre ++ (tiles.foldl (fun (st : Int × Tile) tile =>
          if vvGet m.m_lastSeen tile.1 tile.2 < st.1 then
            (vvGet m.m_lastSeen tile.1 tile.2, tile)
          else st) (INT_MAX, leastSeen0)).2 :: post := by simp
      rw [← hl] at hmem
      exact hmem
    · intro t ht
      rw [← h1]
      rw [hl] at ht
      rcases List.mem_append.1 ht with hp | hp
      · exact le_of_lt (h3 t hp)
      · rcases List.mem_cons.1 hp with rfl | hq
        · rw [h1]
        · exact h4 t hq
    · intro t ht
      rw [← h1]
      exact h3 t ht

/-- C9 (amended), concrete instance: with `lastSeen` 0 at `(0, 0)` and `INT_MAX` at
`(1, 0)`, the scan of `[(1, 0), (0, 0)]` returns `(0, 0)`. -/
theorem getLeastRecentlySeenTile_min_witness :
    getLeastRecentlySeenTile lastSeenExample [(1, 0), (0, 0)] (1, 0) = (0, 0) ∧
    getLeastRecentlySeenTile lastSeenExample [(1, 0), (0, 0)] (1, 0) ∈
      [((1 : Int), (0 : Int)), (0, 0)] := by
  have h := getLeastRecentlySeenTile_min lastSeenExample [(1, 0), (0, 0)] (1, 0)
    (by decide) ⟨(0, 0), by decide, by decide⟩
  exact ⟨by decide, h.1⟩

/-- C10: the sector numbers handed out by `computeConnectivity` are exactly `1..N`, where `N`
(the final value of the counter `sectorNumber`) is the number of maximal 4-connected
components of walkable tiles: every number in `1..N` labels some tile, every tile's number
lies in `0..N`, and the tiles labelled with a number in `1..N` form one whole component. -/
theorem sector_numbers_exact (m : State DM) (hs : Shaped m) (hz : SectorsZero m) :
    ∃ m1 N, connectivityLoop m = some (m1, N) ∧ computeConnectivity m = some m1 ∧
      (components m1).ncard = N.toNat ∧ 0 ≤ N ∧
      (∀ j, 1 ≤ j → j ≤ N → ∃ t : Tile, getSectorNumber m1 t.1 t.2 = j) ∧
      (∀ x y : Int, 0 ≤ getSectorNumber m1 x y ∧ getSectorNumber m1 x y ≤ N) ∧
      (∀ j, 1 ≤ j → j ≤ N →
        {t : Tile | getSectorNumber m1 t.1 t.2 = j} ∈ components m1) := by
  obtain ⟨m1, k, hloop, hrun, _, hfill, hall⟩ := computeConnectivity_total m hs.sectorNumber hz
  refine ⟨m1, k, hloop, hrun, components_ncard hfill hall, hfill.knonneg, hfill.used, ?_, ?_⟩
  · intro x y
    by_cases hnz : secOf m1 (x, y) = 0
    · have : getSectorNumber m1 x y = 0 := hnz
      rw [this]
      exact ⟨le_refl 0, hfill.knonneg⟩
    · have := hfill.label (x, y) hnz
      have h1 : 1 ≤ getSectorNumber m1 x y := this.2.1
      have h2 : getSectorNumber m1 x y ≤ k := this.2.2
      exact ⟨by omega, h2⟩
  · intro j h1 h2
    obtain ⟨t, ht⟩ := hfill.used j h1 h2
    have hnz : secOf m1 t ≠ 0 := by rw [ht]; omega
    refine ⟨t, (hfill.label t hnz).1, ?_⟩
    ext b
    simp only [Set.mem_setOf_eq]
    rw [component_eq_label hfill (hfill.label t hnz).1 hnz b, ht]
    rfl

/-- C10, concrete instance: on the 3x2 grid split by the wall `x = 1` the flood fill hands
out exactly the two sector numbers 1 and 2, one per side, and the grid has two components. -/
theorem sector_numbers_exact_witness :
    Shaped gridWall ∧ SectorsZero gridWall ∧
    (connectivityLoop gridWall).map (fun r => (r.1.m_sectorNumber, r.2)) =
      some ([[1, 1], [0, 0], [2, 2]], 2) ∧
    ∃ m1, connectivityLoop gridWall = some (m1, 2) ∧ (components m1).ncard = 2 := by
  have hs : Shaped gridWall := onStartLayers_shaped _ _ _ _ 3 2
  have hz : SectorsZero gridWall := onStartLayers_sectorsZero _ _ _ _ 3 2
  obtain ⟨m1, N, hloop, _, hcard, _⟩ := sector_numbers_exact gridWall hs hz
  have h2 : (connectivityLoop gridWall).map (fun r => r.2) = some 2 := by decide
  rw [hloop] at h2
  simp only [Option.map_some', Option.some.injEq] at h2
  subst h2
  exact ⟨hs, hz, by decide, m1, hloop, hcard⟩

/-- C11 fails as stated: starting from the empty cache, 52 calls of `getDistanceMap` for the
origins `(0,0) .. (51,0)` leave 52 maps in the cache; the last call found 51 maps cached,
more than 50, and still computed and inserted a new one (only `getGroundDistance` checks the
size). -/
theorem getDistanceMap_cache_unbounded :
    (runQueries numberOps (fiftyTwoMaps.take 51) new)._allMaps.size = 51 ∧
    (runQueries numberOps fiftyTwoMaps new)._allMaps.size = 52 ∧
    (runQueries numberOps fiftyTwoMaps new)._allMaps.find (51, 0) = some 5101 ∧
    ¬ ((runQueries numberOps fiftyTwoMaps new)._allMaps.size ≤ 51) := by
  decide

/-- C11 (amended): in every state reached through `getGroundDistance` alone from a cache of at
most 51 maps (such as the empty cache after startup), the cache holds at most 51 maps, and
each call computes and inserts only into a cache of at most 50 maps: the call is
`getDistanceMap` run on the object itself when it holds at most 50 maps, and on the object
with the cache cleared otherwise. -/
theorem getGroundDistance_cache_bound {Pos : Type} (D : DistanceMapOps DM Pos) (m : State DM)
    (hm : m._allMaps.size ≤ 51) (qs : List (Pos × Pos)) :
    (runQueries D (qs.map (fun q => Query.groundDistance q.1 q.2)) m)._allMaps.size ≤ 51 ∧
    ∀ src dest : Pos, ∃ m1 : State DM, m1._allMaps.size ≤ 50 ∧
      (m1 = m ∨ (50 < m._allMaps.size ∧ m1 = { m with _allMaps := StdMap.empty })) ∧
      (getGroundDistance D m src dest).2 = (getDistanceMap D m1 (D.GetTilePosition dest)).2 ∧
      (getGroundDistance D m src dest).2._allMaps.size ≤ m1._allMaps.size + 1 := by
  constructor
  · induction qs using List.reverseRecOn with
    | nil => exact hm
    | append_singleton qs q _ =>
      simp only [runQueries, List.map_append, List.map_cons, List.map_nil, List.foldl_append,
        List.foldl_cons, List.foldl_nil, runQuery]
      exact getGroundDistance_size_le D _ q.1 q.2
  · intro src dest
    by_cases hbig : m._allMaps.size > 50
    · refine ⟨{ m with _allMaps := StdMap.empty }, Nat.zero_le _, Or.inr ⟨hbig, rfl⟩, ?_, ?_⟩
      · simp only [getGroundDistance, getDistanceMapPos, if_pos hbig]
      · simp only [getGroundDistance, getDistanceMapPos, if_pos hbig]
        rw [getDistanceMap_size]
        split_ifs <;> first | exact le_refl _ | exact Nat.le_succ _
    · refine ⟨m, by omega, Or.inl rfl, ?_, ?_⟩
      · simp only [getGroundDistance, getDistanceMapPos, if_neg hbig]
      · simp only [getGroundDistance, getDistanceMapPos, if_neg hbig]
        rw [getDistanceMap_size]
        split_ifs <;> omega

/-- C11 (amended), concrete instance: from the cache of 51 maps, three `getGroundDistance`
queries toward new origins leave 3 maps. -/
theorem getGroundDistance_cache_bound_witness :
    cache51._allMaps.size ≤ 51 ∧
    (runQueries numberOps
      ([((0, 0), (60, 0)), ((0, 0), (61, 0)), ((0, 0), (62, 0))].map
        (fun q => Query.groundDistance q.1 q.2)) cache51)._allMaps.size = 3 ∧
    (runQueries numberOps
      ([((0, 0), (60, 0)), ((0, 0), (61, 0)), ((0, 0), (62, 0))].map
        (fun q => Query.groundDistance q.1 q.2)) cache51)._allMaps.size ≤ 51 := by
  have h := (getGroundDistance_cache_bound numberOps cache51 (by decide)
    [((0, 0), (60, 0)), ((0, 0), (61, 0)), ((0, 0), (62, 0))]).1
  exact ⟨by decide, by decide, h⟩

/-- C12: after startup no operation changes the static layers.  `onFrame` leaves the
dimensions, `walkable`, `buildable`, `depotBuildable`, `terrainHeight`, the sector layer and
the cache as they were (it writes the frame counter and `lastSeen` only); `getGroundDistance`,
`getDistanceMap` and `getClosestTilesTo` leave those layers, the frame counter and `lastSeen`
as they were (they write the cache only). -/
theorem static_layers_unchanged {Pos : Type} (D : DistanceMapOps DM Pos) (m : State DM)
    (visible : Int → Int → Bool) (src dest : Pos) (tile : Tile) :
    (StaticEq m (onFrame visible m) ∧ (onFrame visible m)._allMaps = m._allMaps) ∧
    (StaticEq m (getGroundDistance D m src dest).2 ∧
      (getGroundDistance D m src dest).2.m_frame = m.m_frame ∧
      (getGroundDistance D m src dest).2.m_lastSeen = m.m_lastSeen) ∧
    (StaticEq m (getDistanceMap D m tile).2 ∧
      (getDistanceMap D m tile).2.m_frame = m.m_frame ∧
      (getDistanceMap D m tile).2.m_lastSeen = m.m_lastSeen) ∧
    (StaticEq m (getClosestTilesTo D m tile).2 ∧
      (getClosestTilesTo D m tile).2.m_frame = m.m_frame ∧
      (getClosestTilesTo D m tile).2.m_lastSeen = m.m_lastSeen) :=
  ⟨onFrame_frame_condition visible m, getGroundDistance_frame_condition D m src dest,
    getDistanceMap_frame_condition D m tile, getDistanceMap_frame_condition D m tile⟩

/-- C13: on the distance map modelled from the spec, in a state whose cached maps are the
computed ones, for two tiles `a` and `b` joined by a 4-directional path of in-bounds walkable
tiles (so both valid, walkable and connected), the distance stored at `b` in
`getDistanceMap(a)` is the number of steps of a shortest such path from `a` to `b`: some path
has that many steps and none has fewer; and the distance stored at the origin `a` is 0. -/
theorem getDistanceMap_shortest_path (m : State DistanceMap) (hc : CacheOk m) (a b : Tile)
    (hconn : ∃ p, IsWalkPath m a b p) :
    (getDistanceMap specOps m a).1.getDistance a = 0 ∧
    (∃ p, IsWalkPath m a b p ∧
      (p.length : Int) = (getDistanceMap specOps m a).1.getDistance b + 1) ∧
    (∀ q, IsWalkPath m a b q →
      (getDistanceMap specOps m a).1.getDistance b + 1 ≤ (q.length : Int)) := by
  obtain ⟨dm, hrun, h0, hex, hmin⟩ := computeDistanceMap_shortest m a b hconn
  rw [getDistanceMap_specOps m hc a dm hrun]
  exact ⟨h0, hex, hmin⟩

/-- C13, concrete instance: on the 4x4 grid blocked at `(1, 1)`, with an empty cache,
`getGroundDistance((0,0), (3,3))` reads the distance of `(0, 0)` in the map of `(3, 3)` and
is 6, the number of steps of the path along the border. -/
theorem getDistanceMap_shortest_path_witness :
    CacheOk grid44D ∧
    IsWalkPath grid44D (3, 3) (0, 0) [(3, 3), (2, 3), (1, 3), (0, 3), (0, 2), (0, 1), (0, 0)] ∧
    (getGroundDistance specOps grid44D (0, 0) (3, 3)).1 = 6 ∧
    (getDistanceMap specOps grid44D (3, 3)).1.getDistance (0, 0) = 6 ∧
    (getDistanceMap specOps grid44D (3, 3)).1.getDistance (3, 3) = 0 ∧
    ∀ q, IsWalkPath grid44D (3, 3) (0, 0) q →
      (getDistanceMap specOps grid44D (3, 3)).1.getDistance (0, 0) + 1 ≤ (q.length : Int) := by
  have hc : CacheOk grid44D := cacheOk_of_empty grid44D
    (onStartLayers_spec _ _ _ (new : State DistanceMap) 4 4).2.2.2.1
  have hp : IsWalkPath grid44D (3, 3) (0, 0)
      [(3, 3), (2, 3), (1, 3), (0, 3), (0, 2), (0, 1), (0, 0)] := by
    refine ⟨rfl, rfl, ?_, by decide⟩
    repeat (first | exact List.Chain.nil | refine List.Chain.cons (by decide) ?_)
  have h := getDistanceMap_shortest_path grid44D hc (3, 3) (0, 0) ⟨_, hp⟩
  exact ⟨hc, hp, by decide, by decide, h.1, h.2.2⟩

/-- C14 fails as stated: on the 4x4 grid blocked at `(1, 1)`, with the distance map modelled
from the spec, `getGroundDistance((0,0), (1,1))` is 2, not the unreached sentinel: the map
rooted at `(1, 1)` gives its walkable neighbours `(1, 0)` and `(0, 1)` the distance 1 and from
them reaches `(0, 0)`. -/
theorem getGroundDistance_blocked_origin_reached :
    isWalkable grid44D 1 1 = false ∧
    (getGroundDistance specOps grid44D (0, 0) (1, 1)).1 = 2 ∧
    (getGroundDistance specOps grid44D (0, 0) (1, 1)).1 ≠ unreached := by
  decide

/-- C14 (amended): on the 4x4 grid blocked at `(1, 1)`, `getGroundDistance((0,0), (1,1))`
returns 2: it reads the distance of `(0, 0)` in the map rooted at `(1, 1)`, and that map,
rooted at a non-walkable tile, still expands into the walkable neighbours of its origin
(distance 1) and beyond them.  The sentinel is what the query with the roles exchanged,
`getGroundDistance((1,1), (0,0))`, returns. -/
theorem getGroundDistance_blocked_origin :
    (getGroundDistance specOps grid44D (0, 0) (1, 1)).1 = 2 ∧
    (computeDistanceMap grid44D (1, 1)).map (fun d => d.dist) =
      some [[2, 1, 2, 3], [1, 0, 1, 2], [2, 1, 2, 3], [3, 2, 3, 4]] ∧
    (getGroundDistance specOps grid44D (1, 1) (0, 0)).1 = unreached := by
  decide

/-- C15: `computeConnectivity` returns on every grid of the shape `onStart` allocates and is
a single pass: over the whole run no tile is appended to the fringe twice, the number of
appends is the number of walkable tiles without a sector number at the start, which is the
number of walkable tiles when the sector layer starts all 0, and the fringe of each flood
fill never holds more than `m_width * m_height` entries. -/
theorem computeConnectivity_linear (m : State DM) (hs : Shaped m) :
    ∃ m1 N tr, connectivityTrace m = some (m1, N, tr) ∧ computeConnectivity m = some m1 ∧
      tr.flatten.Nodup ∧ tr.flatten.length = (zeroTiles m).card ∧
      (SectorsZero m → tr.flatten.length = (walkableTiles m).card) ∧
      (∀ F ∈ tr, F.length ≤ (m.m_width * m.m_height).toNat) := by
  obtain ⟨m1, k, tr, hrun, _, happ, hempty, hlen⟩ := connectivityTrace_spec m hs.sectorNumber
  have hsim := connectivityTrace_sim m
  rw [hrun] at hsim
  have hcard := happ.card
  rw [hempty, Finset.card_empty] at hcard
  refine ⟨m1, k, tr, hrun, ?_, happ.1, by omega, ?_, ?_⟩
  · simp [computeConnectivity, ← hsim]
  · intro hz
    have : zeroTiles m = walkableTiles m := by
      unfold zeroTiles walkableTiles
      apply Finset.filter_congr
      intro t _
      have := hz t.1 t.2
      simp only [secOf, this, and_true]
    rw [← this]
    omega
  · intro F hF
    exact le_trans (hlen F hF) (zeroTiles_card_le m)

/-- C15, concrete instance: on the 4x4 grid blocked at `(1, 1)` there is one flood fill
whose fringe ends with the 15 walkable tiles, below the capacity 16; on the 3x2 grid with a
wall there are two, of 2 tiles each. -/
theorem computeConnectivity_linear_witness :
    Shaped grid44 ∧
    (connectivityTrace grid44).map (fun r => r.2.2.map List.length) = some [15] ∧
    (connectivityTrace gridWall).map (fun r => r.2.2) =
      some [[(0, 0), (0, 1)], [(2, 0), (2, 1)]] ∧
    ∃ m1 N tr, connectivityTrace grid44 = some (m1, N, tr) ∧ tr.flatten.Nodup ∧
      tr.flatten.length = (walkableTiles grid44).card := by
  have hs : Shaped grid44 := onStartLayers_shaped _ _ _ _ 4 4
  have hz : SectorsZero grid44 := onStartLayers_sectorsZero _ _ _ _ 4 4
  obtain ⟨m1, N, tr, hrun, _, hnd, _, hw, _⟩ := computeConnectivity_linear grid44 hs
  exact ⟨hs, by decide, by decide, m1, N, tr, hrun, hnd, hw hz⟩

/-- C16: for every state, whatever its sector layer, `isConnected` is symmetric and
transitive, and `isConnected(a, a)` holds exactly when `a` is in bounds with a nonzero sector
number. -/
theorem isConnected_partial_equivalence (m : State DM) :
    (∀ x1 y1 x2 y2 : Int, isConnected m x1 y1 x2 y2 = isConnected m x2 y2 x1 y1) ∧
    (∀ x1 y1 x2 y2 x3 y3 : Int, isConnected m x1 y1 x2 y2 = true →
      isConnected m x2 y2 x3 y3 = true → isConnected m x1 y1 x3 y3 = true) ∧
    (∀ x y : Int, isConnected m x y x y = true ↔
      isValidTile m x y = true ∧ getSectorNumber m x y ≠ 0) := by
  refine ⟨?_, ?_, ?_⟩
  · intro x1 y1 x2 y2
    rw [Bool.eq_iff_iff, isConnected_eq, isConnected_eq]
    constructor
    · rintro ⟨h1, h2, h3, h4⟩
      exact ⟨h2, h1, by rw [← h4]; exact h3, h4.symm⟩
    · rintro ⟨h1, h2, h3, h4⟩
      exact ⟨h2, h1, by rw [← h4]; exact h3, h4.symm⟩
  · intro x1 y1 x2 y2 x3 y3 h12 h23
    rw [isConnected_eq] at h12 h23 ⊢
    exact ⟨h12.1, h23.2.1, h12.2.2.1, h12.2.2.2.trans h23.2.2.2⟩
  · intro x y
    rw [isConnected_eq]
    constructor
    · rintro ⟨h1, _, h3, _⟩
      exact ⟨h1, h3⟩
    · rintro ⟨h1, h3⟩
      exact ⟨h1, h1, h3, rfl⟩

/-- C17: `computeConnectivity` is idempotent: run a second time on the object the first run
returned (same walkable layer, sector layer as the first run wrote it), it returns that same
object, so no sector number changes. -/
theorem computeConnectivity_idempotent (m : State DM) (hs : Shaped m) (hz : SectorsZero m) :
    ∃ m1, computeConnectivity m = some m1 ∧ computeConnectivity m1 = some m1 := by
  obtain ⟨m1, k, _, hrun, _, _, hall⟩ := computeConnectivity_total m hs.sectorNumber hz
  refine ⟨m1, hrun, ?_⟩
  have hskip := connectivityLoop_skip m1 (by
    intro x y
    by_cases hw : isWalkable m1 x y = true
    · have := hall (x, y) hw
      have hne : getSectorNumber m1 x y ≠ 0 := this
      simp [hne]
    · simp [hw])
  simp [computeConnectivity, hskip]

/-- C17, concrete instance: on the 3x2 grid with a wall the second run returns the sector
layer of the first. -/
theorem computeConnectivity_idempotent_witness :
    Shaped gridWall ∧ SectorsZero gridWall ∧
    ((computeConnectivity gridWall).bind computeConnectivity).map (fun m1 => m1.m_sectorNumber) =
      some [[1, 1], [0, 0], [2, 2]] ∧
    ∃ m1, computeConnectivity gridWall = some m1 ∧ computeConnectivity m1 = some m1 := by
  have hs : Shaped gridWall := onStartLayers_shaped _ _ _ _ 3 2
  have hz : SectorsZero gridWall := onStartLayers_sectorsZero _ _ _ _ 3 2
  exact ⟨hs, hz, by decide, computeConnectivity_idempotent gridWall hs hz⟩

/-- C18, the code on a map taller than wide: with width 1, height 2, every placement byte
255 and every pathing byte 0, the tile `(0, 1)` is in bounds and the row-flipped index is 0,
where the placement byte is 255 and the pathing byte is not; yet `canBuild(0, 1)` and
`canWalk(0, 1)` return false (the bounds test compares `y` with the width), and after
`onStart` the tile is neither buildable nor walkable. -/
theorem canBuild_canWalk_tall_map :
    (tallInfo.placement_grid.length : Int) = tallInfo.width * tallInfo.height ∧
    (tallInfo.pathing_grid.length : Int) = tallInfo.width * tallInfo.height ∧
    byteAt tallInfo.placement_grid (0 + ((tallInfo.height - 1) - 1) * tallInfo.width) = some 255 ∧
    byteAt tallInfo.pathing_grid (0 + ((tallInfo.height - 1) - 1) * tallInfo.width) = some 0 ∧
    canBuild tallInfo 0 1 = some false ∧ canWalk tallInfo 0 1 = some false ∧
    (onStartSC2 tallInfo (fun _ _ => 0) (new : State Unit)).map
      (fun m => (isValidTile m 0 1, isBuildable m 0 1, isWalkable m 0 1)) =
      some (true, false, false) := by
  decide

end MapTools
